import Mathlib

/-!
Verification development for the `502-IT-` scheduling repository.

The development shallowly embeds the two source files of the repository:

* `src/scheduling/heap.py` — class `BinaryHeap`, a lazy-deletion priority
  queue built on Python's `heapq`.  Heap entries are the lists
  `[priority, counter, key, item]`; `heapq` pops the minimum entry in the
  lexicographic order of those lists.  Counters are distinct, so the
  comparison never reaches `key`/`item`; we model the `heapq` array by a
  list kept sorted by the key `(priority, counter)` (`heapPush` realises
  `heappush`, taking the head realises `heappop`/`heap[0]`).  The removal
  marker `_REMOVED` is modelled by `item = none`.

* `src/scheduling/scheduler.py` — class `PriorityAgingScheduler` with its
  tick loop `run`.  Python mutates `Process` objects shared between the
  list `procs`, the ready queue and `current`; we model the mutable store
  by the list `procs` addressed by `pid` (the queue stores pids), which is
  observationally equal for inputs with pairwise distinct pids — the input
  contract stated by the spec.  The unbounded `while` loop is modelled by
  iterating a step function that is the identity once the loop's exit
  condition holds, so any sufficiently large fuel yields the loop's result.

`src/scheduling/process.py` is not part of the sources; the `Process`
record is modelled from the spec (§3 DATA MODEL).
-/

namespace Sched

/-- Priority tuples `(int, int, int)` used by the scheduler, e.g.
`(effective_priority, arrival, 0)`. -/
abbrev Prio := Int × Int × Int

/-- One physical heap entry `[priority, counter, key, item]`
(`heap.py`, line 34).  `item = none` models the `_REMOVED` tombstone. -/
structure Entry (α : Type) where
  prio : Prio
  count : Nat
  key : String
  item : Option α
deriving DecidableEq, Repr

variable {α : Type}

/-- The comparison key under which `heapq` orders entries: the priority
tuple lexicographically, then the insertion counter.  (Python compares the
entry lists lexicographically; counters are unique among coexisting
entries, so `key`/`item` are never compared.) -/
def entryKey (e : Entry α) : Int ×ₗ Int ×ₗ Int ×ₗ Nat :=
  toLex (e.prio.1, toLex (e.prio.2.1, toLex (e.prio.2.2, e.count)))

/-- Whether an entry is live (not tombstoned by `remove`). -/
def entryLive (e : Entry α) : Bool := e.item.isSome

/-- The live entries of a physical heap list. -/
def liveList (l : List (Entry α)) : List (Entry α) := l.filter entryLive

/-- Model of `heapq.heappush`: insert into the list sorted by `entryKey`
(stable: after existing entries with an equal key, which cannot occur in
reachable states since counters are distinct). -/
def heapPush (e : Entry α) : List (Entry α) → List (Entry α)
  | [] => [e]
  | x :: xs => if entryKey x ≤ entryKey e then x :: heapPush e xs else e :: x :: xs

/-- Model of `heapq.heappop` composed with the lazy-deletion skip loop:
drop tombstoned entries until a live one is popped. -/
def popLive : List (Entry α) → Option (Entry α × List (Entry α))
  | [] => none
  | e :: rest =>
    match e.item with
    | some _ => some (e, rest)
    | none => popLive rest

/-- State of `BinaryHeap` (`heap.py`, lines 15–18): the `heapq` array, the
key→entry index (an entry is identified by its unique counter), and the
monotone insertion counter. -/
structure BinaryHeap (α : Type) where
  heap : List (Entry α)
  entry_finder : List (String × Nat)
  counter : Nat
deriving DecidableEq, Repr

/-- A fresh `BinaryHeap()`. -/
def BinaryHeap.emptyHeap : BinaryHeap α := ⟨[], [], 0⟩

/-- Deletion of a key from the key→entry index (`del`/`pop` on the dict). -/
def eraseKey (f : List (String × Nat)) (k : String) : List (String × Nat) :=
  f.filter (fun kv => !(kv.1 == k))

/-- In-place `entry[3] = _REMOVED` on the entry with counter `c`. -/
def tombstone (c : Nat) (l : List (Entry α)) : List (Entry α) :=
  l.map fun e => if e.count = c then { e with item := none } else e

/-- `BinaryHeap.remove` (`heap.py`, lines 39–41): pop the key from the
index and mark its entry removed.  Python raises `KeyError` on an absent
key; the repository only calls `remove` on present keys (guarded inside
`insert`), so the absent case is modelled as the identity. -/
def BinaryHeap.remove (h : BinaryHeap α) (key : String) : BinaryHeap α :=
  match h.entry_finder.lookup key with
  | none => h
  | some c => ⟨tombstone c h.heap, eraseKey h.entry_finder key, h.counter⟩

/-- `BinaryHeap.insert` (`heap.py`, lines 26–37): logically remove any
existing entry for `key`, then push a fresh entry carrying the next
counter and register it in the index. -/
def BinaryHeap.insert (h : BinaryHeap α) (key : String) (item : α) (priority : Prio) :
    BinaryHeap α :=
  let h1 := match h.entry_finder.lookup key with
    | some _ => h.remove key
    | none => h
  ⟨heapPush ⟨priority, h1.counter, key, some item⟩ h1.heap,
    (key, h1.counter) :: h1.entry_finder, h1.counter + 1⟩

/-- `BinaryHeap.extract_min` (`heap.py`, lines 43–49): pop entries until a
live one appears, unregister its key and return its item; `none` models
the `KeyError("Empty heap")` raised when no live entry exists. -/
def BinaryHeap.extract_min (h : BinaryHeap α) : Option (α × BinaryHeap α) :=
  match popLive h.heap with
  | some (⟨_, _, k, some it⟩, rest) => some (it, ⟨rest, eraseKey h.entry_finder k, h.counter⟩)
  | _ => none

/-- `BinaryHeap.peek_min_priority` (`heap.py`, lines 51–58): physically
discard leading tombstones, return the priority of the live minimum
without removing it; `none` models the `KeyError("Empty heap")`. -/
def BinaryHeap.peek_min_priority (h : BinaryHeap α) : Option (Prio × BinaryHeap α) :=
  match popLive h.heap with
  | some (e, rest) => some (e.prio, ⟨e :: rest, h.entry_finder, h.counter⟩)
  | none => none

/-- `BinaryHeap.__len__`: the number of live entries, i.e. the size of the
key→entry index. -/
def BinaryHeap.size (h : BinaryHeap α) : Nat := h.entry_finder.length

/-- `BinaryHeap.is_empty` (`heap.py`, lines 23–24). -/
def BinaryHeap.is_empty (h : BinaryHeap α) : Bool := h.entry_finder.isEmpty

/-- The live entries of the queue. -/
def BinaryHeap.liveEntries (h : BinaryHeap α) : List (Entry α) := liveList h.heap

/-- The live entry registered for a key, if any. -/
def BinaryHeap.liveEntry (h : BinaryHeap α) (k : String) : Option (Entry α) :=
  h.heap.find? (fun e => entryLive e && e.key == k)

/-- Sortedness of the physical heap list under the `heapq` comparison key. -/
def sortedHeap (l : List (Entry α)) : Prop :=
  l.Pairwise (fun a b => entryKey a ≤ entryKey b)

theorem heapPush_perm (e : Entry α) (l : List (Entry α)) :
    (heapPush e l).Perm (e :: l) := by
  induction l with
  | nil => exact List.Perm.refl _
  | cons x xs ih =>
    unfold heapPush
    split
    · exact ((ih.cons x).trans (List.Perm.swap e x xs))
    · exact List.Perm.refl _

theorem mem_heapPush {a e : Entry α} {l : List (Entry α)} :
    a ∈ heapPush e l ↔ a = e ∨ a ∈ l := by
  rw [(heapPush_perm e l).mem_iff, List.mem_cons]

theorem heapPush_sorted {e : Entry α} {l : List (Entry α)} (hs : sortedHeap l) :
    sortedHeap (heapPush e l) := by
  induction l with
  | nil => simp [heapPush, sortedHeap]
  | cons x xs ih =>
    unfold heapPush
    rw [sortedHeap, List.pairwise_cons] at hs
    split
    · rename_i hle
      rw [sortedHeap, List.pairwise_cons]
      refine ⟨fun y hy => ?_, ih hs.2⟩
      rcases mem_heapPush.mp hy with rfl | hy
      · exact hle
      · exact hs.1 y hy
    · rename_i hnle
      have hex : entryKey e ≤ entryKey x := le_of_not_le hnle
      rw [sortedHeap, List.pairwise_cons]
      refine ⟨fun y hy => ?_, List.pairwise_cons.mpr hs⟩
      rcases List.mem_cons.mp hy with rfl | hy
      · exact hex
      · exact le_trans hex (hs.1 y hy)

theorem tombstone_statics (c : Nat) (l : List (Entry α)) :
    (tombstone c l).map (fun e => (e.prio, e.count, e.key)) =
      l.map (fun e => (e.prio, e.count, e.key)) := by
  unfold tombstone
  rw [List.map_map]
  refine List.map_congr_left fun e _ => ?_
  by_cases h : e.count = c <;> simp [h]

theorem tombstone_sorted {c : Nat} {l : List (Entry α)} (hs : sortedHeap l) :
    sortedHeap (tombstone c l) := by
  unfold tombstone
  refine List.Pairwise.map _ (fun a b hab => ?_) hs
  have ka : entryKey (if a.count = c then { a with item := none } else a) = entryKey a := by
    by_cases h : a.count = c <;> simp [h, entryKey]
  have kb : entryKey (if b.count = c then { b with item := none } else b) = entryKey b := by
    by_cases h : b.count = c <;> simp [h, entryKey]
  rw [ka, kb]; exact hab

theorem tombstone_map_count (c : Nat) (l : List (Entry α)) :
    (tombstone c l).map Entry.count = l.map Entry.count := by
  unfold tombstone
  rw [List.map_map]
  refine List.map_congr_left fun e _ => ?_
  by_cases h : e.count = c <;> simp [h]

theorem mem_tombstone {c : Nat} {l : List (Entry α)} {e : Entry α} (he : e ∈ l) :
    (if e.count = c then { e with item := none } else e) ∈ tombstone c l :=
  List.mem_map_of_mem _ he

theorem mem_of_mem_tombstone {c : Nat} {l : List (Entry α)} {e : Entry α}
    (he : e ∈ tombstone c l) :
    ∃ e₀ ∈ l, e = if e₀.count = c then { e₀ with item := none } else e₀ := by
  rcases List.mem_map.mp he with ⟨e₀, h₀, rfl⟩
  exact ⟨e₀, h₀, rfl⟩

theorem mem_eraseKey {f : List (String × Nat)} {k : String} {kv : String × Nat} :
    kv ∈ eraseKey f k ↔ kv ∈ f ∧ kv.1 ≠ k := by
  simp [eraseKey, List.mem_filter]

theorem eraseKey_sublist (f : List (String × Nat)) (k : String) :
    (eraseKey f k).Sublist f := List.filter_sublist f

theorem lookup_eraseKey_self (f : List (String × Nat)) (k : String) :
    (eraseKey f k).lookup k = none := by
  induction f with
  | nil => rfl
  | cons kv rest ih =>
    obtain ⟨a, b⟩ := kv
    by_cases h : a = k
    · simpa [eraseKey, List.filter_cons, h] using ih
    · rw [eraseKey, List.filter_cons]
      simpa [beq_false_of_ne h, List.lookup_cons, beq_false_of_ne (Ne.symm h), eraseKey] using ih

theorem lookup_eraseKey_ne (f : List (String × Nat)) {k k' : String} (h : k' ≠ k) :
    (eraseKey f k).lookup k' = f.lookup k' := by
  induction f with
  | nil => rfl
  | cons kv rest ih =>
    obtain ⟨a, b⟩ := kv
    by_cases hk : a = k
    · rw [eraseKey, List.filter_cons]
      simpa [hk, List.lookup_cons, beq_false_of_ne h, eraseKey] using ih
    · rw [eraseKey, List.filter_cons]
      by_cases hk' : k' = a
      · simp [beq_false_of_ne hk, List.lookup_cons, hk']
      · simpa [beq_false_of_ne hk, List.lookup_cons, beq_false_of_ne hk', eraseKey] using ih

theorem mem_of_lookup_some {f : List (String × Nat)} {k : String} {c : Nat}
    (h : f.lookup k = some c) : (k, c) ∈ f := by
  induction f with
  | nil => simp [List.lookup] at h
  | cons kv rest ih =>
    obtain ⟨a, b⟩ := kv
    by_cases hk : k = a
    · rw [List.lookup_cons] at h
      simp [hk] at h
      subst h
      simp [hk]
    · rw [List.lookup_cons] at h
      simp [beq_false_of_ne hk] at h
      exact List.mem_cons_of_mem _ (ih h)

theorem lookup_isSome_of_mem {f : List (String × Nat)} {k : String} {c : Nat}
    (h : (k, c) ∈ f) : (f.lookup k).isSome := by
  induction f with
  | nil => simp at h
  | cons kv rest ih =>
    obtain ⟨a, b⟩ := kv
    rcases List.mem_cons.mp h with heq | hmem
    · rw [Prod.mk.injEq] at heq
      rw [List.lookup_cons]
      simp [heq.1]
    · rw [List.lookup_cons]
      by_cases hk : k = a
      · simp [hk]
      · simpa [beq_false_of_ne hk] using ih hmem

theorem lookup_of_mem_nodup {f : List (String × Nat)} {k : String} {c : Nat}
    (hnd : (f.map Prod.fst).Nodup) (h : (k, c) ∈ f) : f.lookup k = some c := by
  induction f with
  | nil => simp at h
  | cons kv rest ih =>
    obtain ⟨a, b⟩ := kv
    rw [List.map_cons, List.nodup_cons] at hnd
    rcases List.mem_cons.mp h with heq | hmem
    · rw [Prod.mk.injEq] at heq
      rw [List.lookup_cons]
      simp [heq.1, heq.2]
    · rw [List.lookup_cons]
      have hne : k ≠ a := by
        rintro rfl
        exact hnd.1 (List.mem_map.mpr ⟨(k, c), hmem, rfl⟩)
      simpa [beq_false_of_ne hne] using ih hnd.2 hmem

theorem popLive_eq_none_iff {l : List (Entry α)} :
    popLive l = none ↔ liveList l = [] := by
  induction l with
  | nil => simp [popLive, liveList]
  | cons e rest ih =>
    cases hi : e.item with
    | some it => simp [popLive, hi, liveList, List.filter_cons, entryLive]
    | none =>
      rw [show popLive (e :: rest) = popLive rest by rw [popLive, hi]]
      rw [show liveList (e :: rest) = liveList rest by
        simp [liveList, List.filter_cons, entryLive, hi]]
      exact ih

theorem popLive_some_spec {l : List (Entry α)} {e : Entry α} {rest : List (Entry α)}
    (h : popLive l = some (e, rest)) :
    entryLive e = true ∧ ∃ pre, l = pre ++ e :: rest ∧ ∀ x ∈ pre, entryLive x = false := by
  induction l generalizing e rest with
  | nil => simp [popLive] at h
  | cons x xs ih =>
    cases hi : x.item with
    | some it =>
      rw [popLive, hi] at h
      injection h with h'
      injection h' with h1 h2
      subst h1; subst h2
      exact ⟨by simp [entryLive, hi], [], by simp⟩
    | none =>
      rw [popLive, hi] at h
      rcases ih h with ⟨hl, pre, rfl, hpre⟩
      refine ⟨hl, x :: pre, by simp, fun y hy => ?_⟩
      rcases List.mem_cons.mp hy with rfl | hy
      · simp [entryLive, hi]
      · exact hpre y hy

theorem popLive_liveList {l : List (Entry α)} {e : Entry α} {rest : List (Entry α)}
    (h : popLive l = some (e, rest)) : liveList l = e :: liveList rest := by
  rcases popLive_some_spec h with ⟨hl, pre, rfl, hpre⟩
  unfold liveList
  rw [List.filter_append, List.filter_cons]
  have : List.filter entryLive pre = [] := List.filter_eq_nil_iff.mpr (by
    intro x hx
    simp [hpre x hx])
  simp [this, hl]

/-- Well-formedness of a `BinaryHeap` state: the physical list is sorted in
the `heapq` order, counters are distinct and below the next counter, and the
key→entry index is exactly the set of live entries (at most one live entry
per key).  All reachable states of the class satisfy this. -/
structure HeapWF (h : BinaryHeap α) : Prop where
  sorted : sortedHeap h.heap
  counts_nodup : (h.heap.map Entry.count).Nodup
  counts_lt : ∀ e ∈ h.heap, e.count < h.counter
  fkeys_nodup : (h.entry_finder.map Prod.fst).Nodup
  finder_live : ∀ kv ∈ h.entry_finder,
    ∃ e ∈ h.heap, e.key = kv.1 ∧ e.count = kv.2 ∧ entryLive e = true
  live_finder : ∀ e ∈ h.heap, entryLive e = true → (e.key, e.count) ∈ h.entry_finder

instance (l : List (Entry α)) : Decidable (sortedHeap l) := by
  unfold sortedHeap
  infer_instance

instance (h : BinaryHeap α) [DecidableEq α] : Decidable (HeapWF h) :=
  decidable_of_iff (sortedHeap h.heap ∧ (h.heap.map Entry.count).Nodup ∧
      (∀ e ∈ h.heap, e.count < h.counter) ∧ (h.entry_finder.map Prod.fst).Nodup ∧
      (∀ kv ∈ h.entry_finder,
        ∃ e ∈ h.heap, e.key = kv.1 ∧ e.count = kv.2 ∧ entryLive e = true) ∧
      (∀ e ∈ h.heap, entryLive e = true → (e.key, e.count) ∈ h.entry_finder))
    ⟨fun ⟨a, b, c, d, e, f⟩ => ⟨a, b, c, d, e, f⟩, fun ⟨a, b, c, d, e, f⟩ => ⟨a, b, c, d, e, f⟩⟩

theorem emptyHeap_wf : HeapWF (BinaryHeap.emptyHeap : BinaryHeap α) := by
  constructor <;> simp [BinaryHeap.emptyHeap, sortedHeap]

/-- Under well-formedness there is at most one live entry per key. -/
theorem live_unique {h : BinaryHeap α} (wf : HeapWF h) {e₁ e₂ : Entry α}
    (h₁ : e₁ ∈ h.heap) (l₁ : entryLive e₁ = true)
    (h₂ : e₂ ∈ h.heap) (l₂ : entryLive e₂ = true) (hk : e₁.key = e₂.key) : e₁ = e₂ := by
  have m₁ := wf.live_finder e₁ h₁ l₁
  have m₂ := wf.live_finder e₂ h₂ l₂
  rw [hk] at m₁
  have hc : e₁.count = e₂.count := by
    have ha := lookup_of_mem_nodup wf.fkeys_nodup m₁
    have hb := lookup_of_mem_nodup wf.fkeys_nodup m₂
    rw [ha] at hb
    injection hb
  exact List.inj_on_of_nodup_map wf.counts_nodup h₁ h₂ hc

theorem not_mem_map_fst_of_lookup_none {f : List (String × Nat)} {k : String}
    (h : f.lookup k = none) : k ∉ f.map Prod.fst := by
  intro hk
  rcases List.mem_map.mp hk with ⟨kv, hmem, hfst⟩
  have := lookup_isSome_of_mem (f := f) (k := k) (c := kv.2)
    (by rw [show (k, kv.2) = kv from Prod.ext hfst.symm rfl]; exact hmem)
  rw [h] at this
  simp at this

theorem remove_counter (h : BinaryHeap α) (k : String) : (h.remove k).counter = h.counter := by
  unfold BinaryHeap.remove
  cases h.entry_finder.lookup k <;> rfl

/-- For a live entry, having the registered counter for key `k` is the same
as having key `k`. -/
theorem live_count_eq_iff_key {h : BinaryHeap α} (wf : HeapWF h) {k : String} {c : Nat}
    (hl : h.entry_finder.lookup k = some c) {e : Entry α} (he : e ∈ h.heap)
    (hlive : entryLive e = true) : e.count = c ↔ e.key = k := by
  have hkc := mem_of_lookup_some hl
  rcases wf.finder_live (k, c) hkc with ⟨e', he', hk', hc', hl'⟩
  constructor
  · intro hcc
    have : e = e' := List.inj_on_of_nodup_map wf.counts_nodup he he' (by rw [hcc, hc'])
    rw [this, hk']
  · intro hkk
    have : e = e' := live_unique wf he hlive he' hl' (by rw [hkk, hk'])
    rw [this, hc']

theorem remove_wf {h : BinaryHeap α} (wf : HeapWF h) (k : String) : HeapWF (h.remove k) := by
  unfold BinaryHeap.remove
  cases hl : h.entry_finder.lookup k with
  | none => exact wf
  | some c =>
    refine ⟨tombstone_sorted wf.sorted, ?_, ?_, ?_, ?_, ?_⟩
    · rw [tombstone_map_count]; exact wf.counts_nodup
    · intro e he
      rcases mem_of_mem_tombstone he with ⟨e₀, h₀, rfl⟩
      have := wf.counts_lt e₀ h₀
      split <;> simpa using this
    · exact ((eraseKey_sublist _ _).map _).nodup wf.fkeys_nodup
    · intro kv hkv
      rcases mem_eraseKey.mp hkv with ⟨hmem, hne⟩
      rcases wf.finder_live kv hmem with ⟨e, he, hk, hc, hlive⟩
      have hcne : e.count ≠ c := by
        intro hcc
        have := (live_count_eq_iff_key wf hl he hlive).mp hcc
        rw [hk] at this
        exact hne this
      refine ⟨e, ?_, hk, hc, hlive⟩
      have := mem_tombstone (c := c) he
      rwa [if_neg hcne] at this
    · intro e he hlive
      rcases mem_of_mem_tombstone he with ⟨e₀, h₀, heq⟩
      by_cases hcc : e₀.count = c
      · rw [heq, if_pos hcc] at hlive
        simp [entryLive] at hlive
      · rw [if_neg hcc] at heq
        have hlive₀ : entryLive e₀ = true := heq ▸ hlive
        have hkne : e₀.key ≠ k := by
          intro hkk
          exact hcc ((live_count_eq_iff_key wf hl h₀ hlive₀).mpr hkk)
        rw [heq]
        exact mem_eraseKey.mpr ⟨wf.live_finder e₀ h₀ hlive₀, hkne⟩

theorem remove_lookup_self {h : BinaryHeap α} (_wf : HeapWF h) (k : String) :
    (h.remove k).entry_finder.lookup k = none := by
  unfold BinaryHeap.remove
  cases hl : h.entry_finder.lookup k with
  | none => exact hl
  | some c => exact lookup_eraseKey_self _ _

theorem remove_live_mem {h : BinaryHeap α} (wf : HeapWF h) (k : String) {e : Entry α} :
    (e ∈ (h.remove k).heap ∧ entryLive e = true) ↔
      (e ∈ h.heap ∧ entryLive e = true ∧ e.key ≠ k) := by
  unfold BinaryHeap.remove
  cases hl : h.entry_finder.lookup k with
  | none =>
    simp only []
    constructor
    · rintro ⟨he, hlive⟩
      refine ⟨he, hlive, fun hk => ?_⟩
      have := wf.live_finder e he hlive
      rw [hk] at this
      have := lookup_isSome_of_mem this
      rw [hl] at this
      simp at this
    · rintro ⟨he, hlive, _⟩
      exact ⟨he, hlive⟩
  | some c =>
    simp only []
    constructor
    · rintro ⟨he, hlive⟩
      rcases mem_of_mem_tombstone he with ⟨e₀, h₀, heq⟩
      by_cases hcc : e₀.count = c
      · rw [heq, if_pos hcc] at hlive
        simp [entryLive] at hlive
      · rw [if_neg hcc] at heq
        have hlive₀ : entryLive e₀ = true := heq ▸ hlive
        rw [heq]
        exact ⟨h₀, hlive₀, fun hk => hcc ((live_count_eq_iff_key wf hl h₀ hlive₀).mpr hk)⟩
    · rintro ⟨he, hlive, hk⟩
      have hcc : e.count ≠ c := fun hcc => hk ((live_count_eq_iff_key wf hl he hlive).mp hcc)
      have := mem_tombstone (c := c) he
      rw [if_neg hcc] at this
      exact ⟨this, hlive⟩

theorem insert_unfold (h : BinaryHeap α) (k : String) (it : α) (p : Prio) :
    ∃ h1 : BinaryHeap α,
      (h1 = h ∨ h1 = h.remove k) ∧ h1.counter = h.counter ∧
      (HeapWF h → HeapWF h1) ∧ (HeapWF h → h1.entry_finder.lookup k = none) ∧
      h.insert k it p =
        ⟨heapPush ⟨p, h.counter, k, some it⟩ h1.heap,
          (k, h.counter) :: h1.entry_finder, h.counter + 1⟩ := by
  unfold BinaryHeap.insert
  cases hl : h.entry_finder.lookup k with
  | none =>
    exact ⟨h, Or.inl rfl, rfl, fun wf => wf, fun _ => hl, rfl⟩
  | some c =>
    refine ⟨h.remove k, Or.inr rfl, remove_counter h k, fun wf => remove_wf wf k,
      fun wf => remove_lookup_self wf k, ?_⟩
    show (⟨heapPush ⟨p, (h.remove k).counter, k, some it⟩ (h.remove k).heap,
      (k, (h.remove k).counter) :: (h.remove k).entry_finder, (h.remove k).counter + 1⟩ :
        BinaryHeap α) = _
    rw [remove_counter]

theorem insert_wf {h : BinaryHeap α} (wf : HeapWF h) (k : String) (it : α) (p : Prio) :
    HeapWF (h.insert k it p) := by
  rcases insert_unfold h k it p with ⟨h1, hcase, hctr, hwf1, hlk, heq⟩
  have wf1 := hwf1 wf
  have hcounts : ∀ e ∈ h1.heap, e.count < h.counter := by
    intro e he
    have := wf1.counts_lt e he
    rwa [hctr] at this
  rw [heq]
  set newE : Entry α := ⟨p, h.counter, k, some it⟩ with hnewE
  refine ⟨heapPush_sorted wf1.sorted, ?_, ?_, ?_, ?_, ?_⟩
  · have hperm : ((heapPush newE h1.heap).map Entry.count).Perm
        ((newE :: h1.heap).map Entry.count) :=
      (heapPush_perm newE h1.heap).map _
    refine hperm.nodup_iff.mpr ?_
    rw [List.map_cons, List.nodup_cons]
    constructor
    · intro hmem
      rcases List.mem_map.mp hmem with ⟨e, he, hce⟩
      have hbound := hcounts e he
      rw [hnewE] at hce
      simp at hce
      omega
    · exact wf1.counts_nodup
  · intro e he
    rcases mem_heapPush.mp he with rfl | he
    · exact Nat.lt_succ_self _
    · exact Nat.lt_succ_of_lt (hcounts e he)
  · rw [List.map_cons, List.nodup_cons]
    exact ⟨not_mem_map_fst_of_lookup_none (hlk wf), wf1.fkeys_nodup⟩
  · intro kv hkv
    rcases List.mem_cons.mp hkv with rfl | hkv
    · exact ⟨newE, mem_heapPush.mpr (Or.inl rfl), rfl, rfl, rfl⟩
    · rcases wf1.finder_live kv hkv with ⟨e, he, hk, hc, hlive⟩
      exact ⟨e, mem_heapPush.mpr (Or.inr he), hk, hc, hlive⟩
  · intro e he hlive
    rcases mem_heapPush.mp he with rfl | he
    · exact List.mem_cons_self _ _
    · exact List.mem_cons_of_mem _ (wf1.live_finder e he hlive)

theorem insert_counter (h : BinaryHeap α) (k : String) (it : α) (p : Prio) :
    (h.insert k it p).counter = h.counter + 1 := by
  rcases insert_unfold h k it p with ⟨h1, _, _, _, _, heq⟩
  rw [heq]

theorem insert_finder_lookup {h : BinaryHeap α} (wf : HeapWF h) (k : String) (it : α)
    (p : Prio) (k' : String) :
    (h.insert k it p).entry_finder.lookup k' =
      if k' = k then some h.counter else h.entry_finder.lookup k' := by
  rcases insert_unfold h k it p with ⟨h1, hcase, hctr, hwf1, hlk, heq⟩
  rw [heq]
  by_cases hk : k' = k
  · subst hk
    simp [List.lookup_cons]
  · rw [if_neg hk]
    rw [show List.lookup k' ((k, h.counter) :: h1.entry_finder) = h1.entry_finder.lookup k' by
      rw [List.lookup_cons]; simp [beq_false_of_ne hk]]
    rcases hcase with rfl | rfl
    · rfl
    · unfold BinaryHeap.remove
      cases hl : h.entry_finder.lookup k with
      | none => rfl
      | some c => exact lookup_eraseKey_ne _ hk

theorem insert_live_mem {h : BinaryHeap α} (wf : HeapWF h) (k : String) (it : α) (p : Prio)
    {e : Entry α} :
    (e ∈ (h.insert k it p).heap ∧ entryLive e = true) ↔
      ((e ∈ h.heap ∧ entryLive e = true ∧ e.key ≠ k) ∨ e = ⟨p, h.counter, k, some it⟩) := by
  rcases insert_unfold h k it p with ⟨h1, hcase, hctr, hwf1, hlk, heq⟩
  rw [heq]
  have hlive1 : ∀ e : Entry α,
      (e ∈ h1.heap ∧ entryLive e = true) ↔ (e ∈ h.heap ∧ entryLive e = true ∧ e.key ≠ k) := by
    intro e
    rcases hcase with rfl | hrm
    · constructor
      · rintro ⟨hmem, hl⟩
        refine ⟨hmem, hl, fun hkk => ?_⟩
        have hfin := wf.live_finder e hmem hl
        rw [hkk] at hfin
        have := lookup_isSome_of_mem hfin
        rw [hlk wf] at this
        simp at this
      · rintro ⟨hmem, hl, _⟩
        exact ⟨hmem, hl⟩
    · rw [hrm]
      exact remove_live_mem wf k
  constructor
  · rintro ⟨hmem, hl⟩
    rcases mem_heapPush.mp hmem with hnew | hold
    · exact Or.inr hnew
    · exact Or.inl ((hlive1 e).mp ⟨hold, hl⟩)
  · rintro (hyp | hnew)
    · have := (hlive1 e).mpr hyp
      exact ⟨mem_heapPush.mpr (Or.inr this.1), this.2⟩
    · refine ⟨mem_heapPush.mpr (Or.inl hnew), ?_⟩
      rw [hnew]
      rfl

theorem liveList_eq_nil_iff_finder {h : BinaryHeap α} (wf : HeapWF h) :
    liveList h.heap = [] ↔ h.entry_finder = [] := by
  constructor
  · intro hnil
    cases hf : h.entry_finder with
    | nil => rfl
    | cons kv rest =>
      rcases wf.finder_live kv (by rw [hf]; exact List.mem_cons_self _ _) with
        ⟨e, he, _, _, hl⟩
      have : e ∈ liveList h.heap := List.mem_filter.mpr ⟨he, hl⟩
      rw [hnil] at this
      simp at this
  · intro hnil
    cases hh : liveList h.heap with
    | nil => rfl
    | cons e rest =>
      have he : e ∈ liveList h.heap := by rw [hh]; exact List.mem_cons_self _ _
      rcases List.mem_filter.mp he with ⟨hmem, hl⟩
      have := wf.live_finder e hmem hl
      rw [hnil] at this
      simp at this

theorem extract_min_eq_none_iff {h : BinaryHeap α} (wf : HeapWF h) :
    h.extract_min = none ↔ h.entry_finder = [] := by
  rw [← liveList_eq_nil_iff_finder wf]
  unfold BinaryHeap.extract_min
  cases hp : popLive h.heap with
  | none => simpa using popLive_eq_none_iff.mp hp
  | some er =>
    obtain ⟨e, rest⟩ := er
    have hlive := (popLive_some_spec hp).1
    have hll := popLive_liveList hp
    cases hi : e.item with
    | none => rw [entryLive, hi] at hlive; simp at hlive
    | some it =>
      constructor
      · intro hx
        obtain ⟨ep, ec, ek, eit⟩ := e
        simp at hi
        subst hi
        simp at hx
      · intro hx
        rw [hx] at hll
        simp at hll

theorem extract_min_unfold {h : BinaryHeap α} {e : Entry α} {rest : List (Entry α)}
    (hp : popLive h.heap = some (e, rest)) {it : α} (hi : e.item = some it) :
    h.extract_min = some (it, ⟨rest, eraseKey h.entry_finder e.key, h.counter⟩) := by
  unfold BinaryHeap.extract_min
  rw [hp]
  obtain ⟨ep, ec, ek, eit⟩ := e
  change eit = some it at hi
  subst hi
  rfl

/-- Specification of a successful `extract_min` under well-formedness: it
pops the tombstone prefix and the live minimum, returns that entry's item,
and unregisters its key; the remaining state is well-formed and its live
entries are the previous ones minus the extracted minimum. -/
theorem extract_min_spec {h : BinaryHeap α} (wf : HeapWF h) {it : α} {h' : BinaryHeap α}
    (hx : h.extract_min = some (it, h')) :
    ∃ e rest, popLive h.heap = some (e, rest) ∧ e.item = some it ∧
      h' = ⟨rest, eraseKey h.entry_finder e.key, h.counter⟩ ∧
      HeapWF h' ∧ h.liveEntries = e :: h'.liveEntries ∧
      (∀ x ∈ h.liveEntries, entryKey e ≤ entryKey x) ∧
      (e.key, e.count) ∈ h.entry_finder ∧
      h'.entry_finder = eraseKey h.entry_finder e.key := by
  cases hp : popLive h.heap with
  | none =>
    have hnone : h.extract_min = none := by
      unfold BinaryHeap.extract_min
      rw [hp]
    rw [hnone] at hx
    simp at hx
  | some er =>
    obtain ⟨e, rest⟩ := er
    rcases popLive_some_spec hp with ⟨hlive, pre, hsplit, hpre⟩
    obtain ⟨it', hi⟩ : ∃ it', e.item = some it' := Option.isSome_iff_exists.mp hlive
    have hxeq := extract_min_unfold hp hi
    rw [hx] at hxeq
    injection hxeq with hpair
    rw [Prod.mk.injEq] at hpair
    obtain ⟨rfl, rfl⟩ := hpair
    have hmem : e ∈ h.heap := by
      rw [hsplit]
      exact List.mem_append.mpr (Or.inr (List.mem_cons_self _ _))
    have hsub : (e :: rest).Sublist h.heap := by
      rw [hsplit]
      exact (List.sublist_append_right _ _)
    have hsorted_er : (e :: rest).Pairwise (fun a b => entryKey a ≤ entryKey b) :=
      wf.sorted.sublist hsub
    have hnodup_er : ((e :: rest).map Entry.count).Nodup :=
      (hsub.map _).nodup wf.counts_nodup
    have hrest_sub : rest.Sublist h.heap := (List.sublist_cons_self e rest).trans hsub
    have hll := popLive_liveList hp
    refine ⟨e, rest, rfl, hi, rfl, ?_, ?_, ?_, ?_, rfl⟩
    · -- well-formedness of the post state
      refine ⟨hsorted_er.sublist (List.sublist_cons_self e rest), ?_, ?_, ?_, ?_, ?_⟩
      · exact (hrest_sub.map _).nodup wf.counts_nodup
      · exact fun x hxm => wf.counts_lt x (hrest_sub.subset hxm)
      · exact ((eraseKey_sublist _ _).map _).nodup wf.fkeys_nodup
      · intro kv hkv
        rcases mem_eraseKey.mp hkv with ⟨hkvf, hkne⟩
        rcases wf.finder_live kv hkvf with ⟨x, hxmem, hxk, hxc, hxl⟩
        have hx_er : x ∈ e :: rest := by
          rw [hsplit] at hxmem
          rcases List.mem_append.mp hxmem with hxp | hxr
          · rw [hpre x hxp] at hxl; simp at hxl
          · exact hxr
        rcases List.mem_cons.mp hx_er with rfl | hxr
        · exact absurd hxk (Ne.symm hkne)
        · exact ⟨x, hxr, hxk, hxc, hxl⟩
      · intro x hxm hxl
        have hxheap : x ∈ h.heap := hrest_sub.subset hxm
        have hfin := wf.live_finder x hxheap hxl
        have hkne : x.key ≠ e.key := by
          intro hkk
          have hxe : x = e := live_unique wf hxheap hxl hmem hlive hkk
          subst hxe
          rw [List.map_cons, List.nodup_cons] at hnodup_er
          exact hnodup_er.1 (List.mem_map.mpr ⟨x, hxm, rfl⟩)
        exact mem_eraseKey.mpr ⟨hfin, hkne⟩
    · rw [BinaryHeap.liveEntries, BinaryHeap.liveEntries, hll]
    · intro x hxm
      rw [BinaryHeap.liveEntries] at hxm
      rw [hll] at hxm
      rcases List.mem_cons.mp hxm with rfl | hxr
      · exact le_refl _
      · have : x ∈ rest := (List.filter_sublist rest).subset hxr
        rw [List.pairwise_cons] at hsorted_er
        exact hsorted_er.1 x this
    · exact wf.live_finder e hmem hlive

theorem peek_eq_none_iff {h : BinaryHeap α} (wf : HeapWF h) :
    h.peek_min_priority = none ↔ h.entry_finder = [] := by
  rw [← liveList_eq_nil_iff_finder wf]
  unfold BinaryHeap.peek_min_priority
  cases hp : popLive h.heap with
  | none => simpa using popLive_eq_none_iff.mp hp
  | some er =>
    obtain ⟨e, rest⟩ := er
    have hll := popLive_liveList hp
    constructor
    · intro hx; simp at hx
    · intro hx
      rw [hx] at hll
      simp at hll

/-- Specification of a successful `peek_min_priority` under
well-formedness: it physically discards the tombstone prefix, returns the
priority of the live minimum, and changes neither the index nor the set of
live entries. -/
theorem peek_spec {h : BinaryHeap α} (wf : HeapWF h) {pr : Prio} {h' : BinaryHeap α}
    (hx : h.peek_min_priority = some (pr, h')) :
    ∃ e rest, popLive h.heap = some (e, rest) ∧ pr = e.prio ∧ entryLive e = true ∧
      h' = ⟨e :: rest, h.entry_finder, h.counter⟩ ∧ HeapWF h' ∧
      h'.liveEntries = h.liveEntries ∧
      (∀ x ∈ h.liveEntries, entryKey e ≤ entryKey x) := by
  unfold BinaryHeap.peek_min_priority at hx
  cases hp : popLive h.heap with
  | none => rw [hp] at hx; simp at hx
  | some er =>
    obtain ⟨e, rest⟩ := er
    rw [hp] at hx
    simp at hx
    obtain ⟨rfl, rfl⟩ := hx
    rcases popLive_some_spec hp with ⟨hlive, pre, hsplit, hpre⟩
    have hsub : (e :: rest).Sublist h.heap := by
      rw [hsplit]
      exact (List.sublist_append_right _ _)
    have hll := popLive_liveList hp
    refine ⟨e, rest, rfl, rfl, hlive, rfl, ?_, ?_, ?_⟩
    · refine ⟨wf.sorted.sublist hsub, (hsub.map _).nodup wf.counts_nodup,
        fun x hxm => wf.counts_lt x (hsub.subset hxm), wf.fkeys_nodup, ?_, ?_⟩
      · intro kv hkv
        rcases wf.finder_live kv hkv with ⟨x, hxmem, hxk, hxc, hxl⟩
        have hx_er : x ∈ e :: rest := by
          rw [hsplit] at hxmem
          rcases List.mem_append.mp hxmem with hxp | hxr
          · rw [hpre x hxp] at hxl; simp at hxl
          · exact hxr
        exact ⟨x, hx_er, hxk, hxc, hxl⟩
      · intro x hxm hxl
        exact wf.live_finder x (hsub.subset hxm) hxl
    · show liveList (e :: rest) = liveList h.heap
      rw [hll]
      rw [liveList, List.filter_cons, if_pos hlive]
      rfl
    · intro x hxm
      rw [BinaryHeap.liveEntries, hll] at hxm
      rcases List.mem_cons.mp hxm with rfl | hxr
      · exact le_refl _
      · have hx_r : x ∈ rest := (List.filter_sublist rest).subset hxr
        have hsorted_er := wf.sorted.sublist hsub
        rw [List.pairwise_cons] at hsorted_er
        exact hsorted_er.1 x hx_r

/-! ### Operation sequences on the priority queue

Claims C4 and C5 quantify over arbitrary sequences of `insert` / `remove`
/ `extract_min` operations.  Clients key entries by process pid and store
the process under that key (the scheduler embedding stores the pid itself),
so `ins` registers the key as its own payload. -/

/-- One client-visible operation of `BinaryHeap`. -/
inductive HeapOp where
  | ins (key : String) (priority : Prio)
  | rem (key : String)
  | ext
deriving DecidableEq, Repr

/-- Run one operation.  `rem` on an absent key raises `KeyError` in Python
(`NotFoundError` in the spec) and `ext` on an empty queue raises
`KeyError("Empty heap")`; the failing cases leave the state unchanged here,
which only enlarges the set of sequences the theorems cover. -/
def applyOp (h : BinaryHeap String) : HeapOp → BinaryHeap String
  | .ins k p => h.insert k k p
  | .rem k =>
    match h.entry_finder.lookup k with
    | some _ => h.remove k
    | none => h
  | .ext =>
    match h.extract_min with
    | some (_, h') => h'
    | none => h

/-- Run a sequence of operations from a fresh `BinaryHeap()`. -/
def applyOps (ops : List HeapOp) : BinaryHeap String :=
  ops.foldl applyOp BinaryHeap.emptyHeap

/-- Payloads stored under a key are that key (how every client of the class
in this repository uses it). -/
def ItemsKeys (h : BinaryHeap String) : Prop :=
  ∀ e ∈ h.heap, ∀ it : String, e.item = some it → it = e.key

instance (h : BinaryHeap String) : Decidable (ItemsKeys h) := by
  unfold ItemsKeys
  infer_instance

theorem itemsKeys_tombstone {h : BinaryHeap String} (hik : ItemsKeys h) (c : Nat)
    {l : List (Entry String)} (hl : l = tombstone c h.heap) :
    ∀ e ∈ l, ∀ it : String, e.item = some it → it = e.key := by
  subst hl
  intro e he it hit
  rcases mem_of_mem_tombstone he with ⟨e₀, h₀, heq⟩
  by_cases hc : e₀.count = c
  · rw [if_pos hc] at heq
    rw [heq] at hit
    simp at hit
  · rw [if_neg hc] at heq
    rw [heq] at hit ⊢
    exact hik e₀ h₀ it hit

theorem itemsKeys_insert {h : BinaryHeap String} (hik : ItemsKeys h) (k : String) (p : Prio) :
    ItemsKeys (h.insert k k p) := by
  rcases insert_unfold h k k p with ⟨h1, hcase, _, _, _, heq⟩
  have hik1 : ItemsKeys h1 := by
    rcases hcase with rfl | hrm
    · exact hik
    · rw [hrm]
      unfold BinaryHeap.remove
      cases hl : h.entry_finder.lookup k with
      | none => exact hik
      | some c => exact itemsKeys_tombstone hik c rfl
  rw [heq]
  intro e he it hit
  rcases mem_heapPush.mp he with rfl | he
  · simpa using hit.symm
  · exact hik1 e he it hit

theorem itemsKeys_remove {h : BinaryHeap String} (hik : ItemsKeys h) (k : String) :
    ItemsKeys (h.remove k) := by
  unfold BinaryHeap.remove
  cases hl : h.entry_finder.lookup k with
  | none => exact hik
  | some c => exact itemsKeys_tombstone hik c rfl

theorem applyOp_wf {h : BinaryHeap String} (wf : HeapWF h) (hik : ItemsKeys h) (op : HeapOp) :
    HeapWF (applyOp h op) ∧ ItemsKeys (applyOp h op) := by
  cases op with
  | ins k p => exact ⟨insert_wf wf k k p, itemsKeys_insert hik k p⟩
  | rem k =>
    show HeapWF (match h.entry_finder.lookup k with
        | some _ => h.remove k | none => h) ∧
      ItemsKeys (match h.entry_finder.lookup k with
        | some _ => h.remove k | none => h)
    cases hl : h.entry_finder.lookup k with
    | none => exact ⟨wf, hik⟩
    | some c => exact ⟨remove_wf wf k, itemsKeys_remove hik k⟩
  | ext =>
    show HeapWF (match h.extract_min with
        | some (_, h') => h' | none => h) ∧
      ItemsKeys (match h.extract_min with
        | some (_, h') => h' | none => h)
    cases hx : h.extract_min with
    | none => exact ⟨wf, hik⟩
    | some ith =>
      obtain ⟨it, h'⟩ := ith
      rcases extract_min_spec wf hx with ⟨e, rest, hp, hi, rfl, hwf', _⟩
      refine ⟨hwf', ?_⟩
      intro x hx' itx hitx
      rcases popLive_some_spec hp with ⟨_, pre, hsplit, _⟩
      have : x ∈ h.heap := by
        rw [hsplit]
        exact List.mem_append.mpr (Or.inr (List.mem_cons_of_mem _ hx'))
      exact hik x this itx hitx

theorem applyOps_wf (ops : List HeapOp) :
    HeapWF (applyOps ops) ∧ ItemsKeys (applyOps ops) := by
  rw [applyOps]
  induction ops using List.reverseRecOn with
  | nil =>
    constructor
    · exact emptyHeap_wf
    · intro e he
      simp [BinaryHeap.emptyHeap] at he
  | append_singleton ops op ih =>
    rw [List.foldl_append, List.foldl_cons, List.foldl_nil]
    exact applyOp_wf ih.1 ih.2 op

/-- Keys returned by repeatedly calling `extract_min`, in order. -/
def drainKeys : Nat → BinaryHeap String → List String
  | 0, _ => []
  | fuel + 1, h =>
    match h.extract_min with
    | none => []
    | some (it, h') => it :: drainKeys fuel h'

theorem extract_min_cons_dead {e : Entry String} {rest : List (Entry String)}
    {f : List (String × Nat)} {c : Nat} (hi : e.item = none) :
    BinaryHeap.extract_min ⟨e :: rest, f, c⟩ = BinaryHeap.extract_min ⟨rest, f, c⟩ := by
  obtain ⟨p, c', k, item⟩ := e
  change item = none at hi
  subst hi
  rfl

theorem drainKeys_eq_liveKeys (l : List (Entry String)) (f : List (String × Nat)) (c : Nat)
    (fuel : Nat) (hfuel : l.length ≤ fuel)
    (hik : ∀ e ∈ l, ∀ it : String, e.item = some it → it = e.key) :
    drainKeys fuel ⟨l, f, c⟩ = (liveList l).map Entry.key := by
  induction l generalizing fuel f with
  | nil =>
    cases fuel with
    | zero => simp [drainKeys, liveList]
    | succ fuel =>
      rw [drainKeys]
      rw [show BinaryHeap.extract_min ⟨[], f, c⟩ = none from rfl]
      simp [liveList]
  | cons e rest ih =>
    cases fuel with
    | zero => simp at hfuel
    | succ fuel =>
      cases hi : e.item with
      | some it =>
        have hp : popLive (e :: rest) = some (e, rest) := by
          rw [popLive, hi]
        have hx := extract_min_unfold (h := ⟨e :: rest, f, c⟩) hp hi
        rw [drainKeys, hx]
        show it :: drainKeys fuel ⟨rest, eraseKey f e.key, c⟩ = _
        have hkey : it = e.key := hik e (List.mem_cons_self _ _) it hi
        have hfuel' : rest.length ≤ fuel := by
          have := hfuel
          simp at this
          omega
        have hrest := ih (eraseKey f e.key) fuel hfuel'
          (fun x hx' itx hitx => hik x (List.mem_cons_of_mem _ hx') itx hitx)
        rw [hrest, hkey]
        rw [show liveList (e :: rest) = e :: liveList rest by
          rw [liveList, List.filter_cons, if_pos (by simp [entryLive, hi])]
          rfl]
        rfl
      | none =>
        rw [drainKeys, extract_min_cons_dead hi]
        have hfuel' : rest.length ≤ fuel + 1 := by
          have := hfuel
          simp at this
          omega
        have hrest := ih f (fuel + 1) hfuel'
          (fun x hx' itx hitx => hik x (List.mem_cons_of_mem _ hx') itx hitx)
        rw [drainKeys] at hrest
        rw [hrest]
        rw [show liveList (e :: rest) = liveList rest by
          rw [liveList, List.filter_cons, if_neg (by simp [entryLive, hi])]
          rfl]

theorem entryKey_lt_of_prio_eq {ea eb : Entry String} (hp : ea.prio = eb.prio)
    (hc : ea.count < eb.count) : entryKey ea < entryKey eb := by
  have h1 : ea.prio.1 = eb.prio.1 := by rw [hp]
  have h2 : ea.prio.2.1 = eb.prio.2.1 := by rw [hp]
  have h3 : ea.prio.2.2 = eb.prio.2.2 := by rw [hp]
  unfold entryKey
  rw [Prod.Lex.lt_iff]
  right
  refine ⟨h1, ?_⟩
  rw [Prod.Lex.lt_iff]
  right
  refine ⟨h2, ?_⟩
  rw [Prod.Lex.lt_iff]
  right
  exact ⟨h3, hc⟩

theorem pairwise_le_split {l : List (Entry String)}
    (hp : l.Pairwise (fun a b => entryKey a ≤ entryKey b)) {a b : Entry String}
    (ha : a ∈ l) (hb : b ∈ l) (hab : entryKey a < entryKey b) :
    ∃ l₁ l₂ l₃, l = l₁ ++ a :: (l₂ ++ b :: l₃) := by
  rcases List.mem_iff_append.mp ha with ⟨p, q, rfl⟩
  have hbpq := hb
  rcases List.mem_append.mp hbpq with hbp | hbq
  · rw [List.pairwise_append] at hp
    have := hp.2.2 b hbp a (List.mem_cons_self _ _)
    exact absurd hab (not_lt_of_le this)
  · rcases List.mem_cons.mp hbq with rfl | hbq
    · exact absurd hab (lt_irrefl _)
    · rcases List.mem_iff_append.mp hbq with ⟨q₁, q₂, rfl⟩
      exact ⟨p, q₁, q₂, rfl⟩

theorem liveEntry_some_spec {h : BinaryHeap String} {k : String} {e : Entry String}
    (he : h.liveEntry k = some e) : e ∈ h.heap ∧ entryLive e = true ∧ e.key = k := by
  have hm := List.mem_of_find?_eq_some he
  have hps := List.find?_some he
  simp only [Bool.and_eq_true, beq_iff_eq] at hps
  exact ⟨hm, hps.1, hps.2⟩

/-- C4.  In any reachable queue state, two live entries with identical
priority tuples are extracted in the order of their insertion counters,
i.e. in the order of their most recent (re)insertion: draining the queue
by repeated `extract_min` returns the earlier-inserted key strictly before
the later-inserted one. -/
theorem C4_equal_priority_fifo (ops : List HeapOp) {a b : String} {ea eb : Entry String}
    (ha : (applyOps ops).liveEntry a = some ea) (hb : (applyOps ops).liveEntry b = some eb)
    (hprio : ea.prio = eb.prio) (hcnt : ea.count < eb.count) :
    ∃ i j : Nat, i < j ∧
      (drainKeys (applyOps ops).heap.length (applyOps ops))[i]? = some a ∧
      (drainKeys (applyOps ops).heap.length (applyOps ops))[j]? = some b := by
  obtain ⟨wf, hik⟩ := applyOps_wf ops
  obtain ⟨hmem_a, hlive_a, hkey_a⟩ := liveEntry_some_spec ha
  obtain ⟨hmem_b, hlive_b, hkey_b⟩ := liveEntry_some_spec hb
  have hdrain : drainKeys (applyOps ops).heap.length (applyOps ops) =
      (liveList (applyOps ops).heap).map Entry.key :=
    drainKeys_eq_liveKeys (applyOps ops).heap (applyOps ops).entry_finder
      (applyOps ops).counter _ (le_refl _) hik
  have hlt := entryKey_lt_of_prio_eq hprio hcnt
  have hsorted_live : (liveList (applyOps ops).heap).Pairwise
      (fun x y => entryKey x ≤ entryKey y) := wf.sorted.filter _
  have hma : ea ∈ liveList (applyOps ops).heap := List.mem_filter.mpr ⟨hmem_a, hlive_a⟩
  have hmb : eb ∈ liveList (applyOps ops).heap := List.mem_filter.mpr ⟨hmem_b, hlive_b⟩
  rcases pairwise_le_split hsorted_live hma hmb hlt with ⟨l₁, l₂, l₃, hsplit⟩
  refine ⟨l₁.length, l₁.length + 1 + l₂.length, by omega, ?_, ?_⟩
  · rw [hdrain, hsplit]
    rw [List.map_append, List.getElem?_append]
    rw [if_neg (by simp)]
    simp [hkey_a]
  · rw [hdrain, hsplit]
    rw [List.map_append, List.getElem?_append]
    rw [if_neg (by rw [List.length_map]; omega)]
    rw [List.length_map]
    rw [show l₁.length + 1 + l₂.length - l₁.length = l₂.length + 1 from by omega]
    rw [List.map_cons, List.getElem?_cons_succ]
    rw [List.map_append, List.getElem?_append]
    rw [if_neg (by rw [List.length_map]; omega)]
    rw [List.length_map, Nat.sub_self]
    simp [hkey_b]

theorem find?_eq_some_of_unique {β : Type} {p : β → Bool} {l : List β} {x : β}
    (hx : x ∈ l) (hpx : p x = true) (huniq : ∀ y ∈ l, p y = true → y = x) :
    l.find? p = some x := by
  induction l with
  | nil => simp at hx
  | cons y ys ih =>
    by_cases hpy : p y = true
    · have hyx : y = x := huniq y (List.mem_cons_self _ _) hpy
      subst hyx
      simp [List.find?_cons, hpy]
    · rw [List.find?_cons]
      rw [Bool.not_eq_true] at hpy
      rw [hpy]
      refine ih ?_ fun z hz hpz => huniq z (List.mem_cons_of_mem _ hz) hpz
      rcases List.mem_cons.mp hx with rfl | hx
      · rw [hpx] at hpy; simp at hpy
      · exact hx

theorem eq_singleton_of_nodup {β : Type} {l : List β} {a : β} (hnd : l.Nodup)
    (ha : a ∈ l) (hall : ∀ x ∈ l, x = a) : l = [a] := by
  cases l with
  | nil => simp at ha
  | cons x xs =>
    have hx : x = a := hall x (List.mem_cons_self _ _)
    subst hx
    cases xs with
    | nil => rfl
    | cons y ys =>
      have hy : y = x := hall y (by simp)
      subst hy
      rw [List.nodup_cons] at hnd
      exact absurd (List.mem_cons_self _ _) hnd.1

theorem heap_nodup {h : BinaryHeap α} (wf : HeapWF h) : h.heap.Nodup :=
  List.Nodup.of_map _ wf.counts_nodup

/-- Under well-formedness, `__len__` (the size of the key→entry index)
counts exactly the live entries. -/
theorem size_eq_liveEntries_length {h : BinaryHeap α} (wf : HeapWF h) :
    h.size = h.liveEntries.length := by
  have hnd_f : h.entry_finder.Nodup := List.Nodup.of_map _ wf.fkeys_nodup
  have hsnd : (h.liveEntries.map fun e => (e.key, e.count)).map Prod.snd =
      h.liveEntries.map Entry.count := by
    rw [List.map_map]
    rfl
  have hnd_counts : (h.liveEntries.map Entry.count).Nodup :=
    ((List.filter_sublist h.heap).map Entry.count).nodup wf.counts_nodup
  have hnd_pairs : (h.liveEntries.map fun e => (e.key, e.count)).Nodup :=
    List.Nodup.of_map Prod.snd (by rw [hsnd]; exact hnd_counts)
  have hperm : h.entry_finder.Perm (h.liveEntries.map fun e => (e.key, e.count)) := by
    rw [List.perm_ext_iff_of_nodup hnd_f hnd_pairs]
    intro kv
    constructor
    · intro hkv
      rcases wf.finder_live kv hkv with ⟨e, he, hk, hc, hlive⟩
      refine List.mem_map.mpr ⟨e, List.mem_filter.mpr ⟨he, hlive⟩, ?_⟩
      rw [hk, hc]
    · intro hkv
      rcases List.mem_map.mp hkv with ⟨e, he, rfl⟩
      rcases List.mem_filter.mp he with ⟨hmem, hlive⟩
      exact wf.live_finder e hmem hlive
  rw [BinaryHeap.size, hperm.length_eq, List.length_map]

/-- C5.  In every reachable queue state the key→entry index holds exactly
the live keys and at most one live entry exists per key, with `__len__`
reporting the number of live entries; inserting a key and then removing it
leaves no live entry for it, so draining the queue by `extract_min` never
returns it; and re-inserting an existing key under a new priority leaves
exactly one live entry for the key, carrying the new priority (which is
what governs its extraction order). -/
theorem C5_live_index_invariants (ops : List HeapOp) :
    ((∀ k : String, ((applyOps ops).entry_finder.lookup k).isSome = true ↔
        ∃ e ∈ (applyOps ops).heap, entryLive e = true ∧ e.key = k) ∧
      (∀ e₁ ∈ (applyOps ops).heap, ∀ e₂ ∈ (applyOps ops).heap,
        entryLive e₁ = true → entryLive e₂ = true → e₁.key = e₂.key → e₁ = e₂) ∧
      (applyOps ops).size = (applyOps ops).liveEntries.length) ∧
    (∀ k it p, k ∉ drainKeys (((applyOps ops).insert k it p).remove k).heap.length
        (((applyOps ops).insert k it p).remove k)) ∧
    (∀ k it p, ∃ e, ((applyOps ops).insert k it p).liveEntry k = some e ∧ e.prio = p ∧
      ((applyOps ops).insert k it p).liveEntries.filter (fun e => e.key == k) = [e]) := by
  obtain ⟨wf, hik⟩ := applyOps_wf ops
  refine ⟨⟨?_, ?_, size_eq_liveEntries_length wf⟩, ?_, ?_⟩
  · intro k
    constructor
    · intro hk
      rcases Option.isSome_iff_exists.mp hk with ⟨c, hc⟩
      rcases wf.finder_live (k, c) (mem_of_lookup_some hc) with ⟨e, he, hek, _, hlive⟩
      exact ⟨e, he, hlive, hek⟩
    · rintro ⟨e, he, hlive, rfl⟩
      exact lookup_isSome_of_mem (wf.live_finder e he hlive)
  · intro e₁ h₁ e₂ h₂ l₁ l₂ hk
    exact live_unique wf h₁ l₁ h₂ l₂ hk
  · intro k it p
    have hwf1 : HeapWF ((applyOps ops).insert k it p) := insert_wf wf k it p
    have hwf2 : HeapWF (((applyOps ops).insert k it p).remove k) := remove_wf hwf1 k
    have hik2 : ∀ e ∈ (((applyOps ops).insert k it p).remove k).heap,
        ∀ it' : String, e.item = some it' → it' = e.key := by
      intro e he it' hit'
      have hlive : entryLive e = true := by rw [entryLive, hit']; rfl
      have := (remove_live_mem hwf1 k).mp ⟨he, hlive⟩
      have hins := (insert_live_mem wf k it p).mp ⟨this.1, this.2.1⟩
      rcases hins with ⟨hold, holdl, _⟩ | hnew
      · exact hik e hold it' hit'
      · exact absurd (by rw [hnew]) this.2.2
    intro hmem
    rw [drainKeys_eq_liveKeys (((applyOps ops).insert k it p).remove k).heap
      (((applyOps ops).insert k it p).remove k).entry_finder
      (((applyOps ops).insert k it p).remove k).counter _ (le_refl _) hik2] at hmem
    rcases List.mem_map.mp hmem with ⟨e, he, hkey⟩
    rcases List.mem_filter.mp he with ⟨hmem2, hlive⟩
    have := (remove_live_mem hwf1 k).mp ⟨hmem2, hlive⟩
    exact this.2.2 hkey
  · intro k it p
    have hwf1 : HeapWF ((applyOps ops).insert k it p) := insert_wf wf k it p
    have hnew : (⟨p, (applyOps ops).counter, k, some it⟩ : Entry String) ∈
        ((applyOps ops).insert k it p).heap ∧
        entryLive (⟨p, (applyOps ops).counter, k, some it⟩ : Entry String) = true :=
      (insert_live_mem wf k it p).mpr (Or.inr rfl)
    have huniq : ∀ y ∈ ((applyOps ops).insert k it p).heap,
        (entryLive y && y.key == k) = true → y = ⟨p, (applyOps ops).counter, k, some it⟩ := by
      intro y hy hpy
      rw [Bool.and_eq_true, beq_iff_eq] at hpy
      rcases (insert_live_mem wf k it p).mp ⟨hy, hpy.1⟩ with ⟨_, _, hne⟩ | heq
      · exact absurd hpy.2 hne
      · exact heq
    have hpnew : (fun e : Entry String => entryLive e && e.key == k)
        ⟨p, (applyOps ops).counter, k, some it⟩ = true := by
      rw [Bool.and_eq_true, beq_iff_eq]
      exact ⟨hnew.2, rfl⟩
    refine ⟨⟨p, (applyOps ops).counter, k, some it⟩,
      find?_eq_some_of_unique hnew.1 hpnew huniq, rfl, ?_⟩
    refine eq_singleton_of_nodup ?_ ?_ ?_
    · exact ((List.filter_sublist _).trans (List.filter_sublist _)).nodup (heap_nodup hwf1)
    · exact List.mem_filter.mpr ⟨List.mem_filter.mpr ⟨hnew.1, hnew.2⟩, by simp⟩
    · intro x hx
      rcases List.mem_filter.mp hx with ⟨hx1, hx2⟩
      rcases List.mem_filter.mp hx1 with ⟨hxh, hxl⟩
      refine huniq x hxh ?_
      rw [Bool.and_eq_true]
      exact ⟨hxl, hx2⟩

/-- Closed instance of C4 at a concrete operation sequence: two keys
inserted with equal priorities drain in insertion order. -/
theorem C4_equal_priority_fifo_witness :
    ∃ i j : Nat, i < j ∧
      (drainKeys (applyOps [HeapOp.ins "a" (0, 0, 0), HeapOp.ins "b" (0, 0, 0)]).heap.length
        (applyOps [HeapOp.ins "a" (0, 0, 0), HeapOp.ins "b" (0, 0, 0)]))[i]? = some "a" ∧
      (drainKeys (applyOps [HeapOp.ins "a" (0, 0, 0), HeapOp.ins "b" (0, 0, 0)]).heap.length
        (applyOps [HeapOp.ins "a" (0, 0, 0), HeapOp.ins "b" (0, 0, 0)]))[j]? = some "b" :=
  @C4_equal_priority_fifo [HeapOp.ins "a" (0, 0, 0), HeapOp.ins "b" (0, 0, 0)] "a" "b"
    ⟨(0, 0, 0), 0, "a", some "a"⟩ ⟨(0, 0, 0), 1, "b", some "b"⟩
    (by decide) (by decide) (by decide) (by decide)

/-- Closed instance of C5 at a concrete operation sequence. -/
theorem C5_live_index_invariants_witness :
    ((applyOps [HeapOp.ins "x" (1, 2, 3)]).entry_finder.lookup "x").isSome = true ∧
    (applyOps [HeapOp.ins "x" (1, 2, 3)]).size =
      (applyOps [HeapOp.ins "x" (1, 2, 3)]).liveEntries.length ∧
    "y" ∉ drainKeys (((applyOps [HeapOp.ins "x" (1, 2, 3)]).insert "y" "y" (0, 0, 0)).remove
        "y").heap.length
      (((applyOps [HeapOp.ins "x" (1, 2, 3)]).insert "y" "y" (0, 0, 0)).remove "y") ∧
    ∃ e, ((applyOps [HeapOp.ins "x" (1, 2, 3)]).insert "x" "x" (9, 9, 9)).liveEntry "x" =
        some e ∧ e.prio = (9, 9, 9) := by
  have h := C5_live_index_invariants [HeapOp.ins "x" (1, 2, 3)]
  refine ⟨?_, h.1.2.2, h.2.1 "y" "y" (0, 0, 0), ?_⟩
  · exact (h.1.1 "x").mpr ⟨⟨(1, 2, 3), 0, "x", some "x"⟩, by decide, by decide, by decide⟩
  · rcases h.2.2 "x" "x" (9, 9, 9) with ⟨e, he, hp, _⟩
    exact ⟨e, he, hp⟩

/-! ### The scheduler (`src/scheduling/scheduler.py`) -/

/-- Modelled from the spec: the `Process` record of
`src/scheduling/process.py`, which is absent from the sources (§3 DATA
MODEL): `pid` a unique identifier, `arrival` the tick at which the process
becomes eligible, `base_priority` (lower value = higher priority), `burst`
the total execution ticks required, and the scheduler-managed mutable
fields `remaining` (initialised to `burst`), `last_enqueued`, `start_time`
and `completion_time` (both initially unset). -/
structure Process where
  pid : String
  arrival : Int
  base_priority : Int
  burst : Int
  remaining : Int
  last_enqueued : Int
  start_time : Option Int
  completion_time : Option Int
deriving DecidableEq, Repr

/-- `ScheduleResult` (`scheduler.py`, lines 10–15).  The dicts are
association lists in the order the post-loop inserts their keys (sorted
process order), and Python's float average is modelled exactly in `ℚ`. -/
structure ScheduleResult where
  timeline : List String
  completion_times : List (String × Int)
  waiting_times : List (String × Int)
  average_waiting_time : Rat
deriving DecidableEq, Repr

/-- The comparison underlying `sorted(processes, key=lambda p:
(p.arrival, p.base_priority, p.pid))` (`scheduler.py`, line 38). -/
def procLe (a b : Process) : Bool :=
  a.arrival < b.arrival ||
    (a.arrival == b.arrival &&
      (a.base_priority < b.base_priority ||
        (a.base_priority == b.base_priority && decide (a.pid ≤ b.pid))))

/-- Insertion step of a stable sort: `x` goes in front of the first
element it compares `≤` to, hence after every earlier-listed equal. -/
def insertSorted (x : Process) : List Process → List Process
  | [] => [x]
  | y :: ys => if procLe x y then x :: y :: ys else y :: insertSorted x ys

/-- Model of Python's stable `sorted` on the intake key. -/
def sortProcs : List Process → List Process
  | [] => []
  | x :: xs => insertSorted x (sortProcs xs)

/-- The mutable state of one `run` invocation (`scheduler.py`, lines
41–50).  Python threads `Process` objects by reference; here `procs` is
the store, addressed by pid, and the ready queue holds pids — equivalent
when pids are pairwise distinct, which the spec requires of the input.
`err = true` marks a raised `KeyError` (the spec's `EmptyError` /
internal-invariant defects); every later step leaves an erred state
unchanged, modelling the exception aborting the run. -/
structure SchedState where
  procs : List Process
  ready : BinaryHeap String
  clock : Nat
  idx : Nat
  current : Option String
  timeline : List String
  completed : Nat
  first_seen : List (String × Int)
  executed_ticks : List (String × Nat)
  err : Bool
deriving DecidableEq, Repr

/-- Dereference a process by pid (Python's object reference). -/
def getProc (ps : List Process) (pid : String) : Option Process :=
  ps.find? (fun q => q.pid == pid)

/-- Write back a mutated process (Python's in-place mutation). -/
def setProc (ps : List Process) (p : Process) : List Process :=
  ps.map (fun q => if q.pid == p.pid then p else q)

/-- `executed_ticks[current.pid] += 1` (`scheduler.py`, line 106). -/
def bumpExecuted (m : List (String × Nat)) (k : String) : List (String × Nat) :=
  m.map (fun kv => if kv.1 == k then (kv.1, kv.2 + 1) else kv)

/-- `eff_priority` (`scheduler.py`, lines 52–55).  `waited` is
non-negative and `aging_interval` is positive, so Python's floor division
`waited // self.aging_interval` is natural division of the magnitudes. -/
def eff_priority (aging : Int) (p : Process) (now : Int) : Int :=
  let waited : Int := max 0 (now - p.last_enqueued)
  let boost : Int := ((waited.toNat / aging.toNat : Nat) : Int)
  max 1 (p.base_priority - boost)

/-- The state at the top of the loop (`scheduler.py`, lines 38–50). -/
def initState (ps : List Process) : SchedState :=
  let procs := sortProcs ps
  { procs := procs
    ready := BinaryHeap.emptyHeap
    clock := 0
    idx := 0
    current := none
    timeline := []
    completed := 0
    first_seen := procs.map fun p => (p.pid, p.arrival)
    executed_ticks := procs.map fun p => (p.pid, 0)
    err := false }

/-- The admission loop `while idx < n_total and procs[idx].arrival ==
clock` (`scheduler.py`, lines 63–68), with fuel `n_total - idx`. -/
def admitGo : Nat → SchedState → SchedState
  | 0, s => s
  | fuel + 1, s =>
    match s.procs[s.idx]? with
    | none => s
    | some p =>
      if p.arrival = (s.clock : Int) then
        let p' := { p with last_enqueued := (s.clock : Int) }
        admitGo fuel
          { s with procs := setProc s.procs p'
                   ready := s.ready.insert p'.pid p'.pid (p'.base_priority, p'.arrival, 0)
                   idx := s.idx + 1 }
      else s

/-- Phase 1 of a tick: enqueue the arrivals at this clock. -/
def admitArrivals (s : SchedState) : SchedState :=
  admitGo (s.procs.length - s.idx) s

/-- Phase 2 (`scheduler.py`, lines 71–75): if nothing is running and the
ready queue is non-empty, dispatch the extracted minimum, recording
`start_time` on first dispatch. -/
def dispatchIfIdle (s : SchedState) : SchedState :=
  if s.err then s
  else if s.current.isNone && !s.ready.is_empty then
    match s.ready.extract_min with
    | none => { s with err := true }
    | some (pid, r) =>
      match getProc s.procs pid with
      | none => { s with err := true }
      | some p =>
        let p' := if p.start_time = none
          then { p with start_time := some (s.clock : Int) } else p
        { s with ready := r, procs := setProc s.procs p', current := some pid }
  else s

/-- Phase 3, the preemption check (`scheduler.py`, lines 78–96): refresh
the head candidate's effective priority by pop-and-reinsert, recompute the
running process's effective priority, and preempt exactly when the new
head's stored effective priority is strictly lower. -/
def preemptCheck (aging : Int) (s : SchedState) : SchedState :=
  if s.err then s
  else match s.current with
  | none => s
  | some curPid =>
    if s.ready.is_empty then s
    else match s.ready.extract_min with
    | none => { s with err := true }
    | some (candPid, r1) =>
      match getProc s.procs candPid with
      | none => { s with err := true }
      | some cand =>
        match getProc s.procs curPid with
        | none => { s with err := true }
        | some cur =>
          match (r1.insert cand.pid candPid
              (eff_priority aging cand (s.clock : Int), cand.arrival, 0)).peek_min_priority with
          | none => { s with err := true }
          | some (top, r3) =>
            if top.1 < eff_priority aging cur (s.clock : Int) then
              match (r3.insert cur.pid cur.pid
                  (eff_priority aging cur (s.clock : Int), cur.arrival, 0)).extract_min with
              | none => { s with err := true }
              | some (newPid, r5) =>
                match getProc (setProc s.procs { cur with last_enqueued := (s.clock : Int) })
                    newPid with
                | none => { s with err := true }
                | some np =>
                  { s with
                    ready := r5,
                    procs := setProc (setProc s.procs { cur with last_enqueued := (s.clock : Int) })
                      (if np.start_time = none
                        then { np with start_time := some (s.clock : Int) } else np),
                    current := some newPid }
            else { s with ready := r3 }

/-- Phase 4, executing one tick (`scheduler.py`, lines 98–113): record an
idle marker or run the current process for one tick, completing it when
`remaining` reaches zero. -/
def executeTick (s : SchedState) : SchedState :=
  if s.err then s
  else match s.current with
  | none => { s with timeline := s.timeline ++ ["IDLE"], clock := s.clock + 1 }
  | some curPid =>
    match getProc s.procs curPid with
    | none => { s with err := true }
    | some p =>
      if p.remaining - 1 ≤ 0 then
        { s with
          procs := setProc s.procs
            { p with remaining := p.remaining - 1, completion_time := some ((s.clock : Int) + 1) },
          executed_ticks := bumpExecuted s.executed_ticks curPid,
          timeline := s.timeline ++ [curPid], completed := s.completed + 1,
          current := none, clock := s.clock + 1 }
      else
        { s with
          procs := setProc s.procs { p with remaining := p.remaining - 1 },
          executed_ticks := bumpExecuted s.executed_ticks curPid,
          timeline := s.timeline ++ [curPid], clock := s.clock + 1 }

/-- One iteration of the `while` loop body (`scheduler.py`, lines 62–113). -/
def tick (aging : Int) (s : SchedState) : SchedState :=
  executeTick (preemptCheck aging (dispatchIfIdle (admitArrivals s)))

/-- The loop-top stop check `max_time is not None and clock >= max_time`
(`scheduler.py`, lines 59–60). -/
def stopCond (max_time : Option Nat) (s : SchedState) : Bool :=
  match max_time with
  | none => false
  | some t => s.clock ≥ t

/-- The guarded loop step: the identity once the loop has exited (all
processes completed, the `max_time` bound reached, or an exception
raised), else one tick.  Iterating it models `while completed < n_total`. -/
def stepRun (aging : Int) (max_time : Option Nat) (n_total : Nat) (s : SchedState) :
    SchedState :=
  if s.err then s
  else if s.completed < n_total then
    if stopCond max_time s then s else tick aging s
  else s

/-- The post-loop statistics assembly (`scheduler.py`, lines 115–131). -/
def finalize (s : SchedState) : ScheduleResult :=
  let completion_times := s.procs.filterMap fun p =>
    p.completion_time.map fun c => (p.pid, c)
  let waiting_times := s.procs.filterMap fun p =>
    p.completion_time.map fun c => (p.pid, c - p.arrival - p.burst)
  let avg : Rat := if waiting_times.isEmpty then 0
    else (((waiting_times.map Prod.snd).sum : Int) : Rat) / (waiting_times.length : Rat)
  ⟨s.timeline, completion_times, waiting_times, avg⟩

/-- `PriorityAgingScheduler.run` (`scheduler.py`, lines 33–131), with the
unbounded loop modelled by `fuel` iterations of the frozen-at-exit step:
any fuel at least the number of loop iterations yields the loop's result. -/
def run (aging : Int) (processes : List Process) (max_time : Option Nat) (fuel : Nat) :
    ScheduleResult :=
  if processes.isEmpty then ⟨[], [], [], 0⟩
  else finalize
    ((stepRun aging max_time (sortProcs processes).length)^[fuel] (initState processes))

/-! ### Store and bookkeeping lemmas -/

/-- The caller-supplied immutable fields of a process. -/
def statics (p : Process) : String × Int × Int × Int :=
  (p.pid, p.arrival, p.base_priority, p.burst)

theorem setProc_map_pid (ps : List Process) (p' : Process) :
    (setProc ps p').map Process.pid = ps.map Process.pid := by
  unfold setProc
  rw [List.map_map]
  refine List.map_congr_left fun q _ => ?_
  by_cases h : q.pid == p'.pid
  · simp only [Function.comp_apply, if_pos h]
    exact (beq_iff_eq.mp h).symm
  · simp only [Function.comp_apply, if_neg h]

theorem setProc_length (ps : List Process) (p' : Process) :
    (setProc ps p').length = ps.length := List.length_map _ _

theorem setProc_getElem? (ps : List Process) (p' : Process) (i : Nat) :
    (setProc ps p')[i]? = (ps[i]?).map fun q => if q.pid == p'.pid then p' else q :=
  List.getElem?_map _ _ _

theorem setProc_statics {ps : List Process} {p' : Process}
    (h : ∀ q ∈ ps, q.pid = p'.pid → statics q = statics p') :
    (setProc ps p').map statics = ps.map statics := by
  unfold setProc
  rw [List.map_map]
  refine List.map_congr_left fun q hq => ?_
  by_cases hpid : q.pid == p'.pid
  · simp only [Function.comp_apply, if_pos hpid]
    exact (h q hq (beq_iff_eq.mp hpid)).symm
  · simp only [Function.comp_apply, if_neg hpid]

theorem getProc_spec {ps : List Process} {k : String} {p : Process}
    (h : getProc ps k = some p) : p ∈ ps ∧ p.pid = k := by
  refine ⟨List.mem_of_find?_eq_some h, ?_⟩
  have := List.find?_some h
  exact beq_iff_eq.mp this

theorem getProc_isSome {ps : List Process} {k : String}
    (h : ∃ q ∈ ps, q.pid = k) : (getProc ps k).isSome = true := by
  rcases h with ⟨q, hq, hk⟩
  rw [getProc, List.find?_isSome]
  exact ⟨q, hq, beq_iff_eq.mpr hk⟩

theorem getProc_of_mem {ps : List Process} (hnd : (ps.map Process.pid).Nodup)
    {p : Process} (hp : p ∈ ps) : getProc ps p.pid = some p := by
  refine find?_eq_some_of_unique hp (beq_iff_eq.mpr rfl) ?_
  intro y hy hpy
  have hkey : y.pid = p.pid := beq_iff_eq.mp hpy
  exact List.inj_on_of_nodup_map hnd hy hp hkey

theorem bumpExecuted_keys (m : List (String × Nat)) (k : String) :
    (bumpExecuted m k).map Prod.fst = m.map Prod.fst := by
  unfold bumpExecuted
  rw [List.map_map]
  refine List.map_congr_left fun kv _ => ?_
  show (if kv.1 == k then (kv.1, kv.2 + 1) else kv).1 = kv.1
  split <;> rfl

theorem bumpExecuted_lookup_self (m : List (String × Nat)) (k : String) :
    (bumpExecuted m k).lookup k = (m.lookup k).map (· + 1) := by
  induction m with
  | nil => rfl
  | cons kv rest ih =>
    obtain ⟨a, b⟩ := kv
    show List.lookup k ((if a == k then (a, b + 1) else (a, b)) :: bumpExecuted rest k) = _
    cases hak : (a == k) with
    | true =>
      rw [if_pos rfl]
      rw [List.lookup_cons, List.lookup_cons]
      have hka : (k == a) = true := by
        rw [beq_iff_eq] at hak ⊢
        exact hak.symm
      rw [hka]
      rfl
    | false =>
      rw [if_neg (by simp)]
      rw [List.lookup_cons, List.lookup_cons]
      have hka : (k == a) = false := by
        rw [beq_eq_false_iff_ne] at hak ⊢
        exact Ne.symm hak
      rw [hka]
      exact ih

theorem bumpExecuted_lookup_ne (m : List (String × Nat)) {k k' : String} (h : k' ≠ k) :
    (bumpExecuted m k).lookup k' = m.lookup k' := by
  induction m with
  | nil => rfl
  | cons kv rest ih =>
    obtain ⟨a, b⟩ := kv
    show List.lookup k' ((if a == k then (a, b + 1) else (a, b)) :: bumpExecuted rest k) = _
    cases hak : (a == k) with
    | true =>
      rw [if_pos rfl]
      rw [List.lookup_cons, List.lookup_cons]
      have : (k' == a) = false := by
        rw [beq_eq_false_iff_ne]
        intro he
        exact h (he.trans (beq_iff_eq.mp hak))
      rw [this]
      exact ih
    | false =>
      rw [if_neg (by simp)]
      rw [List.lookup_cons, List.lookup_cons]
      cases hk'a : (k' == a) with
      | true => rfl
      | false => exact ih

theorem lookup_map_of_mem {β : Type} {ps : List Process} {f : Process → β} {p : Process}
    (hnd : (ps.map Process.pid).Nodup) (hp : p ∈ ps) :
    (ps.map fun q => (q.pid, f q)).lookup p.pid = some (f p) := by
  induction ps with
  | nil => simp at hp
  | cons q rest ih =>
    rw [List.map_cons, List.nodup_cons] at hnd
    rcases List.mem_cons.mp hp with rfl | hp
    · rw [List.map_cons, List.lookup_cons]
      simp
    · rw [List.map_cons, List.lookup_cons]
      have hne : p.pid ≠ q.pid := by
        intro hpq
        exact hnd.1 (hpq ▸ List.mem_map.mpr ⟨p, hp, rfl⟩)
      rw [beq_false_of_ne hne]
      exact ih hnd.2 hp

/-! ### The run-loop invariant -/

/-- A process is logically in the ready queue: it has a live entry. -/
def inReady (s : SchedState) (pid : String) : Prop :=
  ∃ e ∈ s.ready.heap, entryLive e = true ∧ e.key = pid

instance (s : SchedState) (pid : String) : Decidable (inReady s pid) := by
  unfold inReady
  infer_instance

/-- The executed-tick count recorded for a pid. -/
def execOf (s : SchedState) (pid : String) : Nat :=
  (s.executed_ticks.lookup pid).getD 0

theorem inReady_insert {h : BinaryHeap String} (wf : HeapWF h) (k : String) (it : String)
    (p : Prio) (x : String) :
    (∃ e ∈ (h.insert k it p).heap, entryLive e = true ∧ e.key = x) ↔
      (x = k ∨ ((∃ e ∈ h.heap, entryLive e = true ∧ e.key = x) ∧ x ≠ k)) := by
  constructor
  · rintro ⟨e, he, hl, rfl⟩
    rcases (insert_live_mem wf k it p).mp ⟨he, hl⟩ with ⟨hm, hl', hne⟩ | heq
    · exact Or.inr ⟨⟨e, hm, hl', rfl⟩, hne⟩
    · left
      rw [heq]
  · rintro (rfl | ⟨⟨e, he, hl, rfl⟩, hne⟩)
    · refine ⟨⟨p, h.counter, x, some it⟩, ?_, ?_, rfl⟩
      · exact ((insert_live_mem wf x it p).mpr (Or.inr rfl)).1
      · exact ((insert_live_mem wf x it p).mpr (Or.inr rfl)).2
    · refine ⟨e, ?_, ?_, rfl⟩
      · exact ((insert_live_mem wf k it p).mpr (Or.inl ⟨he, hl, hne⟩)).1
      · exact ((insert_live_mem wf k it p).mpr (Or.inl ⟨he, hl, hne⟩)).2

theorem liveEntries_mem_iff {h h' : BinaryHeap α} {e : Entry α}
    (hnd : h.heap.Nodup) (heq : h.liveEntries = e :: h'.liveEntries) {x : Entry α} :
    (x ∈ h'.liveEntries) ↔ (x ∈ h.liveEntries ∧ x ≠ e) := by
  have hnd_live : h.liveEntries.Nodup := (List.filter_sublist _).nodup hnd
  rw [heq] at hnd_live
  rw [List.nodup_cons] at hnd_live
  constructor
  · intro hx
    refine ⟨by rw [heq]; exact List.mem_cons_of_mem _ hx, ?_⟩
    rintro rfl
    exact hnd_live.1 hx
  · rintro ⟨hx, hne⟩
    rw [heq] at hx
    rcases List.mem_cons.mp hx with rfl | hx
    · exact absurd rfl hne
    · exact hx

theorem inReady_extract {h h' : BinaryHeap α} (wf : HeapWF h) {e : Entry α}
    (hnd : h.heap.Nodup) (heq : h.liveEntries = e :: h'.liveEntries)
    (hsub : h'.liveEntries.Sublist h.liveEntries) (x : String) :
    (∃ y ∈ h'.liveEntries, y.key = x) ↔
      ((∃ y ∈ h.liveEntries, y.key = x) ∧ x ≠ e.key) := by
  have helive : e ∈ h.liveEntries := by rw [heq]; exact List.mem_cons_self _ _
  constructor
  · rintro ⟨y, hy, rfl⟩
    have hyh : y ∈ h.liveEntries := hsub.subset hy
    refine ⟨⟨y, hyh, rfl⟩, ?_⟩
    intro hk
    rcases List.mem_filter.mp hyh with ⟨hym, hyl⟩
    rcases List.mem_filter.mp helive with ⟨hem, hel⟩
    have : y = e := live_unique wf hym hyl hem hel hk
    subst this
    exact ((liveEntries_mem_iff hnd heq).mp hy).2 rfl
  · rintro ⟨⟨y, hy, rfl⟩, hne⟩
    refine ⟨y, ?_, rfl⟩
    refine (liveEntries_mem_iff hnd heq).mpr ⟨hy, ?_⟩
    rintro rfl
    exact hne rfl

/-- Requirements on the sorted input list: pairwise distinct pids and
unset `start_time` / `completion_time`, the input contract of §4.2 and the
`Process` data model of §3. -/
structure InitOk (init : List Process) : Prop where
  nodup : (init.map Process.pid).Nodup
  start_none : ∀ p ∈ init, p.start_time = none
  completion_none : ∀ p ∈ init, p.completion_time = none

instance (init : List Process) : Decidable (InitOk init) :=
  decidable_of_iff ((init.map Process.pid).Nodup ∧ (∀ p ∈ init, p.start_time = none) ∧
      (∀ p ∈ init, p.completion_time = none))
    ⟨fun ⟨a, b, c⟩ => ⟨a, b, c⟩, fun ⟨a, b, c⟩ => ⟨a, b, c⟩⟩

/-- The invariant maintained by every phase of the tick loop, relative to
the sorted initial process list `init`. -/
structure Inv (init : List Process) (s : SchedState) : Prop where
  hp : HeapWF s.ready
  items : ∀ e ∈ s.ready.heap, ∀ it : String, e.item = some it → it = e.key
  statics_eq : s.procs.map statics = init.map statics
  len_clock : s.timeline.length = s.clock
  exec_keys : s.executed_ticks.map Prod.fst = s.procs.map Process.pid
  idx_le : s.idx ≤ s.procs.length
  err_false : s.err = false
  live_admitted : ∀ e ∈ s.ready.heap, entryLive e = true →
    ∃ j, j < s.idx ∧ (s.procs.map Process.pid)[j]? = some e.key
  cur_admitted : ∀ cp, s.current = some cp →
    ∃ j, j < s.idx ∧ (s.procs.map Process.pid)[j]? = some cp
  cur_not_live : ∀ cp, s.current = some cp → ¬ inReady s cp
  pristine : ∀ (i : Nat) (p : Process), s.idx ≤ i → s.procs[i]? = some p → init[i]? = some p
  acc_rem : ∀ (i : Nat) (p p₀ : Process), s.procs[i]? = some p → init[i]? = some p₀ →
    p.remaining = p₀.remaining - (execOf s p.pid : Int)
  acc_count : ∀ p ∈ s.procs, p.pid ≠ "IDLE" → s.timeline.count p.pid = execOf s p.pid
  start_none_props : ∀ p ∈ s.procs, p.start_time = none →
    execOf s p.pid = 0 ∧ s.current ≠ some p.pid
  start_some_props : ∀ p ∈ s.procs, ∀ st, p.start_time = some st →
    0 ≤ st ∧ st + (execOf s p.pid : Int) ≤ (s.clock : Int)
  completed_props : ∀ p ∈ s.procs, ∀ c, p.completion_time = some c →
    p.remaining ≤ 0 ∧ (∃ st, p.start_time = some st ∧ st + (execOf s p.pid : Int) ≤ c) ∧
    c ≤ (s.clock : Int) ∧ ¬ inReady s p.pid ∧ s.current ≠ some p.pid
  cur_completion : ∀ p ∈ s.procs, s.current = some p.pid → p.completion_time = none
  admitted_active : ∀ (i : Nat) (p : Process), i < s.idx → s.procs[i]? = some p →
    p.completion_time = none → inReady s p.pid ∨ s.current = some p.pid

theorem Inv.pids_eq {init : List Process} {s : SchedState} (inv : Inv init s) :
    s.procs.map Process.pid = init.map Process.pid := by
  have h := inv.statics_eq
  have h1 : (s.procs.map statics).map Prod.fst = (init.map statics).map Prod.fst := by rw [h]
  rw [List.map_map, List.map_map] at h1
  exact h1

theorem Inv.pids_nodup {init : List Process} {s : SchedState} (hok : InitOk init)
    (inv : Inv init s) : (s.procs.map Process.pid).Nodup := by
  rw [inv.pids_eq]
  exact hok.nodup

theorem Inv.procs_length {init : List Process} {s : SchedState} (inv : Inv init s) :
    s.procs.length = init.length := by
  have h := congrArg List.length inv.statics_eq
  rwa [List.length_map, List.length_map] at h

theorem Inv.statics_at {init : List Process} {s : SchedState} (inv : Inv init s)
    {i : Nat} {p : Process} (hp : s.procs[i]? = some p) :
    ∃ p₀, init[i]? = some p₀ ∧ p.pid = p₀.pid ∧ p.arrival = p₀.arrival ∧
      p.base_priority = p₀.base_priority ∧ p.burst = p₀.burst := by
  have h1 : (s.procs.map statics)[i]? = some (statics p) := by
    rw [List.getElem?_map, hp]
    rfl
  rw [inv.statics_eq, List.getElem?_map] at h1
  cases h0 : init[i]? with
  | none => rw [h0] at h1; simp at h1
  | some p₀ =>
    rw [h0] at h1
    injection h1 with h1
    have h1' := h1.symm
    exact ⟨p₀, rfl, congrArg Prod.fst h1', congrArg (fun x => x.2.1) h1',
      congrArg (fun x => x.2.2.1) h1', congrArg (fun x => x.2.2.2) h1'⟩

theorem lookup_isSome_of_key_mem {m : List (String × Nat)} {k : String}
    (h : k ∈ m.map Prod.fst) : (m.lookup k).isSome = true := by
  induction m with
  | nil => simp at h
  | cons kv rest ih =>
    obtain ⟨a, b⟩ := kv
    rw [List.lookup_cons]
    by_cases hk : k = a
    · simp [hk]
    · rw [beq_false_of_ne hk]
      refine ih ?_
      rcases List.mem_map.mp h with ⟨kv', hkv', hfst⟩
      rcases List.mem_cons.mp hkv' with rfl | hkv'
      · exact absurd hfst.symm hk
      · exact List.mem_map.mpr ⟨kv', hkv', hfst⟩

theorem Inv.exec_lookup {init : List Process} {s : SchedState} (inv : Inv init s)
    {p : Process} (hp : p ∈ s.procs) :
    s.executed_ticks.lookup p.pid = some (execOf s p.pid) := by
  have hmem : p.pid ∈ s.executed_ticks.map Prod.fst := by
    rw [inv.exec_keys]
    exact List.mem_map.mpr ⟨p, hp, rfl⟩
  rcases Option.isSome_iff_exists.mp (lookup_isSome_of_key_mem hmem) with ⟨n, hn⟩
  rw [execOf, hn]
  rfl

/-- The invariant holds at the top of the loop. -/
theorem initState_inv (ps : List Process) (hok : InitOk (sortProcs ps)) :
    Inv (sortProcs ps) (initState ps) := by
  have hexec : ∀ p ∈ sortProcs ps, execOf (initState ps) p.pid = 0 := by
    intro p hp
    rw [execOf]
    rw [show (initState ps).executed_ticks = (sortProcs ps).map fun p => (p.pid, 0) from rfl]
    rw [lookup_map_of_mem hok.nodup hp]
    rfl
  refine ⟨emptyHeap_wf, ?_, rfl, rfl, ?_, Nat.zero_le _, rfl, ?_, ?_, ?_, ?_, ?_, ?_, ?_,
    ?_, ?_, ?_, ?_⟩
  · intro e he
    simp [initState, BinaryHeap.emptyHeap] at he
  · show ((sortProcs ps).map fun p => (p.pid, 0)).map Prod.fst = _
    rw [List.map_map]
    rfl
  · intro e he
    simp [initState, BinaryHeap.emptyHeap] at he
  · intro cp h
    cases h
  · intro cp h
    cases h
  · intro i p _ hp
    exact hp
  · intro i p p₀ hp hp₀
    rw [show (initState ps).procs = sortProcs ps from rfl] at hp
    rw [hp] at hp₀
    injection hp₀ with hp₀
    subst hp₀
    have hmem : p ∈ sortProcs ps := by
      have := List.getElem?_mem hp
      exact this
    rw [hexec p hmem]
    simp
  · intro p hp _
    rw [hexec p hp]
    rfl
  · intro p hp _
    exact ⟨hexec p hp, by intro h; cases h⟩
  · intro p hp st hst
    exact absurd hst (by rw [hok.start_none p hp]; simp)
  · intro p hp c hc
    exact absurd hc (by rw [hok.completion_none p hp]; simp)
  · intro p _ h
    cases h
  · intro i p h _ _
    exact absurd h (Nat.not_lt_zero i)

/-- Distinct positions hold distinct pids. -/
theorem pidAt_inj {init : List Process} {s : SchedState} (hok : InitOk init)
    (inv : Inv init s) {i j : Nat} {k : String}
    (hi : (s.procs.map Process.pid)[i]? = some k)
    (hj : (s.procs.map Process.pid)[j]? = some k) : i = j := by
  have hnd := inv.pids_nodup hok
  have hlen : i < (s.procs.map Process.pid).length := by
    rcases List.getElem?_eq_some_iff.mp hi with ⟨h, _⟩
    exact h
  exact List.getElem?_inj hlen hnd (by rw [hi, hj])

/-- An unadmitted process is neither in the ready queue nor running. -/
theorem Inv.unadmitted_fresh {init : List Process} {s : SchedState} (hok : InitOk init)
    (inv : Inv init s) {i : Nat} {p : Process} (hi : s.idx ≤ i)
    (hp : s.procs[i]? = some p) : ¬ inReady s p.pid ∧ s.current ≠ some p.pid := by
  have hpidAt : (s.procs.map Process.pid)[i]? = some p.pid := by
    rw [List.getElem?_map, hp]
    rfl
  constructor
  · rintro ⟨e, he, hl, hk⟩
    rcases inv.live_admitted e he hl with ⟨j, hj, hjp⟩
    rw [hk] at hjp
    have := pidAt_inj hok inv hjp hpidAt
    omega
  · intro hcur
    rcases inv.cur_admitted p.pid hcur with ⟨j, hj, hjp⟩
    have := pidAt_inj hok inv hjp hpidAt
    omega

/-- Under distinct pids, `setProc` only rewrites the written pid's slot. -/
theorem setProc_getElem?_ne {ps : List Process} {p' : Process} {i : Nat} {q : Process}
    (hq : ps[i]? = some q) (hne : q.pid ≠ p'.pid) : (setProc ps p')[i]? = some q := by
  rw [setProc_getElem?, hq]
  show some (if q.pid == p'.pid then p' else q) = some q
  rw [if_neg (by simp [hne])]

theorem setProc_getElem?_self {ps : List Process} {p' : Process} {i : Nat} {q : Process}
    (hq : ps[i]? = some q) (heq : q.pid = p'.pid) : (setProc ps p')[i]? = some p' := by
  rw [setProc_getElem?, hq]
  show some (if q.pid == p'.pid then p' else q) = some p'
  rw [if_pos (by simp [heq])]

theorem mem_setProc {ps : List Process} {p' x : Process} (hx : x ∈ setProc ps p') :
    x = p' ∨ (x ∈ ps ∧ x.pid ≠ p'.pid) := by
  rcases List.mem_map.mp hx with ⟨q, hq, hqx⟩
  by_cases h : q.pid == p'.pid
  · rw [if_pos h] at hqx
    exact Or.inl hqx.symm
  · rw [if_neg h] at hqx
    subst hqx
    exact Or.inr ⟨hq, by simpa using h⟩

/-- One admission (`scheduler.py`, lines 64–68) preserves the invariant. -/
theorem admit_step_inv {init : List Process} {s : SchedState} (hok : InitOk init)
    (inv : Inv init s) {p : Process} (hp : s.procs[s.idx]? = some p)
    (harr : p.arrival = (s.clock : Int)) :
    Inv init { s with
      procs := setProc s.procs { p with last_enqueued := (s.clock : Int) }
      ready := s.ready.insert p.pid p.pid (p.base_priority, p.arrival, 0)
      idx := s.idx + 1 } := by
  set p' : Process := { p with last_enqueued := (s.clock : Int) } with hpdef
  have hpmem : p ∈ s.procs := List.getElem?_mem hp
  have hnd := inv.pids_nodup hok
  have hppid : p'.pid = p.pid := rfl
  have hpidAt : (s.procs.map Process.pid)[s.idx]? = some p.pid := by
    rw [List.getElem?_map, hp]
    rfl
  have hfresh := inv.unadmitted_fresh hok (le_refl s.idx) hp
  have hpristine := inv.pristine s.idx p (le_refl _) hp
  have hstart0 : p.start_time = none := hok.start_none p (List.getElem?_mem hpristine)
  have hcomp0 : p.completion_time = none := hok.completion_none p (List.getElem?_mem hpristine)
  have heqpid : ∀ q ∈ s.procs, q.pid = p.pid → q = p :=
    fun q hq hk => List.inj_on_of_nodup_map hnd hq hpmem hk
  have hsetpid : (setProc s.procs p').map Process.pid = s.procs.map Process.pid :=
    setProc_map_pid _ _
  have hsetAt : ∀ (i : Nat) (q : Process), s.procs[i]? = some q → q.pid ≠ p.pid →
      (setProc s.procs p')[i]? = some q :=
    fun i q hq hne => setProc_getElem?_ne hq (by rw [hppid]; exact hne)
  have hmemset : ∀ x ∈ setProc s.procs p', x = p' ∨ (x ∈ s.procs ∧ x.pid ≠ p.pid) := by
    intro x hx
    rcases mem_setProc hx with h | ⟨h1, h2⟩
    · exact Or.inl h
    · exact Or.inr ⟨h1, by rwa [hppid] at h2⟩
  have hidx_pid_ne : ∀ (j : Nat), j < s.idx →
      ∀ k, (s.procs.map Process.pid)[j]? = some k → k ≠ p.pid := by
    intro j hj k hk hkp
    rw [hkp] at hk
    have := pidAt_inj hok inv hk hpidAt
    omega
  have hinR : ∀ x, inReady { s with
      procs := setProc s.procs p'
      ready := s.ready.insert p.pid p.pid (p.base_priority, p.arrival, 0)
      idx := s.idx + 1 } x ↔ (x = p.pid ∨ (inReady s x ∧ x ≠ p.pid)) := by
    intro x
    exact inReady_insert inv.hp p.pid p.pid (p.base_priority, p.arrival, 0) x
  have hexecOf : ∀ x, execOf { s with
      procs := setProc s.procs p'
      ready := s.ready.insert p.pid p.pid (p.base_priority, p.arrival, 0)
      idx := s.idx + 1 } x = execOf s x := fun x => rfl
  refine ⟨insert_wf inv.hp _ _ _, itemsKeys_insert inv.items p.pid _, ?_, inv.len_clock, ?_,
    ?_, inv.err_false, ?_, ?_, ?_, ?_, ?_, ?_, ?_, ?_, ?_, ?_, ?_⟩
  · -- statics
    rw [show ({ s with
      procs := setProc s.procs p'
      ready := s.ready.insert p.pid p.pid (p.base_priority, p.arrival, 0)
      idx := s.idx + 1 } : SchedState).procs = setProc s.procs p' from rfl]
    rw [setProc_statics, inv.statics_eq]
    intro q hq hk
    rw [heqpid q hq (by rwa [hppid] at hk)]
    rfl
  · -- executed keys
    show s.executed_ticks.map Prod.fst = (setProc s.procs p').map Process.pid
    rw [hsetpid]
    exact inv.exec_keys
  · -- idx bound
    show s.idx + 1 ≤ (setProc s.procs p').length
    rw [setProc_length]
    rcases List.getElem?_eq_some_iff.mp hp with ⟨h, _⟩
    omega
  · -- live_admitted
    intro e he hl
    rcases (insert_live_mem inv.hp p.pid p.pid (p.base_priority, p.arrival, 0)).mp
      ⟨he, hl⟩ with ⟨hm, hl', _⟩ | heq
    · rcases inv.live_admitted e hm hl' with ⟨j, hj, hjk⟩
      exact ⟨j, by show j < s.idx + 1; omega, by rw [hsetpid]; exact hjk⟩
    · refine ⟨s.idx, by show s.idx < s.idx + 1; omega, ?_⟩
      rw [hsetpid, heq]
      exact hpidAt
  · -- cur_admitted
    intro cp hcp
    rcases inv.cur_admitted cp hcp with ⟨j, hj, hjk⟩
    exact ⟨j, by show j < s.idx + 1; omega, by rw [hsetpid]; exact hjk⟩
  · -- cur_not_live
    intro cp hcp
    rw [hinR]
    rintro (rfl | ⟨hold, _⟩)
    · exact hfresh.2 hcp
    · exact inv.cur_not_live cp hcp hold
  · -- pristine
    intro i q hi hq
    have hi2 : s.idx + 1 ≤ i := hi
    have hne : ∀ r, s.procs[i]? = some r → r.pid ≠ p.pid := by
      intro r hr hrp
      have hrAt : (s.procs.map Process.pid)[i]? = some p.pid := by
        rw [List.getElem?_map, hr]
        show some r.pid = some p.pid
        rw [hrp]
      have := pidAt_inj hok inv hrAt hpidAt
      omega
    cases hq0 : s.procs[i]? with
    | none =>
      rw [setProc_getElem?, hq0] at hq
      simp at hq
    | some r =>
      have := hsetAt i r hq0 (hne r hq0)
      rw [this] at hq
      injection hq with hq
      rw [← hq]
      exact inv.pristine i r (by omega) hq0
  · -- acc_rem
    intro i q p₀ hq hp₀
    cases hq0 : s.procs[i]? with
    | none =>
      rw [setProc_getElem?, hq0] at hq
      simp at hq
    | some r =>
      by_cases hrp : r.pid = p.pid
      · have := setProc_getElem?_self hq0 (by rw [hppid]; exact hrp)
        rw [this] at hq
        injection hq with hq
        subst hq
        have hr : r = p := heqpid r (List.getElem?_mem hq0) hrp
        subst hr
        have := inv.acc_rem i r p₀ hq0 hp₀
        rw [hexecOf]
        exact this
      · have := hsetAt i r hq0 hrp
        rw [this] at hq
        injection hq with hq
        rw [← hq]
        rw [hexecOf]
        exact inv.acc_rem i r p₀ hq0 hp₀
  · -- acc_count
    intro q hq hqid
    rcases hmemset q hq with rfl | ⟨hmem, _⟩
    · rw [hexecOf]
      exact inv.acc_count p hpmem (by rwa [hppid] at hqid)
    · rw [hexecOf]
      exact inv.acc_count q hmem hqid
  · -- start_none_props
    intro q hq hst
    rcases hmemset q hq with rfl | ⟨hmem, hne⟩
    · refine ⟨hexecOf _ ▸ (inv.start_none_props p hpmem hstart0).1, ?_⟩
      show s.current ≠ some p.pid
      exact hfresh.2
    · refine ⟨hexecOf _ ▸ (inv.start_none_props q hmem hst).1, ?_⟩
      show s.current ≠ some q.pid
      exact (inv.start_none_props q hmem hst).2
  · -- start_some_props
    intro q hq st hst
    rcases hmemset q hq with rfl | ⟨hmem, hne⟩
    · rw [show p'.start_time = p.start_time from rfl, hstart0] at hst
      cases hst
    · exact (inv.start_some_props q hmem st hst)
  · -- completed_props
    intro q hq c hc
    rcases hmemset q hq with rfl | ⟨hmem, hne⟩
    · rw [show p'.completion_time = p.completion_time from rfl, hcomp0] at hc
      cases hc
    · have hq' := inv.completed_props q hmem c hc
      refine ⟨hq'.1, hq'.2.1, hq'.2.2.1, ?_, ?_⟩
      · intro hin
        rcases (hinR q.pid).mp hin with heqp | ⟨hold, _⟩
        · exact hne heqp
        · exact hq'.2.2.2.1 hold
      · show s.current ≠ some q.pid
        exact hq'.2.2.2.2
  · -- cur_completion
    intro q hq hcur
    rcases hmemset q hq with rfl | ⟨hmem, hne⟩
    · exact absurd (show s.current = some p.pid from hcur) hfresh.2
    · exact inv.cur_completion q hmem hcur
  · -- admitted_active
    intro i q hi hq hcomp
    have hi2 : i < s.idx + 1 := hi
    by_cases hieq : i = s.idx
    · subst hieq
      have := setProc_getElem?_self hp (by rw [hppid])
      rw [this] at hq
      injection hq with hq
      subst hq
      left
      rw [hinR]
      exact Or.inl rfl
    · have hi' : i < s.idx := by omega
      cases hq0 : s.procs[i]? with
      | none =>
        rw [setProc_getElem?, hq0] at hq
        simp at hq
      | some r =>
        have hrp : r.pid ≠ p.pid := by
          intro hrp
          have hrAt : (s.procs.map Process.pid)[i]? = some p.pid := by
            rw [List.getElem?_map, hq0]
            show some r.pid = some p.pid
            rw [hrp]
          have := pidAt_inj hok inv hrAt hpidAt
          omega
        have := hsetAt i r hq0 hrp
        rw [this] at hq
        injection hq with hq
        rw [← hq] at hcomp ⊢
        rcases inv.admitted_active i r hi' hq0 hcomp with hr | hc
        · left
          rw [hinR]
          exact Or.inr ⟨hr, hrp⟩
        · right
          exact hc

/-- The whole admission loop preserves the invariant. -/
theorem admitGo_inv {init : List Process} (hok : InitOk init) :
    ∀ (fuel : Nat) (s : SchedState), Inv init s → Inv init (admitGo fuel s) := by
  intro fuel
  induction fuel with
  | zero => exact fun s inv => inv
  | succ fuel ih =>
    intro s inv
    rw [admitGo]
    split
    · exact inv
    · rename_i p hp
      split
      · rename_i harr
        exact ih _ (admit_step_inv hok inv hp harr)
      · exact inv

theorem admitArrivals_inv {init : List Process} (hok : InitOk init) {s : SchedState}
    (inv : Inv init s) : Inv init (admitArrivals s) :=
  admitGo_inv hok _ s inv

theorem inReady_iff_live {s : SchedState} (x : String) :
    inReady s x ↔ ∃ y ∈ s.ready.liveEntries, y.key = x := by
  unfold inReady BinaryHeap.liveEntries liveList
  constructor
  · rintro ⟨e, he, hl, rfl⟩
    exact ⟨e, List.mem_filter.mpr ⟨he, hl⟩, rfl⟩
  · rintro ⟨y, hy, rfl⟩
    rcases List.mem_filter.mp hy with ⟨hm, hl⟩
    exact ⟨y, hm, hl, rfl⟩

/-- Extraction from the ready queue inside the scheduler, and everything
the invariant needs about a successful one. -/
theorem extract_ready {init : List Process} {s : SchedState} (_hok : InitOk init)
    (inv : Inv init s) {pid : String} {r : BinaryHeap String}
    (hres : s.ready.extract_min = some (pid, r)) :
    HeapWF r ∧
      (∀ e ∈ r.heap, ∀ it : String, e.item = some it → it = e.key) ∧
      (∃ e, e.key = pid ∧ entryLive e = true ∧ e ∈ s.ready.heap ∧
        s.ready.liveEntries = e :: r.liveEntries ∧
        (∀ x ∈ s.ready.liveEntries, entryKey e ≤ entryKey x)) ∧
      (∀ x, inReady { s with ready := r } x ↔ (inReady s x ∧ x ≠ pid)) ∧
      (∃ j, j < s.idx ∧ (s.procs.map Process.pid)[j]? = some pid) ∧
      (∀ e' ∈ r.heap, e' ∈ s.ready.heap) := by
  rcases extract_min_spec inv.hp hres with
    ⟨e, rest, hpop, hitem, hr, hwf', hlives, hmin, hkeyfin, hfind'⟩
  have hkey : pid = e.key := inv.items e
    (by rcases popLive_some_spec hpop with ⟨_, pre, hsplit, _⟩
        rw [hsplit]
        exact List.mem_append.mpr (Or.inr (List.mem_cons_self _ _))) pid hitem
  have hemem : e ∈ s.ready.heap := by
    rcases popLive_some_spec hpop with ⟨_, pre, hsplit, _⟩
    rw [hsplit]
    exact List.mem_append.mpr (Or.inr (List.mem_cons_self _ _))
  have helive : entryLive e = true := (popLive_some_spec hpop).1
  have hsubheap : ∀ e' ∈ r.heap, e' ∈ s.ready.heap := by
    intro e' he'
    rcases popLive_some_spec hpop with ⟨_, pre, hsplit, _⟩
    rw [hr] at he'
    rw [hsplit]
    exact List.mem_append.mpr (Or.inr (List.mem_cons_of_mem _ he'))
  have hitems' : ∀ e' ∈ r.heap, ∀ it' : String, e'.item = some it' → it' = e'.key :=
    fun e' he' it' hit' => inv.items e' (hsubheap e' he') it' hit'
  have hsubl : r.liveEntries.Sublist s.ready.liveEntries := by
    rw [hlives]
    exact List.sublist_cons_self _ _
  have hiff : ∀ x, inReady { s with ready := r } x ↔ (inReady s x ∧ x ≠ pid) := by
    intro x
    rw [show inReady { s with ready := r } x ↔
      (∃ y ∈ r.liveEntries, y.key = x) from inReady_iff_live x]
    rw [show inReady s x ↔ (∃ y ∈ s.ready.liveEntries, y.key = x) from inReady_iff_live x]
    rw [hkey]
    exact inReady_extract inv.hp (heap_nodup inv.hp) hlives hsubl x
  rcases inv.live_admitted e hemem helive with ⟨j, hj, hjk⟩
  exact ⟨hwf', hitems', ⟨e, hkey.symm, helive, hemem, hlives, hmin⟩, hiff,
    ⟨j, hj, by rw [hkey]; exact hjk⟩, hsubheap⟩

/-- A non-empty queue yields a successful extraction. -/
theorem extract_total {init : List Process} {s : SchedState} (inv : Inv init s)
    (hne : s.ready.is_empty = false) : ∃ pr, s.ready.extract_min = some pr := by
  have hfind : s.ready.entry_finder ≠ [] := by
    intro h
    rw [BinaryHeap.is_empty, h] at hne
    simp at hne
  cases hx : s.ready.extract_min with
  | none => exact absurd ((extract_min_eq_none_iff inv.hp).mp hx) hfind
  | some res => exact ⟨res, rfl⟩

/-- The extracted pid denotes an admitted process. -/
theorem extract_getProc {init : List Process} {s : SchedState} (hok : InitOk init)
    (inv : Inv init s) {pid : String} {r : BinaryHeap String}
    (hres : s.ready.extract_min = some (pid, r)) :
    ∃ pf, getProc s.procs pid = some pf := by
  rcases extract_ready hok inv hres with ⟨_, _, _, _, ⟨j, hj, hjk⟩, _⟩
  refine Option.isSome_iff_exists.mp (getProc_isSome ?_)
  rcases List.getElem?_eq_some_iff.mp hjk with ⟨hlt, hq⟩
  have hjlen : j < s.procs.length := by
    rw [List.length_map] at hlt
    exact hlt
  rw [List.getElem_map] at hq
  exact ⟨s.procs[j], List.getElem_mem _, hq⟩

/-- The dispatch action shared by phase 2 and the preemption branch:
extract the queue minimum, record `start_time` on first dispatch, make it
current. -/
theorem dispatch_core {init : List Process} (hok : InitOk init) {s : SchedState}
    (inv : Inv init s) (hcur : s.current = none) {pid : String} {r : BinaryHeap String}
    (hres : s.ready.extract_min = some (pid, r)) {pf : Process}
    (hpf : getProc s.procs pid = some pf) :
    Inv init { s with ready := r, procs := setProc s.procs (if pf.start_time = none then { pf with start_time := some (s.clock : Int) } else pf), current := some pid } := by
  rcases extract_ready hok inv hres with
    ⟨hwf', hitems', ⟨e, hek, hel, hem, hlives, hmin⟩, hiff, ⟨j, hj, hjk⟩, hsubheap⟩
  obtain ⟨hpfmem, hpfpid⟩ := getProc_spec hpf
  have hnd := inv.pids_nodup hok
  have hnotcomp : pf.completion_time = none := by
    cases hc : pf.completion_time with
    | none => rfl
    | some c =>
      have := (inv.completed_props pf hpfmem c hc).2.2.2.1
      exact absurd ⟨e, hem, hel, by rw [hek, hpfpid]⟩ this
  set p' : Process := if pf.start_time = none
    then { pf with start_time := some (s.clock : Int) } else pf with hpdef
  have hp'pid : p'.pid = pid := by
    rw [hpdef]
    split <;> exact hpfpid
  have hp'statics : statics p' = statics pf := by
    rw [hpdef]
    split <;> rfl
  have hp'rem : p'.remaining = pf.remaining := by
    rw [hpdef]; split <;> rfl
  have hp'comp : p'.completion_time = pf.completion_time := by
    rw [hpdef]; split <;> rfl
  have heqpid : ∀ q ∈ s.procs, q.pid = pf.pid → q = pf :=
    fun q hqm hk => List.inj_on_of_nodup_map hnd hqm hpfmem hk
  have hmemset : ∀ x ∈ setProc s.procs p', x = p' ∨ (x ∈ s.procs ∧ x.pid ≠ pid) := by
    intro x hx
    rcases mem_setProc hx with h | ⟨h1, h2⟩
    · exact Or.inl h
    · exact Or.inr ⟨h1, by rwa [hp'pid] at h2⟩
  have hsetAt : ∀ (i : Nat) (q : Process), s.procs[i]? = some q → q.pid ≠ pid →
      (setProc s.procs p')[i]? = some q :=
    fun i q hq hne2 => setProc_getElem?_ne hq (by rw [hp'pid]; exact hne2)
  have hsetpid : (setProc s.procs p').map Process.pid = s.procs.map Process.pid :=
    setProc_map_pid _ _
  have hexecOf : ∀ x, execOf
      { s with ready := r, procs := setProc s.procs p', current := some pid } x =
      execOf s x := fun x => rfl
  have hinR : ∀ x, inReady
      { s with ready := r, procs := setProc s.procs p', current := some pid } x ↔
      (inReady s x ∧ x ≠ pid) := fun x => hiff x
  refine ⟨hwf', hitems', ?_, inv.len_clock, ?_, ?_, inv.err_false, ?_, ?_, ?_, ?_, ?_,
    ?_, ?_, ?_, ?_, ?_, ?_⟩
  · show (setProc s.procs p').map statics = init.map statics
    rw [setProc_statics, inv.statics_eq]
    intro q hqm hk
    rw [heqpid q hqm (by rwa [hp'pid, ← hpfpid] at hk), hp'statics]
  · show s.executed_ticks.map Prod.fst = (setProc s.procs p').map Process.pid
    rw [hsetpid]
    exact inv.exec_keys
  · show s.idx ≤ (setProc s.procs p').length
    rw [setProc_length]
    exact inv.idx_le
  · -- live_admitted
    intro e' he' hl'
    rcases inv.live_admitted e' (hsubheap e' he') hl' with ⟨j', hj', hjk'⟩
    exact ⟨j', hj', by rw [hsetpid]; exact hjk'⟩
  · -- cur_admitted
    intro cp hcp
    injection hcp with hcp
    subst hcp
    exact ⟨j, hj, by rw [hsetpid]; exact hjk⟩
  · -- cur_not_live
    intro cp hcp
    injection hcp with hcp
    subst hcp
    rw [hinR]
    rintro ⟨_, hne2⟩
    exact hne2 rfl
  · -- pristine
    intro i q hi hq
    have hi2 : s.idx ≤ i := hi
    have hpid_ne : ∀ rr, s.procs[i]? = some rr → rr.pid ≠ pid := by
      intro rr hrr hrp
      have hrAt : (s.procs.map Process.pid)[i]? = some pid := by
        rw [List.getElem?_map, hrr]
        show some rr.pid = some pid
        rw [hrp]
      have := pidAt_inj hok inv hrAt hjk
      omega
    cases hq0 : s.procs[i]? with
    | none =>
      rw [setProc_getElem?, hq0] at hq
      simp at hq
    | some rr =>
      have := hsetAt i rr hq0 (hpid_ne rr hq0)
      rw [this] at hq
      injection hq with hq
      rw [← hq]
      exact inv.pristine i rr hi2 hq0
  · -- acc_rem
    intro i q p₀ hq hp₀
    cases hq0 : s.procs[i]? with
    | none =>
      rw [setProc_getElem?, hq0] at hq
      simp at hq
    | some rr =>
      by_cases hrp : rr.pid = pid
      · have hset := setProc_getElem?_self hq0 (by rw [hp'pid]; exact hrp)
        rw [hset] at hq
        injection hq with hq
        rw [← hq]
        have hrr : rr = pf := heqpid rr (List.getElem?_mem hq0) (by rw [hrp, hpfpid])
        have hbase := inv.acc_rem i rr p₀ hq0 hp₀
        rw [hrr] at hbase
        rw [hexecOf, hp'rem, hp'pid, ← hpfpid]
        exact hbase
      · have := hsetAt i rr hq0 hrp
        rw [this] at hq
        injection hq with hq
        rw [← hq]
        rw [hexecOf]
        exact inv.acc_rem i rr p₀ hq0 hp₀
  · -- acc_count
    intro q hqm hqid
    rcases hmemset q hqm with rfl | ⟨hmem2, _⟩
    · have hbase := inv.acc_count pf hpfmem (by rwa [hp'pid, ← hpfpid] at hqid)
      show s.timeline.count p'.pid = execOf s p'.pid
      rw [show p'.pid = pf.pid from by rw [hp'pid, ← hpfpid]]
      exact hbase
    · rw [hexecOf]
      exact inv.acc_count q hmem2 hqid
  · -- start_none_props
    intro q hqm hst
    rcases hmemset q hqm with rfl | ⟨hmem2, hne2⟩
    · rw [hpdef] at hst
      by_cases h0 : pf.start_time = none
      · rw [if_pos h0] at hst
        simp at hst
      · rw [if_neg h0] at hst
        exact absurd hst h0
    · refine ⟨hexecOf _ ▸ (inv.start_none_props q hmem2 hst).1, ?_⟩
      show some pid ≠ some q.pid
      intro hcon
      injection hcon with hcon
      exact hne2 hcon.symm
  · -- start_some_props
    intro q hqm st hst
    rcases hmemset q hqm with rfl | ⟨hmem2, _⟩
    · by_cases h0 : pf.start_time = none
      · have hstv : st = (s.clock : Int) := by
          rw [hpdef, if_pos h0] at hst
          injection hst with h
          exact h.symm
        have hz := (inv.start_none_props pf hpfmem h0).1
        refine ⟨by rw [hstv]; exact Int.natCast_nonneg _, ?_⟩
        show st + (execOf s p'.pid : Int) ≤ (s.clock : Int)
        rw [hstv, hp'pid, ← hpfpid, hz]
        simp
      · have hst' : pf.start_time = some st := by
          rw [hpdef, if_neg h0] at hst
          exact hst
        have hbase := inv.start_some_props pf hpfmem st hst'
        refine ⟨hbase.1, ?_⟩
        show st + (execOf s p'.pid : Int) ≤ (s.clock : Int)
        rw [hp'pid, ← hpfpid]
        exact hbase.2
    · rw [hexecOf]
      exact inv.start_some_props q hmem2 st hst
  · -- completed_props
    intro q hqm c hc
    rcases hmemset q hqm with rfl | ⟨hmem2, hne2⟩
    · rw [hp'comp, hnotcomp] at hc
      cases hc
    · have hq' := inv.completed_props q hmem2 c hc
      refine ⟨hq'.1, ?_, hq'.2.2.1, ?_, ?_⟩
      · rw [hexecOf]
        exact hq'.2.1
      · rw [hinR]
        rintro ⟨hold, _⟩
        exact hq'.2.2.2.1 hold
      · show some pid ≠ some q.pid
        intro hcon
        injection hcon with hcon
        exact hne2 hcon.symm
  · -- cur_completion
    intro q hqm hcurq
    injection hcurq with hcurq
    rcases hmemset q hqm with rfl | ⟨hmem2, hne2⟩
    · rw [hp'comp]
      exact hnotcomp
    · exact absurd hcurq.symm hne2
  · -- admitted_active
    intro i q hi hq hcomp
    cases hq0 : s.procs[i]? with
    | none =>
      rw [setProc_getElem?, hq0] at hq
      simp at hq
    | some rr =>
      by_cases hrp : rr.pid = pid
      · have := setProc_getElem?_self hq0 (by rw [hp'pid]; exact hrp)
        rw [this] at hq
        injection hq with hq
        rw [← hq]
        right
        show some pid = some p'.pid
        rw [hp'pid]
      · have := hsetAt i rr hq0 hrp
        rw [this] at hq
        injection hq with hq
        rw [← hq] at hcomp ⊢
        rcases inv.admitted_active i rr hi hq0 hcomp with hrdy | hcur2
        · left
          rw [hinR]
          exact ⟨hrdy, hrp⟩
        · rw [hcur] at hcur2
          cases hcur2

/-- Phase 2 preserves the invariant. -/
theorem dispatch_inv {init : List Process} (hok : InitOk init) {s : SchedState}
    (inv : Inv init s) : Inv init (dispatchIfIdle s) := by
  rw [dispatchIfIdle, if_neg (by rw [inv.err_false]; simp)]
  cases hcur : s.current with
  | some cp =>
    rw [if_neg (by simp)]
    exact inv
  | none =>
    cases hemp : s.ready.is_empty with
    | true =>
      rw [if_neg (by simp)]
      exact inv
    | false =>
      rw [if_pos (by simp)]
      split
      · rename_i hx
        rcases extract_total inv hemp with ⟨pr, hpr⟩
        rw [hpr] at hx
        cases hx
      · rename_i pid r hx
        obtain ⟨pf, hpf⟩ := extract_getProc hok inv hx
        split
        · rename_i hx2
          rw [hpf] at hx2
          cases hx2
        · rename_i pf1 hx2
          rw [hpf] at hx2
          injection hx2 with hx2
          subst hx2
          exact dispatch_core hok inv hcur hx hpf

/-- Keys of live entries, in the filtered-view formulation. -/
theorem liveKey_iff {α : Type} {h : BinaryHeap α} (x : String) :
    (∃ e ∈ h.heap, entryLive e = true ∧ e.key = x) ↔ (∃ y ∈ h.liveEntries, y.key = x) := by
  unfold BinaryHeap.liveEntries liveList
  constructor
  · rintro ⟨e, he, hl, rfl⟩
    exact ⟨e, List.mem_filter.mpr ⟨he, hl⟩, rfl⟩
  · rintro ⟨y, hy, rfl⟩
    rcases List.mem_filter.mp hy with ⟨hm, hl⟩
    exact ⟨y, hm, hl, rfl⟩

/-- Replacing only the ready queue preserves the invariant when the new
queue is well-formed, keeps items equal to keys, has only admitted live
entries, and exposes the same live keys. -/
theorem inv_set_ready {init : List Process} {s : SchedState} (inv : Inv init s)
    {r : BinaryHeap String} (hwf : HeapWF r) (hit : ItemsKeys r)
    (hadm : ∀ e ∈ r.heap, entryLive e = true →
      ∃ j, j < s.idx ∧ (s.procs.map Process.pid)[j]? = some e.key)
    (hiff : ∀ x, inReady { s with ready := r } x ↔ inReady s x) :
    Inv init { s with ready := r } := by
  refine ⟨hwf, hit, inv.statics_eq, inv.len_clock, inv.exec_keys, inv.idx_le,
    inv.err_false, hadm, inv.cur_admitted, ?_, inv.pristine, inv.acc_rem,
    inv.acc_count, inv.start_none_props, inv.start_some_props, ?_,
    inv.cur_completion, ?_⟩
  · intro cp hcp
    rw [hiff]
    exact inv.cur_not_live cp hcp
  · intro p hm c hc
    have h := inv.completed_props p hm c hc
    refine ⟨h.1, h.2.1, h.2.2.1, ?_, h.2.2.2.2⟩
    rw [hiff]
    exact h.2.2.2.1
  · intro i p hi hp hc
    rcases inv.admitted_active i p hi hp hc with h | h
    · exact Or.inl ((hiff p.pid).mpr h)
    · exact Or.inr h

/-- Facts about the queue after the candidate re-insertion of the
preemption check (`scheduler.py`, lines 81–83): well-formedness, items,
admitted live entries, and an unchanged set of live keys. -/
theorem reinsert_facts {init : List Process} (hok : InitOk init) {s : SchedState}
    (inv : Inv init s) {candPid : String} {r1 : BinaryHeap String}
    (hx1 : s.ready.extract_min = some (candPid, r1)) {cand : Process}
    (hcand : getProc s.procs candPid = some cand) (pc : Prio) :
    HeapWF (r1.insert cand.pid candPid pc) ∧ ItemsKeys (r1.insert cand.pid candPid pc) ∧
      (∀ e ∈ (r1.insert cand.pid candPid pc).heap, entryLive e = true →
        ∃ j, j < s.idx ∧ (s.procs.map Process.pid)[j]? = some e.key) ∧
      (∀ x, inReady { s with ready := r1.insert cand.pid candPid pc } x ↔ inReady s x) := by
  rcases extract_ready hok inv hx1 with
    ⟨hwf1, hitems1, ⟨e, hek, hel, hem, hlives, hmin⟩, hiff1, ⟨j, hj, hjk⟩, hsub1⟩
  obtain ⟨hcmem, hcpid⟩ := getProc_spec hcand
  have hwf2 : HeapWF (r1.insert cand.pid candPid pc) := insert_wf hwf1 _ _ _
  have hit2 : ItemsKeys (r1.insert cand.pid candPid pc) := by
    rw [hcpid]
    exact itemsKeys_insert (fun e' he' => hitems1 e' he') candPid pc
  have hadm2 : ∀ e' ∈ (r1.insert cand.pid candPid pc).heap, entryLive e' = true →
      ∃ j', j' < s.idx ∧ (s.procs.map Process.pid)[j']? = some e'.key := by
    intro e' he' hl'
    rcases (insert_live_mem hwf1 cand.pid candPid pc).mp ⟨he', hl'⟩ with ⟨hm1, hl1, _⟩ | heq
    · exact inv.live_admitted e' (hsub1 e' hm1) hl1
    · subst heq
      refine ⟨j, hj, ?_⟩
      show (s.procs.map Process.pid)[j]? = some cand.pid
      rw [hcpid]
      exact hjk
  have hiff2 : ∀ x, inReady { s with ready := r1.insert cand.pid candPid pc } x ↔
      inReady s x := by
    intro x
    have ha : inReady { s with ready := r1.insert cand.pid candPid pc } x ↔
        (x = cand.pid ∨ ((∃ e' ∈ r1.heap, entryLive e' = true ∧ e'.key = x) ∧
          x ≠ cand.pid)) :=
      inReady_insert hwf1 cand.pid candPid pc x
    have hb : (∃ e' ∈ r1.heap, entryLive e' = true ∧ e'.key = x) ↔
        (inReady s x ∧ x ≠ candPid) := hiff1 x
    rw [ha, hb, hcpid]
    constructor
    · rintro (rfl | ⟨⟨hin, _⟩, _⟩)
      · exact ⟨e, hem, hel, hek⟩
      · exact hin
    · intro hin
      by_cases hxc : x = candPid
      · exact Or.inl hxc
      · exact Or.inr ⟨⟨hin, hxc⟩, hxc⟩
  exact ⟨hwf2, hit2, hadm2, hiff2⟩

/-- Peeking a queue that has just received an insertion succeeds. -/
theorem peek_total {h : BinaryHeap String} (k it : String) (p : Prio)
    (wf : HeapWF (h.insert k it p)) :
    ∃ pr, (h.insert k it p).peek_min_priority = some pr := by
  cases hx : (h.insert k it p).peek_min_priority with
  | some pr => exact ⟨pr, rfl⟩
  | none =>
    have hfin := (peek_eq_none_iff wf).mp hx
    rcases insert_unfold h k it p with ⟨h1, _, _, _, _, heq⟩
    rw [heq] at hfin
    simp at hfin

/-- Extraction from a queue that has just received an insertion succeeds. -/
theorem extract_insert_total {h : BinaryHeap String} (k it : String) (p : Prio)
    (wf : HeapWF h) : ∃ pr, (h.insert k it p).extract_min = some pr := by
  cases hx : (h.insert k it p).extract_min with
  | some pr => exact ⟨pr, rfl⟩
  | none =>
    have hfin := (extract_min_eq_none_iff (insert_wf wf k it p)).mp hx
    rcases insert_unfold h k it p with ⟨h1, _, _, _, _, heq⟩
    rw [heq] at hfin
    simp at hfin

/-- The current process denotes an admitted process in the store. -/
theorem cur_getProc {init : List Process} {s : SchedState} (_hok : InitOk init)
    (inv : Inv init s) {cp : String} (hcur : s.current = some cp) :
    ∃ q, getProc s.procs cp = some q := by
  rcases inv.cur_admitted cp hcur with ⟨j, hj, hjk⟩
  refine Option.isSome_iff_exists.mp (getProc_isSome ?_)
  rcases List.getElem?_eq_some_iff.mp hjk with ⟨hlt, hq⟩
  have hjlen : j < s.procs.length := by
    rw [List.length_map] at hlt
    exact hlt
  rw [List.getElem_map] at hq
  exact ⟨s.procs[j], List.getElem_mem _, hq⟩

/-- Facts about the queue after `peek_min_priority` has physically
discarded the dead prefix (`heap.py`, lines 52–57): the live keys and the
index are untouched. -/
theorem preempt_peek_facts {init : List Process} (hok : InitOk init) {s : SchedState}
    (inv : Inv init s) {candPid : String} {r1 : BinaryHeap String}
    (hx1 : s.ready.extract_min = some (candPid, r1)) {cand : Process}
    (hcand : getProc s.procs candPid = some cand) {pc : Prio} {top : Prio}
    {r3 : BinaryHeap String}
    (hpk : (r1.insert cand.pid candPid pc).peek_min_priority = some (top, r3)) :
    HeapWF r3 ∧ ItemsKeys r3 ∧
      (∀ e ∈ r3.heap, entryLive e = true →
        ∃ j, j < s.idx ∧ (s.procs.map Process.pid)[j]? = some e.key) ∧
      (∀ x, (∃ e ∈ r3.heap, entryLive e = true ∧ e.key = x) ↔ inReady s x) := by
  rcases reinsert_facts hok inv hx1 hcand pc with ⟨hwf2, hit2, hadm2, hiff2⟩
  rcases peek_spec hwf2 hpk with ⟨pe, rest, hpop, _, _, hr3, hwf3, hle3, _⟩
  have hsub3 : ∀ e' ∈ r3.heap, e' ∈ (r1.insert cand.pid candPid pc).heap := by
    rcases popLive_some_spec hpop with ⟨_, pre, hsplit, _⟩
    intro e' he'
    rw [hr3] at he'
    rw [hsplit]
    exact List.mem_append.mpr (Or.inr he')
  refine ⟨hwf3, fun e' he' => hit2 e' (hsub3 e' he'),
    fun e' he' hl' => hadm2 e' (hsub3 e' he') hl', ?_⟩
  intro x
  rw [show (∃ e' ∈ r3.heap, entryLive e' = true ∧ e'.key = x) ↔
      (∃ y ∈ r3.liveEntries, y.key = x) from liveKey_iff x]
  rw [hle3]
  rw [show (∃ y ∈ (r1.insert cand.pid candPid pc).liveEntries, y.key = x) ↔
      (∃ e' ∈ (r1.insert cand.pid candPid pc).heap, entryLive e' = true ∧ e'.key = x) from
      (liveKey_iff x).symm]
  exact hiff2 x

/-- Requeuing the preempted current process (`scheduler.py`, lines 89–93)
yields an invariant state whose current slot is free. -/
theorem preempt_requeue_inv {init : List Process} (hok : InitOk init) {s : SchedState}
    (inv : Inv init s) {curPid : String} (hcur : s.current = some curPid)
    {candPid : String} {r1 : BinaryHeap String}
    (hx1 : s.ready.extract_min = some (candPid, r1)) {cand : Process}
    (hcand : getProc s.procs candPid = some cand) {cur : Process}
    (hcurp : getProc s.procs curPid = some cur) (pc : Prio) {top : Prio}
    {r3 : BinaryHeap String}
    (hpk : (r1.insert cand.pid candPid pc).peek_min_priority = some (top, r3))
    (qc : Prio) :
    Inv init { s with ready := r3.insert cur.pid cur.pid qc, procs := setProc s.procs { cur with last_enqueued := (s.clock : Int) }, current := none } := by
  rcases preempt_peek_facts hok inv hx1 hcand hpk with ⟨hwf3, hit3, hadm3, hiff3⟩
  obtain ⟨hcurmem, hcurpid⟩ := getProc_spec hcurp
  have hnd := inv.pids_nodup hok
  rcases inv.cur_admitted curPid hcur with ⟨j0, hj0, hjk0⟩
  have hwf4 : HeapWF (r3.insert cur.pid cur.pid qc) := insert_wf hwf3 _ _ _
  have hit4 : ItemsKeys (r3.insert cur.pid cur.pid qc) := itemsKeys_insert hit3 cur.pid qc
  have hadm4 : ∀ e' ∈ (r3.insert cur.pid cur.pid qc).heap, entryLive e' = true →
      ∃ j', j' < s.idx ∧ (s.procs.map Process.pid)[j']? = some e'.key := by
    intro e' he' hl'
    rcases (insert_live_mem hwf3 cur.pid cur.pid qc).mp ⟨he', hl'⟩ with ⟨hm3, hl3, _⟩ | heq
    · exact hadm3 e' hm3 hl3
    · subst heq
      refine ⟨j0, hj0, ?_⟩
      show (s.procs.map Process.pid)[j0]? = some cur.pid
      rw [hcurpid]
      exact hjk0
  have hinR4 : ∀ x, (∃ e' ∈ (r3.insert cur.pid cur.pid qc).heap,
      entryLive e' = true ∧ e'.key = x) ↔ (inReady s x ∨ x = curPid) := by
    intro x
    rw [show (∃ e' ∈ (r3.insert cur.pid cur.pid qc).heap, entryLive e' = true ∧ e'.key = x) ↔
        (x = cur.pid ∨ ((∃ e' ∈ r3.heap, entryLive e' = true ∧ e'.key = x) ∧ x ≠ cur.pid)) from
        inReady_insert hwf3 cur.pid cur.pid qc x]
    rw [hiff3 x, hcurpid]
    constructor
    · rintro (rfl | ⟨h1, _⟩)
      · exact Or.inr rfl
      · exact Or.inl h1
    · rintro (h1 | rfl)
      · by_cases hx : x = curPid
        · exact Or.inl hx
        · exact Or.inr ⟨h1, hx⟩
      · exact Or.inl rfl
  set cur' : Process := { cur with last_enqueued := (s.clock : Int) } with hcurdef
  have hcur'pid : cur'.pid = curPid := hcurpid
  have heqpid : ∀ q ∈ s.procs, q.pid = cur.pid → q = cur :=
    fun q hqm hk => List.inj_on_of_nodup_map hnd hqm hcurmem hk
  have hpid_ne : ∀ (i : Nat), s.idx ≤ i → ∀ rr, s.procs[i]? = some rr → rr.pid ≠ curPid := by
    intro i hi rr hrr hrp
    have hrAt : (s.procs.map Process.pid)[i]? = some curPid := by
      rw [List.getElem?_map, hrr]
      show some rr.pid = some curPid
      rw [hrp]
    have := pidAt_inj hok inv hrAt hjk0
    omega
  refine ⟨hwf4, hit4, ?_, inv.len_clock, ?_, ?_, inv.err_false, ?_, ?_, ?_, ?_, ?_,
    ?_, ?_, ?_, ?_, ?_, ?_⟩
  · show (setProc s.procs cur').map statics = init.map statics
    rw [setProc_statics, inv.statics_eq]
    intro q hqm hk
    rw [heqpid q hqm hk]
    rfl
  · show s.executed_ticks.map Prod.fst = (setProc s.procs cur').map Process.pid
    rw [setProc_map_pid]
    exact inv.exec_keys
  · show s.idx ≤ (setProc s.procs cur').length
    rw [setProc_length]
    exact inv.idx_le
  · intro e' he' hl'
    rcases hadm4 e' he' hl' with ⟨j', hj', hjk'⟩
    exact ⟨j', hj', by rw [setProc_map_pid]; exact hjk'⟩
  · intro cp hcp
    exact Option.noConfusion hcp
  · intro cp hcp
    exact Option.noConfusion hcp
  · intro i q hi hq
    have hi2 : s.idx ≤ i := hi
    cases hq0 : s.procs[i]? with
    | none =>
      rw [setProc_getElem?, hq0] at hq
      simp at hq
    | some rr =>
      have hset := setProc_getElem?_ne hq0
        (by rw [hcur'pid]; exact hpid_ne i hi2 rr hq0)
      rw [hset] at hq
      injection hq with hq
      rw [← hq]
      exact inv.pristine i rr hi2 hq0
  · intro i q p₀ hq hp₀
    cases hq0 : s.procs[i]? with
    | none =>
      rw [setProc_getElem?, hq0] at hq
      simp at hq
    | some rr =>
      by_cases hrp : rr.pid = curPid
      · have hset := setProc_getElem?_self hq0 (by rw [hcur'pid]; exact hrp)
        rw [hset] at hq
        injection hq with hq
        rw [← hq]
        have hrr : rr = cur := heqpid rr (List.getElem?_mem hq0) (by rw [hrp, hcurpid])
        have hbase := inv.acc_rem i rr p₀ hq0 hp₀
        rw [hrr] at hbase
        show cur.remaining = p₀.remaining - (execOf s cur.pid : Int)
        exact hbase
      · have hset := setProc_getElem?_ne hq0 (by rw [hcur'pid]; exact hrp)
        rw [hset] at hq
        injection hq with hq
        rw [← hq]
        exact inv.acc_rem i rr p₀ hq0 hp₀
  · intro q hqm hqid
    rcases mem_setProc hqm with rfl | ⟨hmem2, _⟩
    · exact inv.acc_count cur hcurmem hqid
    · exact inv.acc_count q hmem2 hqid
  · intro q hqm hst
    rcases mem_setProc hqm with rfl | ⟨hmem2, _⟩
    · exact ⟨(inv.start_none_props cur hcurmem hst).1, fun h => Option.noConfusion h⟩
    · exact ⟨(inv.start_none_props q hmem2 hst).1, fun h => Option.noConfusion h⟩
  · intro q hqm st hst
    rcases mem_setProc hqm with rfl | ⟨hmem2, _⟩
    · exact inv.start_some_props cur hcurmem st hst
    · exact inv.start_some_props q hmem2 st hst
  · intro q hqm c hc
    rcases mem_setProc hqm with rfl | ⟨hmem2, hne2⟩
    · have hc2 : cur.completion_time = some c := hc
      rw [inv.cur_completion cur hcurmem (by rw [hcurpid]; exact hcur)] at hc2
      cases hc2
    · have hq' := inv.completed_props q hmem2 c hc
      refine ⟨hq'.1, hq'.2.1, hq'.2.2.1, ?_, fun h => Option.noConfusion h⟩
      intro hcon
      rcases (hinR4 q.pid).mp hcon with hold | hqc
      · exact hq'.2.2.2.1 hold
      · rw [hcur'pid] at hne2
        exact hne2 hqc
  · intro q hqm hcurq
    exact Option.noConfusion hcurq
  · intro i q hi hq hcomp
    cases hq0 : s.procs[i]? with
    | none =>
      rw [setProc_getElem?, hq0] at hq
      simp at hq
    | some rr =>
      by_cases hrp : rr.pid = curPid
      · have hset := setProc_getElem?_self hq0 (by rw [hcur'pid]; exact hrp)
        rw [hset] at hq
        injection hq with hq
        rw [← hq]
        left
        exact (hinR4 cur'.pid).mpr (Or.inr hcur'pid)
      · have hset := setProc_getElem?_ne hq0 (by rw [hcur'pid]; exact hrp)
        rw [hset] at hq
        injection hq with hq
        rw [← hq] at hcomp ⊢
        rcases inv.admitted_active i rr hi hq0 hcomp with hrdy | hcur2
        · exact Or.inl ((hinR4 rr.pid).mpr (Or.inl hrdy))
        · left
          rw [hcur] at hcur2
          injection hcur2 with hcur2
          exact (hinR4 rr.pid).mpr (Or.inr hcur2.symm)

/-- Phase 3 preserves the invariant. -/
theorem preempt_inv {init : List Process} (hok : InitOk init) (aging : Int)
    {s : SchedState} (inv : Inv init s) : Inv init (preemptCheck aging s) := by
  rw [preemptCheck, if_neg (by rw [inv.err_false]; simp)]
  split
  · exact inv
  · rename_i curPid hcur
    split
    · exact inv
    · rename_i hemp0
      have hemp : s.ready.is_empty = false := by simpa using hemp0
      split
      · rename_i hx1
        rcases extract_total inv hemp with ⟨pr, hpr⟩
        rw [hpr] at hx1
        cases hx1
      · rename_i candPid r1 hx1
        obtain ⟨cand, hcand⟩ := extract_getProc hok inv hx1
        split
        · rename_i hc2
          rw [hcand] at hc2
          cases hc2
        · rename_i cand1 hc2
          rw [hcand] at hc2
          injection hc2 with hc2
          subst hc2
          rcases cur_getProc hok inv hcur with ⟨cur, hcurp⟩
          split
          · rename_i hc3
            rw [hcurp] at hc3
            cases hc3
          · rename_i cur1 hc3
            rw [hcurp] at hc3
            injection hc3 with hc3
            subst hc3
            rcases reinsert_facts hok inv hx1 hcand
              (eff_priority aging cand (s.clock : Int), cand.arrival, 0) with
              ⟨hwf2, hit2, hadm2, hiff2⟩
            split
            · rename_i hpk
              rcases peek_total cand.pid candPid
                (eff_priority aging cand (s.clock : Int), cand.arrival, 0) hwf2 with
                ⟨pr, hpr⟩
              rw [hpr] at hpk
              cases hpk
            · rename_i top r3 hpk
              rcases preempt_peek_facts hok inv hx1 hcand hpk with ⟨hwf3, hit3, hadm3, hiff3⟩
              split
              · rename_i htop
                have hmid := preempt_requeue_inv hok inv hcur hx1 hcand hcurp
                  (eff_priority aging cand (s.clock : Int), cand.arrival, 0) hpk
                  (eff_priority aging cur (s.clock : Int), cur.arrival, 0)
                split
                · rename_i hx5
                  rcases extract_insert_total cur.pid cur.pid
                    (eff_priority aging cur (s.clock : Int), cur.arrival, 0) hwf3 with
                    ⟨pr5, hpr5⟩
                  rw [hpr5] at hx5
                  cases hx5
                · rename_i newPid r5 hx5
                  obtain ⟨np, hnp⟩ := extract_getProc hok hmid hx5
                  split
                  · rename_i hc6
                    rw [hnp] at hc6
                    cases hc6
                  · rename_i np1 hc6
                    rw [hnp] at hc6
                    injection hc6 with hc6
                    subst hc6
                    exact dispatch_core hok hmid rfl hx5 hnp
              · rename_i htop
                exact inv_set_ready inv hwf3 hit3 hadm3 (fun x => hiff3 x)


/-- Phase 4 preserves the invariant. -/
theorem execute_inv {init : List Process} (hok : InitOk init) {s : SchedState}
    (inv : Inv init s) : Inv init (executeTick s) := by
  rw [executeTick, if_neg (by rw [inv.err_false]; simp)]
  split
  · rename_i hcur
    refine ⟨inv.hp, inv.items, inv.statics_eq, ?_, inv.exec_keys, inv.idx_le,
      inv.err_false, inv.live_admitted, ?_, ?_, inv.pristine, inv.acc_rem, ?_,
      ?_, ?_, ?_, ?_, ?_⟩
    · show (s.timeline ++ ["IDLE"]).length = s.clock + 1
      rw [List.length_append, inv.len_clock]
      rfl
    · intro cp hcp
      rw [hcur] at hcp
      cases hcp
    · intro cp hcp
      rw [hcur] at hcp
      cases hcp
    · intro q hqm hqid
      show (s.timeline ++ ["IDLE"]).count q.pid = execOf s q.pid
      rw [List.count_append]
      have h1 : List.count q.pid ["IDLE"] = 0 := by simp [hqid]
      rw [h1]
      rw [Nat.add_zero]
      exact inv.acc_count q hqm hqid
    · intro q hqm hst
      exact inv.start_none_props q hqm hst
    · intro q hqm st hst
      have h := inv.start_some_props q hqm st hst
      refine ⟨h.1, ?_⟩
      have h2 : st + (execOf s q.pid : Int) ≤ (s.clock : Int) := h.2
      show st + (execOf s q.pid : Int) ≤ ((s.clock + 1 : Nat) : Int)
      push_cast
      push_cast at h2
      omega
    · intro q hqm c hc
      have h := inv.completed_props q hqm c hc
      refine ⟨h.1, h.2.1, ?_, h.2.2.2.1, h.2.2.2.2⟩
      have h2 : c ≤ (s.clock : Int) := h.2.2.1
      show c ≤ ((s.clock + 1 : Nat) : Int)
      push_cast
      push_cast at h2
      omega
    · intro q hqm hcq
      have hcq2 : s.current = some q.pid := hcq
      rw [hcur] at hcq2
      cases hcq2
    · intro i q hi hq hcomp
      rcases inv.admitted_active i q hi hq hcomp with h | h
      · exact Or.inl h
      · rw [hcur] at h
        cases h
  · rename_i curPid hcur
    split
    · rename_i hgp
      rcases cur_getProc hok inv hcur with ⟨q, hq⟩
      rw [hq] at hgp
      cases hgp
    · rename_i p hgp
      obtain ⟨hpmem, hppid⟩ := getProc_spec hgp
      have hnd := inv.pids_nodup hok
      rcases inv.cur_admitted curPid hcur with ⟨j0, hj0, hjk0⟩
      have hnotlive : ¬ inReady s curPid := inv.cur_not_live curPid hcur
      have hcompnone : p.completion_time = none :=
        inv.cur_completion p hpmem (by rw [hppid]; exact hcur)
      have hbump_self : ((bumpExecuted s.executed_ticks curPid).lookup curPid).getD 0 =
          execOf s curPid + 1 := by
        rw [bumpExecuted_lookup_self]
        rw [show s.executed_ticks.lookup curPid = some (execOf s curPid) from by
          have h := inv.exec_lookup hpmem
          rwa [hppid] at h]
        rfl
      have hbump_ne : ∀ x, x ≠ curPid →
          ((bumpExecuted s.executed_ticks curPid).lookup x).getD 0 = execOf s x := by
        intro x hx
        rw [bumpExecuted_lookup_ne _ hx]
        rfl
      have heqpid : ∀ q ∈ s.procs, q.pid = p.pid → q = p :=
        fun q hqm hk => List.inj_on_of_nodup_map hnd hqm hpmem hk
      have hpid_after : ∀ (i : Nat), s.idx ≤ i → ∀ rr, s.procs[i]? = some rr →
          rr.pid ≠ curPid := by
        intro i hi rr hrr hrp
        have hrAt : (s.procs.map Process.pid)[i]? = some curPid := by
          rw [List.getElem?_map, hrr]
          show some rr.pid = some curPid
          rw [hrp]
        have := pidAt_inj hok inv hrAt hjk0
        omega
      have hcount_app : ∀ x : String, (s.timeline ++ [curPid]).count x =
          s.timeline.count x + (if x = curPid then 1 else 0) := by
        intro x
        rw [List.count_append]
        by_cases hx : x = curPid
        · subst hx
          simp
        · simp [hx]
      have hexkeys : (bumpExecuted s.executed_ticks curPid).map Prod.fst =
          s.procs.map Process.pid := by
        rw [bumpExecuted_keys]
        exact inv.exec_keys
      split
      · rename_i hrem
        set p2 : Process := { p with remaining := p.remaining - 1, completion_time := some ((s.clock : Int) + 1) } with hp2def
        have hp2pid : p2.pid = curPid := hppid
        refine ⟨inv.hp, inv.items, ?_, ?_, ?_, ?_, inv.err_false, ?_, ?_, ?_, ?_, ?_,
          ?_, ?_, ?_, ?_, ?_, ?_⟩
        · show (setProc s.procs p2).map statics = init.map statics
          rw [setProc_statics, inv.statics_eq]
          intro q hqm hk
          rw [heqpid q hqm hk]
          rfl
        · show (s.timeline ++ [curPid]).length = s.clock + 1
          rw [List.length_append, inv.len_clock]
          rfl
        · show (bumpExecuted s.executed_ticks curPid).map Prod.fst =
            (setProc s.procs p2).map Process.pid
          rw [setProc_map_pid]
          exact hexkeys
        · show s.idx ≤ (setProc s.procs p2).length
          rw [setProc_length]
          exact inv.idx_le
        · intro e he hl
          rcases inv.live_admitted e he hl with ⟨j', hj', hjk'⟩
          exact ⟨j', hj', by rw [setProc_map_pid]; exact hjk'⟩
        · intro cp hcp
          exact Option.noConfusion hcp
        · intro cp hcp
          exact Option.noConfusion hcp
        · intro i q hi hq
          have hi2 : s.idx ≤ i := hi
          cases hq0 : s.procs[i]? with
          | none =>
            rw [setProc_getElem?, hq0] at hq
            simp at hq
          | some rr =>
            have hset := setProc_getElem?_ne hq0
              (by rw [hp2pid]; exact hpid_after i hi2 rr hq0)
            rw [hset] at hq
            injection hq with hq
            rw [← hq]
            exact inv.pristine i rr hi2 hq0
        · intro i q p₀ hq hp₀
          cases hq0 : s.procs[i]? with
          | none =>
            rw [setProc_getElem?, hq0] at hq
            simp at hq
          | some rr =>
            by_cases hrp : rr.pid = curPid
            · have hset := setProc_getElem?_self hq0 (by rw [hp2pid]; exact hrp)
              rw [hset] at hq
              injection hq with hq
              rw [← hq]
              have hrr : rr = p := heqpid rr (List.getElem?_mem hq0) (by rw [hrp, hppid])
              have hbase := inv.acc_rem i rr p₀ hq0 hp₀
              rw [hrr] at hbase
              show p.remaining - 1 =
                p₀.remaining - (((bumpExecuted s.executed_ticks curPid).lookup p2.pid).getD 0 : Int)
              rw [show p2.pid = curPid from hp2pid, hbump_self]
              rw [show p.pid = curPid from hppid] at hbase
              push_cast
              omega
            · have hset := setProc_getElem?_ne hq0 (by rw [hp2pid]; exact hrp)
              rw [hset] at hq
              injection hq with hq
              rw [← hq]
              show rr.remaining =
                p₀.remaining - (((bumpExecuted s.executed_ticks curPid).lookup rr.pid).getD 0 : Int)
              rw [hbump_ne rr.pid hrp]
              exact inv.acc_rem i rr p₀ hq0 hp₀
        · intro q hqm hqid
          rcases mem_setProc hqm with rfl | ⟨hmem2, hne2⟩
          · show (s.timeline ++ [curPid]).count p2.pid =
              ((bumpExecuted s.executed_ticks curPid).lookup p2.pid).getD 0
            rw [show p2.pid = curPid from hp2pid, hbump_self, hcount_app, if_pos rfl]
            have hbase := inv.acc_count p hpmem (by rwa [show p2.pid = p.pid from rfl] at hqid)
            rw [show p.pid = curPid from hppid] at hbase
            omega
          · rw [hp2pid] at hne2
            show (s.timeline ++ [curPid]).count q.pid =
              ((bumpExecuted s.executed_ticks curPid).lookup q.pid).getD 0
            rw [hbump_ne q.pid hne2, hcount_app, if_neg hne2, Nat.add_zero]
            exact inv.acc_count q hmem2 hqid
        · intro q hqm hst
          refine ⟨?_, fun h => Option.noConfusion h⟩
          rcases mem_setProc hqm with rfl | ⟨hmem2, hne2⟩
          · have hst2 : p.start_time = none := hst
            exact absurd ((inv.start_none_props p hpmem hst2).2) (by
              rw [hppid]
              intro hcon
              exact hcon hcur)
          · rw [hp2pid] at hne2
            show ((bumpExecuted s.executed_ticks curPid).lookup q.pid).getD 0 = 0
            rw [hbump_ne q.pid hne2]
            exact (inv.start_none_props q hmem2 hst).1
        · intro q hqm st hst
          rcases mem_setProc hqm with rfl | ⟨hmem2, hne2⟩
          · have hst2 : p.start_time = some st := hst
            have hbase := inv.start_some_props p hpmem st hst2
            refine ⟨hbase.1, ?_⟩
            show st + (((bumpExecuted s.executed_ticks curPid).lookup p2.pid).getD 0 : Int) ≤
              ((s.clock + 1 : Nat) : Int)
            rw [show p2.pid = curPid from hp2pid, hbump_self]
            have h2 := hbase.2
            rw [show p.pid = curPid from hppid] at h2
            push_cast
            push_cast at h2
            omega
          · rw [hp2pid] at hne2
            have hbase := inv.start_some_props q hmem2 st hst
            refine ⟨hbase.1, ?_⟩
            show st + (((bumpExecuted s.executed_ticks curPid).lookup q.pid).getD 0 : Int) ≤
              ((s.clock + 1 : Nat) : Int)
            rw [hbump_ne q.pid hne2]
            have h2 := hbase.2
            push_cast
            push_cast at h2
            omega
        · intro q hqm c hc
          rcases mem_setProc hqm with rfl | ⟨hmem2, hne2⟩
          · have hc2 : some ((s.clock : Int) + 1) = some c := hc
            injection hc2 with hc2
            refine ⟨hrem, ?_, ?_, ?_, fun h => Option.noConfusion h⟩
            · cases hst0 : p.start_time with
              | none =>
                exact absurd ((inv.start_none_props p hpmem hst0).2) (by
                  rw [hppid]
                  intro hcon
                  exact hcon hcur)
              | some st =>
                have hbase := inv.start_some_props p hpmem st hst0
                refine ⟨st, rfl, ?_⟩
                show st + (((bumpExecuted s.executed_ticks curPid).lookup p2.pid).getD 0 : Int) ≤ c
                rw [show p2.pid = curPid from hp2pid, hbump_self]
                have h2 := hbase.2
                rw [show p.pid = curPid from hppid] at h2
                push_cast
                push_cast at h2
                omega
            · show c ≤ ((s.clock + 1 : Nat) : Int)
              push_cast
              omega
            · show ¬ inReady s p2.pid
              rw [show p2.pid = curPid from hp2pid]
              exact hnotlive
          · rw [hp2pid] at hne2
            have hq' := inv.completed_props q hmem2 c hc
            refine ⟨hq'.1, ?_, ?_, hq'.2.2.2.1, fun h => Option.noConfusion h⟩
            · rcases hq'.2.1 with ⟨st, hst, hb⟩
              refine ⟨st, hst, ?_⟩
              show st + (((bumpExecuted s.executed_ticks curPid).lookup q.pid).getD 0 : Int) ≤ c
              rw [hbump_ne q.pid hne2]
              exact hb
            · have h2 : c ≤ (s.clock : Int) := hq'.2.2.1
              show c ≤ ((s.clock + 1 : Nat) : Int)
              push_cast
              push_cast at h2
              omega
        · intro q hqm hcurq
          exact Option.noConfusion hcurq
        · intro i q hi hq hcomp
          cases hq0 : s.procs[i]? with
          | none =>
            rw [setProc_getElem?, hq0] at hq
            simp at hq
          | some rr =>
            by_cases hrp : rr.pid = curPid
            · have hset := setProc_getElem?_self hq0 (by rw [hp2pid]; exact hrp)
              rw [hset] at hq
              injection hq with hq
              rw [← hq] at hcomp
              have : (none : Option Int) = some ((s.clock : Int) + 1) := by
                rw [← hcomp]
              cases this
            · have hset := setProc_getElem?_ne hq0 (by rw [hp2pid]; exact hrp)
              rw [hset] at hq
              injection hq with hq
              rw [← hq] at hcomp ⊢
              rcases inv.admitted_active i rr hi hq0 hcomp with h | h
              · exact Or.inl h
              · rw [hcur] at h
                injection h with h
                exact absurd h.symm hrp
      · rename_i hrem
        set p1 : Process := { p with remaining := p.remaining - 1 } with hp1def
        have hp1pid : p1.pid = curPid := hppid
        refine ⟨inv.hp, inv.items, ?_, ?_, ?_, ?_, inv.err_false, ?_, ?_, ?_, ?_, ?_,
          ?_, ?_, ?_, ?_, ?_, ?_⟩
        · show (setProc s.procs p1).map statics = init.map statics
          rw [setProc_statics, inv.statics_eq]
          intro q hqm hk
          rw [heqpid q hqm hk]
          rfl
        · show (s.timeline ++ [curPid]).length = s.clock + 1
          rw [List.length_append, inv.len_clock]
          rfl
        · show (bumpExecuted s.executed_ticks curPid).map Prod.fst =
            (setProc s.procs p1).map Process.pid
          rw [setProc_map_pid]
          exact hexkeys
        · show s.idx ≤ (setProc s.procs p1).length
          rw [setProc_length]
          exact inv.idx_le
        · intro e he hl
          rcases inv.live_admitted e he hl with ⟨j', hj', hjk'⟩
          exact ⟨j', hj', by rw [setProc_map_pid]; exact hjk'⟩
        · intro cp hcp
          have hcp2 : s.current = some cp := hcp
          rw [hcur] at hcp2
          injection hcp2 with hcp2
          subst hcp2
          exact ⟨j0, hj0, by rw [setProc_map_pid]; exact hjk0⟩
        · intro cp hcp
          have hcp2 : s.current = some cp := hcp
          rw [hcur] at hcp2
          injection hcp2 with hcp2
          subst hcp2
          exact hnotlive
        · intro i q hi hq
          have hi2 : s.idx ≤ i := hi
          cases hq0 : s.procs[i]? with
          | none =>
            rw [setProc_getElem?, hq0] at hq
            simp at hq
          | some rr =>
            have hset := setProc_getElem?_ne hq0
              (by rw [hp1pid]; exact hpid_after i hi2 rr hq0)
            rw [hset] at hq
            injection hq with hq
            rw [← hq]
            exact inv.pristine i rr hi2 hq0
        · intro i q p₀ hq hp₀
          cases hq0 : s.procs[i]? with
          | none =>
            rw [setProc_getElem?, hq0] at hq
            simp at hq
          | some rr =>
            by_cases hrp : rr.pid = curPid
            · have hset := setProc_getElem?_self hq0 (by rw [hp1pid]; exact hrp)
              rw [hset] at hq
              injection hq with hq
              rw [← hq]
              have hrr : rr = p := heqpid rr (List.getElem?_mem hq0) (by rw [hrp, hppid])
              have hbase := inv.acc_rem i rr p₀ hq0 hp₀
              rw [hrr] at hbase
              show p.remaining - 1 =
                p₀.remaining - (((bumpExecuted s.executed_ticks curPid).lookup p1.pid).getD 0 : Int)
              rw [show p1.pid = curPid from hp1pid, hbump_self]
              rw [show p.pid = curPid from hppid] at hbase
              push_cast
              omega
            · have hset := setProc_getElem?_ne hq0 (by rw [hp1pid]; exact hrp)
              rw [hset] at hq
              injection hq with hq
              rw [← hq]
              show rr.remaining =
                p₀.remaining - (((bumpExecuted s.executed_ticks curPid).lookup rr.pid).getD 0 : Int)
              rw [hbump_ne rr.pid hrp]
              exact inv.acc_rem i rr p₀ hq0 hp₀
        · intro q hqm hqid
          rcases mem_setProc hqm with rfl | ⟨hmem2, hne2⟩
          · show (s.timeline ++ [curPid]).count p1.pid =
              ((bumpExecuted s.executed_ticks curPid).lookup p1.pid).getD 0
            rw [show p1.pid = curPid from hp1pid, hbump_self, hcount_app, if_pos rfl]
            have hbase := inv.acc_count p hpmem (by rwa [show p1.pid = p.pid from rfl] at hqid)
            rw [show p.pid = curPid from hppid] at hbase
            omega
          · rw [hp1pid] at hne2
            show (s.timeline ++ [curPid]).count q.pid =
              ((bumpExecuted s.executed_ticks curPid).lookup q.pid).getD 0
            rw [hbump_ne q.pid hne2, hcount_app, if_neg hne2, Nat.add_zero]
            exact inv.acc_count q hmem2 hqid
        · intro q hqm hst
          rcases mem_setProc hqm with rfl | ⟨hmem2, hne2⟩
          · have hst2 : p.start_time = none := hst
            exact absurd ((inv.start_none_props p hpmem hst2).2) (by
              rw [hppid]
              intro hcon
              exact hcon hcur)
          · rw [hp1pid] at hne2
            refine ⟨?_, ?_⟩
            · show ((bumpExecuted s.executed_ticks curPid).lookup q.pid).getD 0 = 0
              rw [hbump_ne q.pid hne2]
              exact (inv.start_none_props q hmem2 hst).1
            · show s.current ≠ some q.pid
              rw [hcur]
              intro hcon
              injection hcon with hcon
              exact hne2 hcon.symm
        · intro q hqm st hst
          rcases mem_setProc hqm with rfl | ⟨hmem2, hne2⟩
          · have hst2 : p.start_time = some st := hst
            have hbase := inv.start_some_props p hpmem st hst2
            refine ⟨hbase.1, ?_⟩
            show st + (((bumpExecuted s.executed_ticks curPid).lookup p1.pid).getD 0 : Int) ≤
              ((s.clock + 1 : Nat) : Int)
            rw [show p1.pid = curPid from hp1pid, hbump_self]
            have h2 := hbase.2
            rw [show p.pid = curPid from hppid] at h2
            push_cast
            push_cast at h2
            omega
          · rw [hp1pid] at hne2
            have hbase := inv.start_some_props q hmem2 st hst
            refine ⟨hbase.1, ?_⟩
            show st + (((bumpExecuted s.executed_ticks curPid).lookup q.pid).getD 0 : Int) ≤
              ((s.clock + 1 : Nat) : Int)
            rw [hbump_ne q.pid hne2]
            have h2 := hbase.2
            push_cast
            push_cast at h2
            omega
        · intro q hqm c hc
          rcases mem_setProc hqm with rfl | ⟨hmem2, hne2⟩
          · have hc2 : p.completion_time = some c := hc
            rw [hcompnone] at hc2
            cases hc2
          · rw [hp1pid] at hne2
            have hq' := inv.completed_props q hmem2 c hc
            refine ⟨hq'.1, ?_, ?_, hq'.2.2.2.1, ?_⟩
            · rcases hq'.2.1 with ⟨st, hst, hb⟩
              refine ⟨st, hst, ?_⟩
              show st + (((bumpExecuted s.executed_ticks curPid).lookup q.pid).getD 0 : Int) ≤ c
              rw [hbump_ne q.pid hne2]
              exact hb
            · have h2 : c ≤ (s.clock : Int) := hq'.2.2.1
              show c ≤ ((s.clock + 1 : Nat) : Int)
              push_cast
              push_cast at h2
              omega
            · show s.current ≠ some q.pid
              rw [hcur]
              intro hcon
              injection hcon with hcon
              exact hne2 hcon.symm
        · intro q hqm hcurq
          have hcq : s.current = some q.pid := hcurq
          rw [hcur] at hcq
          injection hcq with hcq
          rcases mem_setProc hqm with rfl | ⟨hmem2, hne2⟩
          · show p.completion_time = none
            exact hcompnone
          · rw [hp1pid] at hne2
            exact absurd hcq.symm hne2
        · intro i q hi hq hcomp
          cases hq0 : s.procs[i]? with
          | none =>
            rw [setProc_getElem?, hq0] at hq
            simp at hq
          | some rr =>
            by_cases hrp : rr.pid = curPid
            · have hset := setProc_getElem?_self hq0 (by rw [hp1pid]; exact hrp)
              rw [hset] at hq
              injection hq with hq
              rw [← hq]
              right
              show s.current = some p1.pid
              rw [hcur, hp1pid]
            · have hset := setProc_getElem?_ne hq0 (by rw [hp1pid]; exact hrp)
              rw [hset] at hq
              injection hq with hq
              rw [← hq] at hcomp ⊢
              rcases inv.admitted_active i rr hi hq0 hcomp with h | h
              · exact Or.inl h
              · exact Or.inr h


/-- `insertSorted` permutes the element into the list. -/
theorem insertSorted_perm (x : Process) (l : List Process) :
    (insertSorted x l).Perm (x :: l) := by
  induction l with
  | nil => exact List.Perm.refl _
  | cons y ys ih =>
    rw [insertSorted]
    split
    · exact List.Perm.refl _
    · exact (ih.cons y).trans (List.Perm.swap x y ys)

/-- The intake sort is a permutation of the input. -/
theorem sortProcs_perm (ps : List Process) : (sortProcs ps).Perm ps := by
  induction ps with
  | nil => exact List.Perm.refl _
  | cons x xs ih => exact (insertSorted_perm x (sortProcs xs)).trans (ih.cons x)

/-- The input contract survives the intake sort. -/
theorem initOk_sort {ps : List Process} (hnd : (ps.map Process.pid).Nodup)
    (hst : ∀ p ∈ ps, p.start_time = none) (hcp : ∀ p ∈ ps, p.completion_time = none) :
    InitOk (sortProcs ps) := by
  have hperm := sortProcs_perm ps
  refine ⟨((hperm.map Process.pid).nodup_iff).mpr hnd, ?_, ?_⟩
  · intro p hp
    exact hst p (hperm.mem_iff.mp hp)
  · intro p hp
    exact hcp p (hperm.mem_iff.mp hp)

/-- One full loop iteration preserves the invariant. -/
theorem tick_inv {init : List Process} (hok : InitOk init) (aging : Int)
    {s : SchedState} (inv : Inv init s) : Inv init (tick aging s) :=
  execute_inv hok (preempt_inv hok aging (dispatch_inv hok (admitArrivals_inv hok inv)))

/-- The guarded loop step preserves the invariant. -/
theorem stepRun_inv {init : List Process} (hok : InitOk init) (aging : Int)
    (max_time : Option Nat) (n_total : Nat) {s : SchedState} (inv : Inv init s) :
    Inv init (stepRun aging max_time n_total s) := by
  rw [stepRun, if_neg (by rw [inv.err_false]; simp)]
  split
  · split
    · exact inv
    · exact tick_inv hok aging inv
  · exact inv

/-- Every iterate of the guarded loop step preserves the invariant. -/
theorem iterate_inv {init : List Process} (hok : InitOk init) (aging : Int)
    (max_time : Option Nat) (n_total : Nat) {s : SchedState} (inv : Inv init s)
    (k : Nat) : Inv init ((stepRun aging max_time n_total)^[k] s) := by
  induction k with
  | zero => simpa using inv
  | succ k ih =>
    rw [Function.iterate_succ_apply']
    exact stepRun_inv hok aging max_time n_total ih


/-- C9: for every input collection with unique pids (and the data model's
initially-unset `start_time`/`completion_time`), every iterate of the
scheduler loop keeps the error flag clear.  The model raises `err` exactly
where `extract_min`/`peek_min_priority` would raise `KeyError("Empty
heap")` or an internal lookup would fail, so the EmptyError branch of the
queue operations is unreachable from `run` and no such error escapes the
scheduler. -/
theorem C9_empty_error_unreachable (aging : Int) (processes : List Process)
    (max_time : Option Nat) (fuel : Nat)
    (hnd : (processes.map Process.pid).Nodup)
    (hst : ∀ p ∈ processes, p.start_time = none)
    (hcp : ∀ p ∈ processes, p.completion_time = none) :
    ((stepRun aging max_time (sortProcs processes).length)^[fuel]
      (initState processes)).err = false :=
  (iterate_inv (initOk_sort hnd hst hcp) aging max_time (sortProcs processes).length
    (initState_inv processes (initOk_sort hnd hst hcp)) fuel).err_false

/-- Witness for C9 at a concrete two-process input. -/
theorem C9_empty_error_unreachable_witness :
    ((stepRun 10 none (sortProcs [⟨"A", 0, 1, 2, 2, 0, none, none⟩,
        ⟨"B", 0, 5, 2, 2, 0, none, none⟩]).length)^[5]
      (initState [⟨"A", 0, 1, 2, 2, 0, none, none⟩,
        ⟨"B", 0, 5, 2, 2, 0, none, none⟩])).err = false :=
  C9_empty_error_unreachable 10
    [⟨"A", 0, 1, 2, 2, 0, none, none⟩, ⟨"B", 0, 5, 2, 2, 0, none, none⟩]
    none 5 (by decide) (by decide) (by decide)


/-- Admission does not advance the clock. -/
theorem admitGo_clock (fuel : Nat) : ∀ s : SchedState, (admitGo fuel s).clock = s.clock := by
  induction fuel with
  | zero => intro s; rfl
  | succ n ih =>
    intro s
    rw [admitGo]
    split
    · rfl
    · rename_i p hp
      split
      · rw [ih]
      · rfl

/-- Dispatch does not advance the clock. -/
theorem dispatch_clock (s : SchedState) : (dispatchIfIdle s).clock = s.clock := by
  rw [dispatchIfIdle]
  repeat' split
  all_goals rfl

/-- The preemption check does not advance the clock. -/
theorem preempt_clock (aging : Int) (s : SchedState) :
    (preemptCheck aging s).clock = s.clock := by
  rw [preemptCheck]
  repeat' split
  all_goals rfl

/-- Executing one tick advances the clock by at most one. -/
theorem executeTick_clock_le (s : SchedState) : (executeTick s).clock ≤ s.clock + 1 := by
  rw [executeTick]
  repeat' split
  all_goals first
  | exact Nat.le_succ _
  | exact Nat.le_refl _

/-- One loop iteration advances the clock by at most one. -/
theorem tick_clock_le (aging : Int) (s : SchedState) :
    (tick aging s).clock ≤ s.clock + 1 := by
  rw [tick]
  have h := executeTick_clock_le (preemptCheck aging (dispatchIfIdle (admitArrivals s)))
  rw [preempt_clock, dispatch_clock, admitArrivals, admitGo_clock] at h
  exact h

/-- The guarded step never pushes the clock past the `max_time` bound. -/
theorem stepRun_clock_le {aging : Int} {n T : Nat} {s : SchedState}
    (h : s.clock ≤ T) : (stepRun aging (some T) n s).clock ≤ T := by
  rw [stepRun]
  split
  · exact h
  · split
    · split
      · exact h
      · rename_i hstop
        have hlt : s.clock < T := by
          rw [stopCond] at hstop
          simpa using hstop
        have ht := tick_clock_le aging s
        omega
    · exact h

/-- No iterate of the guarded step pushes the clock past `max_time`. -/
theorem iterate_clock_le {aging : Int} {n T : Nat} {s : SchedState}
    (h : s.clock ≤ T) (k : Nat) :
    ((stepRun aging (some T) n)^[k] s).clock ≤ T := by
  induction k with
  | zero => simpa using h
  | succ k ih =>
    rw [Function.iterate_succ_apply']
    exact stepRun_clock_le ih

/-- Once the stop check fires the guarded step is the identity. -/
theorem stepRun_frozen {aging : Int} {max_time : Option Nat} {n : Nat} {s : SchedState}
    (h : stopCond max_time s = true) : stepRun aging max_time n s = s := by
  rw [stepRun]
  split
  · rfl
  · split
    all_goals first
    | rfl
    | (rename_i hstop; rw [h] at hstop; exact absurd rfl hstop)

/-- Which pids appear in the post-loop dictionaries. -/
theorem mem_filterMap_pid (g : Process → Int → Int) {ps : List Process} {x : String} :
    (x ∈ (ps.filterMap fun p => p.completion_time.map fun c => (p.pid, g p c)).map
      Prod.fst) ↔ ∃ q ∈ ps, q.pid = x ∧ ∃ c, q.completion_time = some c := by
  constructor
  · intro hx
    rcases List.mem_map.mp hx with ⟨pw, hmem, hfst⟩
    rcases List.mem_filterMap.mp hmem with ⟨q, hq, hfq⟩
    cases hc : q.completion_time with
    | none =>
      rw [hc] at hfq
      cases hfq
    | some c =>
      rw [hc] at hfq
      have hfq2 : some (q.pid, g q c) = some pw := hfq
      injection hfq2 with hfq2
      refine ⟨q, hq, ?_, c, hc⟩
      rw [← hfst, ← hfq2]
  · rintro ⟨q, hq, rfl, c, hc⟩
    refine List.mem_map.mpr ⟨(q.pid, g q c), ?_, rfl⟩
    refine List.mem_filterMap.mpr ⟨q, hq, ?_⟩
    rw [hc]
    rfl

/-- A list member that the function drops makes `filterMap` strictly
shorter than the list. -/
theorem length_filterMap_lt {α β : Type} (f : α → Option β) {l : List α} {a : α}
    (ha : a ∈ l) (hfa : f a = none) : (l.filterMap f).length < l.length := by
  induction l with
  | nil => cases ha
  | cons x xs ih =>
    rw [List.filterMap_cons]
    rcases List.mem_cons.mp ha with rfl | ha2
    · rw [hfa]
      exact Nat.lt_succ_of_le (List.length_filterMap_le f xs)
    · cases hfx : f x with
      | none => exact Nat.lt_succ_of_lt (ih ha2)
      | some b =>
        rw [List.length_cons, List.length_cons]
        exact Nat.succ_lt_succ (ih ha2)


/-- C6: with a `max_time` bound the loop freezes as soon as the clock
reaches the bound, so the timeline has at most `max_time` entries;
processes whose `remaining` is still positive at that point are absent
from both post-loop dictionaries, and truncation is detectable as
`len(completion_times) < ` the number of processes supplied. -/
theorem C6_max_time_truncation (aging : Int) (processes : List Process) (T fuel : Nat)
    (hnd : (processes.map Process.pid).Nodup)
    (hst : ∀ p ∈ processes, p.start_time = none)
    (hcp : ∀ p ∈ processes, p.completion_time = none) :
    (run aging processes (some T) fuel).timeline.length ≤ T ∧
    (∀ k, T ≤ ((stepRun aging (some T) (sortProcs processes).length)^[fuel]
        (initState processes)).clock →
      (stepRun aging (some T) (sortProcs processes).length)^[k]
          ((stepRun aging (some T) (sortProcs processes).length)^[fuel]
            (initState processes)) =
        (stepRun aging (some T) (sortProcs processes).length)^[fuel]
          (initState processes)) ∧
    (∀ p ∈ ((stepRun aging (some T) (sortProcs processes).length)^[fuel]
        (initState processes)).procs, 0 < p.remaining →
      p.pid ∉ (run aging processes (some T) fuel).completion_times.map Prod.fst ∧
      p.pid ∉ (run aging processes (some T) fuel).waiting_times.map Prod.fst) ∧
    ((∃ p ∈ ((stepRun aging (some T) (sortProcs processes).length)^[fuel]
        (initState processes)).procs, 0 < p.remaining) →
      (run aging processes (some T) fuel).completion_times.length < processes.length) := by
  have hok := initOk_sort hnd hst hcp
  set n := (sortProcs processes).length with hn
  set sfin := (stepRun aging (some T) n)^[fuel] (initState processes) with hsfin
  have hinv : Inv (sortProcs processes) sfin :=
    iterate_inv hok aging (some T) n (initState_inv processes hok) fuel
  have hclock : sfin.clock ≤ T := iterate_clock_le (Nat.zero_le T) fuel
  have hnonempty : ∀ x, x ∈ sfin.procs → processes.isEmpty = false := by
    intro x hx
    cases hemp : processes.isEmpty with
    | false => rfl
    | true =>
      have h0 : processes = [] := by simpa using hemp
      have hplen : sfin.procs.length = 0 := by
        rw [hinv.procs_length, h0]
        rfl
      rw [List.length_eq_zero] at hplen
      rw [hplen] at hx
      cases hx
  refine ⟨?_, ?_, ?_, ?_⟩
  · cases hemp : processes.isEmpty with
    | true =>
      rw [run, if_pos hemp]
      simp
    | false =>
      rw [run, if_neg (by rw [hemp]; simp)]
      show sfin.timeline.length ≤ T
      rw [hinv.len_clock]
      exact hclock
  · intro k hT
    refine Function.iterate_fixed (stepRun_frozen ?_) k
    rw [stopCond]
    simpa using hT
  · intro p hp hrem
    have hne := hnonempty p hp
    have hrun : run aging processes (some T) fuel = finalize sfin := by
      rw [run, if_neg (by rw [hne]; simp)]
    constructor
    · intro hmem
      rw [hrun] at hmem
      have hmem2 : p.pid ∈ (sfin.procs.filterMap fun q =>
          q.completion_time.map fun c => (q.pid, c)).map Prod.fst := hmem
      rcases (mem_filterMap_pid (fun _ c => c)).mp hmem2 with ⟨q, hq, hqpid, c, hc⟩
      have hqp : q = p := List.inj_on_of_nodup_map (hinv.pids_nodup hok) hq hp hqpid
      rw [hqp] at hc
      have := (hinv.completed_props p hp c hc).1
      omega
    · intro hmem
      rw [hrun] at hmem
      have hmem2 : p.pid ∈ (sfin.procs.filterMap fun q =>
          q.completion_time.map fun c => (q.pid, c - q.arrival - q.burst)).map
          Prod.fst := hmem
      rcases (mem_filterMap_pid (fun q c => c - q.arrival - q.burst)).mp hmem2 with
        ⟨q, hq, hqpid, c, hc⟩
      have hqp : q = p := List.inj_on_of_nodup_map (hinv.pids_nodup hok) hq hp hqpid
      rw [hqp] at hc
      have := (hinv.completed_props p hp c hc).1
      omega
  · rintro ⟨p, hp, hrem⟩
    have hne := hnonempty p hp
    have hrun : run aging processes (some T) fuel = finalize sfin := by
      rw [run, if_neg (by rw [hne]; simp)]
    have hcnone : p.completion_time = none := by
      cases hc : p.completion_time with
      | none => rfl
      | some c =>
        have := (hinv.completed_props p hp c hc).1
        omega
    have hlt : (sfin.procs.filterMap fun q =>
        q.completion_time.map fun c => (q.pid, c)).length < sfin.procs.length :=
      length_filterMap_lt _ hp (by rw [hcnone]; rfl)
    have hlen : sfin.procs.length = processes.length := by
      rw [hinv.procs_length]
      exact (sortProcs_perm processes).length_eq
    rw [hrun]
    show (sfin.procs.filterMap fun q =>
      q.completion_time.map fun c => (q.pid, c)).length < processes.length
    omega

/-- Witness for C6: a two-tick process truncated after one tick. -/
theorem C6_max_time_truncation_witness :
    (run 10 [⟨"A", 0, 1, 2, 2, 0, none, none⟩] (some 1) 5).timeline.length ≤ 1 ∧
    (∀ k, 1 ≤ ((stepRun 10 (some 1) (sortProcs [⟨"A", 0, 1, 2, 2, 0, none, none⟩]).length)^[5]
        (initState [⟨"A", 0, 1, 2, 2, 0, none, none⟩])).clock →
      (stepRun 10 (some 1) (sortProcs [⟨"A", 0, 1, 2, 2, 0, none, none⟩]).length)^[k]
          ((stepRun 10 (some 1) (sortProcs [⟨"A", 0, 1, 2, 2, 0, none, none⟩]).length)^[5]
            (initState [⟨"A", 0, 1, 2, 2, 0, none, none⟩])) =
        (stepRun 10 (some 1) (sortProcs [⟨"A", 0, 1, 2, 2, 0, none, none⟩]).length)^[5]
          (initState [⟨"A", 0, 1, 2, 2, 0, none, none⟩])) ∧
    (∀ p ∈ ((stepRun 10 (some 1) (sortProcs [⟨"A", 0, 1, 2, 2, 0, none, none⟩]).length)^[5]
        (initState [⟨"A", 0, 1, 2, 2, 0, none, none⟩])).procs, 0 < p.remaining →
      p.pid ∉ (run 10 [⟨"A", 0, 1, 2, 2, 0, none, none⟩] (some 1) 5).completion_times.map
        Prod.fst ∧
      p.pid ∉ (run 10 [⟨"A", 0, 1, 2, 2, 0, none, none⟩] (some 1) 5).waiting_times.map
        Prod.fst) ∧
    ((∃ p ∈ ((stepRun 10 (some 1) (sortProcs [⟨"A", 0, 1, 2, 2, 0, none, none⟩]).length)^[5]
        (initState [⟨"A", 0, 1, 2, 2, 0, none, none⟩])).procs, 0 < p.remaining) →
      (run 10 [⟨"A", 0, 1, 2, 2, 0, none, none⟩] (some 1) 5).completion_times.length <
        [(⟨"A", 0, 1, 2, 2, 0, none, none⟩ : Process)].length) :=
  C6_max_time_truncation 10 [⟨"A", 0, 1, 2, 2, 0, none, none⟩] 1 5
    (by decide) (by decide) (by decide)


/-- How one process record may change across scheduler steps: identity
fields fixed, `remaining` never increasing, `completion_time` and
`start_time` stable once set. -/
def ProcEvolve (ps ps' : List Process) : Prop :=
  ps'.length = ps.length ∧
  ∀ (i : Nat) (p p' : Process), ps[i]? = some p → ps'[i]? = some p' →
    p'.pid = p.pid ∧ p'.arrival = p.arrival ∧ p'.burst = p.burst ∧
    p'.remaining ≤ p.remaining ∧
    (∀ c, p.completion_time = some c → p'.completion_time = some c) ∧
    (∀ st, p.start_time = some st → p'.start_time = some st)

theorem ProcEvolve.refl (ps : List Process) : ProcEvolve ps ps := by
  refine ⟨rfl, ?_⟩
  intro i p p' hp hp'
  rw [hp] at hp'
  injection hp' with hp'
  rw [hp']
  exact ⟨rfl, rfl, rfl, le_refl _, fun c h => h, fun st h => h⟩

theorem ProcEvolve.trans {ps₁ ps₂ ps₃ : List Process} (h₁ : ProcEvolve ps₁ ps₂)
    (h₂ : ProcEvolve ps₂ ps₃) : ProcEvolve ps₁ ps₃ := by
  refine ⟨h₂.1.trans h₁.1, ?_⟩
  intro i p p' hp hp'
  have hi : i < ps₂.length := by
    have h3 : i < ps₃.length := (List.getElem?_eq_some_iff.mp hp').1
    have h21 := h₂.1
    omega
  have hmid : ps₂[i]? = some ps₂[i] := List.getElem?_eq_some_iff.mpr ⟨hi, rfl⟩
  have ha := h₁.2 i p ps₂[i] hp hmid
  have hb := h₂.2 i ps₂[i] p' hmid hp'
  exact ⟨hb.1.trans ha.1, hb.2.1.trans ha.2.1, hb.2.2.1.trans ha.2.2.1,
    hb.2.2.2.1.trans ha.2.2.2.1,
    fun c hc => hb.2.2.2.2.1 c (ha.2.2.2.2.1 c hc),
    fun st hst => hb.2.2.2.2.2 st (ha.2.2.2.2.2 st hst)⟩

/-- `setProc` with a compatible replacement is a `ProcEvolve`. -/
theorem ProcEvolve.setStep {ps : List Process} (hnd : (ps.map Process.pid).Nodup)
    {pb pm : Process} (hb : pb ∈ ps) (hpid : pm.pid = pb.pid)
    (harr : pm.arrival = pb.arrival) (hburst : pm.burst = pb.burst)
    (hrem : pm.remaining ≤ pb.remaining)
    (hcomp : ∀ c, pb.completion_time = some c → pm.completion_time = some c)
    (hstart : ∀ st, pb.start_time = some st → pm.start_time = some st) :
    ProcEvolve ps (setProc ps pm) := by
  refine ⟨setProc_length ps pm, ?_⟩
  intro i p p' hp hp'
  by_cases hpp : p.pid = pm.pid
  · have hpb : p = pb := List.inj_on_of_nodup_map hnd (List.getElem?_mem hp) hb
      (by rw [hpp, hpid])
    have hset := setProc_getElem?_self hp hpp
    rw [hset] at hp'
    injection hp' with hp'
    rw [← hp', hpb]
    exact ⟨hpid, harr, hburst, hrem, hcomp, hstart⟩
  · have hset := setProc_getElem?_ne hp hpp
    rw [hset] at hp'
    injection hp' with hp'
    rw [← hp']
    exact ⟨rfl, rfl, rfl, le_refl _, fun c h => h, fun st h => h⟩

/-- Admission only touches `last_enqueued`. -/
theorem admitGo_evolve {init : List Process} (hok : InitOk init) :
    ∀ (fuel : Nat) (s : SchedState), Inv init s →
      ProcEvolve s.procs (admitGo fuel s).procs := by
  intro fuel
  induction fuel with
  | zero => intro s _; exact ProcEvolve.refl _
  | succ n ih =>
    intro s inv
    rw [admitGo]
    split
    · exact ProcEvolve.refl _
    · rename_i p hp
      split
      · rename_i harr
        refine ProcEvolve.trans ?_ (ih _ (admit_step_inv hok inv hp harr))
        exact ProcEvolve.setStep (inv.pids_nodup hok) (List.getElem?_mem hp) rfl rfl rfl
          (le_refl _) (fun c h => h) (fun st h => h)
      · exact ProcEvolve.refl _

theorem admitArrivals_evolve {init : List Process} (hok : InitOk init) {s : SchedState}
    (inv : Inv init s) : ProcEvolve s.procs (admitArrivals s).procs :=
  admitGo_evolve hok _ s inv

/-- Dispatch only sets an unset `start_time`. -/
theorem dispatch_evolve {init : List Process} (hok : InitOk init) {s : SchedState}
    (inv : Inv init s) : ProcEvolve s.procs (dispatchIfIdle s).procs := by
  rw [dispatchIfIdle]
  split
  · exact ProcEvolve.refl _
  · split
    · split
      · exact ProcEvolve.refl _
      · rename_i pid r hx
        split
        · exact ProcEvolve.refl _
        · rename_i pf hpf
          obtain ⟨hmem, hpid⟩ := getProc_spec hpf
          by_cases h0 : pf.start_time = none
          · rw [if_pos h0]
            refine ProcEvolve.setStep (inv.pids_nodup hok) hmem rfl rfl rfl (le_refl _)
              (fun c h => h) ?_
            intro st hst
            rw [h0] at hst
            cases hst
          · rw [if_neg h0]
            exact ProcEvolve.setStep (inv.pids_nodup hok) hmem rfl rfl rfl (le_refl _)
              (fun c h => h) (fun st h => h)
    · exact ProcEvolve.refl _

/-- The preemption check only touches `last_enqueued` and unset
`start_time`s. -/
theorem preempt_evolve {init : List Process} (hok : InitOk init) (aging : Int)
    {s : SchedState} (inv : Inv init s) :
    ProcEvolve s.procs (preemptCheck aging s).procs := by
  rw [preemptCheck, if_neg (by rw [inv.err_false]; simp)]
  split
  · exact ProcEvolve.refl _
  · rename_i curPid hcur
    split
    · exact ProcEvolve.refl _
    · rename_i hemp0
      split
      · exact ProcEvolve.refl _
      · rename_i candPid r1 hx1
        split
        · exact ProcEvolve.refl _
        · rename_i cand hcand
          split
          · exact ProcEvolve.refl _
          · rename_i cur hcurp
            split
            · exact ProcEvolve.refl _
            · rename_i top r3 hpk
              split
              · rename_i htop
                split
                · exact ProcEvolve.refl _
                · rename_i newPid r5 hx5
                  split
                  · exact ProcEvolve.refl _
                  · rename_i np hnp
                    obtain ⟨hcurmem, hcurpid⟩ := getProc_spec hcurp
                    have hstep1 : ProcEvolve s.procs
                        (setProc s.procs { cur with last_enqueued := (s.clock : Int) }) :=
                      ProcEvolve.setStep (inv.pids_nodup hok) hcurmem rfl rfl rfl (le_refl _)
                        (fun c h => h) (fun st h => h)
                    obtain ⟨hnpmem, hnppid⟩ := getProc_spec hnp
                    have hnd1 : ((setProc s.procs
                        { cur with last_enqueued := (s.clock : Int) }).map
                        Process.pid).Nodup := by
                      rw [setProc_map_pid]
                      exact inv.pids_nodup hok
                    refine ProcEvolve.trans hstep1 ?_
                    by_cases h0 : np.start_time = none
                    · rw [if_pos h0]
                      refine ProcEvolve.setStep hnd1 hnpmem rfl rfl rfl (le_refl _)
                        (fun c h => h) ?_
                      intro st hst
                      rw [h0] at hst
                      cases hst
                    · rw [if_neg h0]
                      exact ProcEvolve.setStep hnd1 hnpmem rfl rfl rfl (le_refl _)
                        (fun c h => h) (fun st h => h)
              · exact ProcEvolve.refl _

/-- Executing a tick only decrements the current process and possibly
completes it. -/
theorem executeTick_evolve {init : List Process} (hok : InitOk init) {s : SchedState}
    (inv : Inv init s) : ProcEvolve s.procs (executeTick s).procs := by
  rw [executeTick]
  split
  · exact ProcEvolve.refl _
  · split
    · exact ProcEvolve.refl _
    · rename_i curPid hcur
      split
      · exact ProcEvolve.refl _
      · rename_i p hgp
        obtain ⟨hpmem, hppid⟩ := getProc_spec hgp
        have hcompnone : p.completion_time = none :=
          inv.cur_completion p hpmem (by rw [hppid]; exact hcur)
        split
        · refine ProcEvolve.setStep (inv.pids_nodup hok) hpmem rfl rfl rfl
            (show p.remaining - 1 ≤ p.remaining by omega) ?_ (fun st h => h)
          intro c hc
          rw [hcompnone] at hc
          cases hc
        · exact ProcEvolve.setStep (inv.pids_nodup hok) hpmem rfl rfl rfl
            (show p.remaining - 1 ≤ p.remaining by omega) (fun c h => h) (fun st h => h)

/-- One loop iteration is a `ProcEvolve`. -/
theorem tick_evolve {init : List Process} (hok : InitOk init) (aging : Int)
    {s : SchedState} (inv : Inv init s) : ProcEvolve s.procs (tick aging s).procs := by
  rw [tick]
  refine ProcEvolve.trans (admitArrivals_evolve hok inv) ?_
  have inv1 := admitArrivals_inv hok inv
  refine ProcEvolve.trans (dispatch_evolve hok inv1) ?_
  have inv2 := dispatch_inv hok inv1
  refine ProcEvolve.trans (preempt_evolve hok aging inv2) ?_
  have inv3 := preempt_inv hok aging inv2
  exact executeTick_evolve hok inv3

/-- The guarded step is a `ProcEvolve`. -/
theorem stepRun_evolve {init : List Process} (hok : InitOk init) (aging : Int)
    (max_time : Option Nat) (n_total : Nat) {s : SchedState} (inv : Inv init s) :
    ProcEvolve s.procs (stepRun aging max_time n_total s).procs := by
  rw [stepRun]
  split
  · exact ProcEvolve.refl _
  · split
    · split
      · exact ProcEvolve.refl _
      · exact tick_evolve hok aging inv
    · exact ProcEvolve.refl _

/-- Every iterate of the guarded step is a `ProcEvolve`. -/
theorem iterate_evolve {init : List Process} (hok : InitOk init) (aging : Int)
    (max_time : Option Nat) (n_total : Nat) {s : SchedState} (inv : Inv init s)
    (k : Nat) : ProcEvolve s.procs ((stepRun aging max_time n_total)^[k] s).procs := by
  induction k with
  | zero => simpa using ProcEvolve.refl s.procs
  | succ k ih =>
    rw [Function.iterate_succ_apply']
    exact ProcEvolve.trans ih
      (stepRun_evolve hok aging max_time n_total (iterate_inv hok aging max_time n_total inv k))


/-- Positivity bookkeeping for `remaining`: uncompleted processes still
have at least one tick to run, completed ones sit exactly at zero. -/
def PosOk (ps : List Process) : Prop :=
  ∀ p ∈ ps, (p.completion_time = none → 1 ≤ p.remaining) ∧
    (∀ c, p.completion_time = some c → p.remaining = 0)

theorem PosOk.setKeep {ps : List Process} (h : PosOk ps) {pm : Process}
    (hm : (pm.completion_time = none → 1 ≤ pm.remaining) ∧
      (∀ c, pm.completion_time = some c → pm.remaining = 0)) :
    PosOk (setProc ps pm) := by
  intro x hx
  rcases mem_setProc hx with rfl | ⟨hx2, _⟩
  · exact hm
  · exact h x hx2

theorem admitGo_pos : ∀ (fuel : Nat) (s : SchedState), PosOk s.procs →
    PosOk (admitGo fuel s).procs := by
  intro fuel
  induction fuel with
  | zero => intro s h; exact h
  | succ n ih =>
    intro s h
    rw [admitGo]
    split
    · exact h
    · rename_i p hp
      split
      · exact ih _ (PosOk.setKeep h (h p (List.getElem?_mem hp)))
      · exact h

theorem dispatch_pos {s : SchedState} (h : PosOk s.procs) :
    PosOk (dispatchIfIdle s).procs := by
  rw [dispatchIfIdle]
  split
  · exact h
  · split
    · split
      · exact h
      · rename_i pid r hx
        split
        · exact h
        · rename_i pf hpf
          obtain ⟨hmem, _⟩ := getProc_spec hpf
          by_cases h0 : pf.start_time = none
          · rw [if_pos h0]
            exact PosOk.setKeep h (h pf hmem)
          · rw [if_neg h0]
            exact PosOk.setKeep h (h pf hmem)
    · exact h

theorem preempt_pos {init : List Process} (_hok : InitOk init) (aging : Int)
    {s : SchedState} (inv : Inv init s) (h : PosOk s.procs) :
    PosOk (preemptCheck aging s).procs := by
  rw [preemptCheck, if_neg (by rw [inv.err_false]; simp)]
  split
  · exact h
  · rename_i curPid hcur
    split
    · exact h
    · rename_i hemp0
      split
      · exact h
      · rename_i candPid r1 hx1
        split
        · exact h
        · rename_i cand hcand
          split
          · exact h
          · rename_i cur hcurp
            split
            · exact h
            · rename_i top r3 hpk
              split
              · rename_i htop
                split
                · exact h
                · rename_i newPid r5 hx5
                  split
                  · exact h
                  · rename_i np hnp
                    obtain ⟨hcurmem, _⟩ := getProc_spec hcurp
                    have h1 : PosOk (setProc s.procs
                        { cur with last_enqueued := (s.clock : Int) }) :=
                      PosOk.setKeep h (h cur hcurmem)
                    obtain ⟨hnpmem, _⟩ := getProc_spec hnp
                    by_cases h0 : np.start_time = none
                    · rw [if_pos h0]
                      exact PosOk.setKeep h1 (h1 np hnpmem)
                    · rw [if_neg h0]
                      exact PosOk.setKeep h1 (h1 np hnpmem)
              · exact h

theorem executeTick_pos {init : List Process} (_hok : InitOk init) {s : SchedState}
    (inv : Inv init s) (h : PosOk s.procs) : PosOk (executeTick s).procs := by
  rw [executeTick, if_neg (by rw [inv.err_false]; simp)]
  split
  · exact h
  · rename_i curPid hcur
    split
    · exact h
    · rename_i p hgp
      obtain ⟨hpmem, hppid⟩ := getProc_spec hgp
      have hcompnone : p.completion_time = none :=
        inv.cur_completion p hpmem (by rw [hppid]; exact hcur)
      have hp1 : 1 ≤ p.remaining := (h p hpmem).1 hcompnone
      split
      · rename_i hrem
        refine PosOk.setKeep h ⟨?_, ?_⟩
        · intro h0
          have h0' : some ((s.clock : Int) + 1) = (none : Option Int) := h0
          cases h0'
        · intro c _
          show p.remaining - 1 = 0
          omega
      · rename_i hrem
        refine PosOk.setKeep h ⟨?_, ?_⟩
        · intro _
          show 1 ≤ p.remaining - 1
          omega
        · intro c hc
          have hc2 : p.completion_time = some c := hc
          rw [hcompnone] at hc2
          cases hc2

theorem tick_pos {init : List Process} (hok : InitOk init) (aging : Int)
    {s : SchedState} (inv : Inv init s) (h : PosOk s.procs) :
    PosOk (tick aging s).procs := by
  rw [tick]
  have inv1 := admitArrivals_inv hok inv
  have inv2 := dispatch_inv hok inv1
  have inv3 := preempt_inv hok aging inv2
  exact executeTick_pos hok inv3
    (preempt_pos hok aging inv2 (dispatch_pos (admitGo_pos _ s h)))

theorem stepRun_pos {init : List Process} (hok : InitOk init) (aging : Int)
    (max_time : Option Nat) (n_total : Nat) {s : SchedState} (inv : Inv init s)
    (h : PosOk s.procs) : PosOk (stepRun aging max_time n_total s).procs := by
  rw [stepRun]
  split
  · exact h
  · split
    · split
      · exact h
      · exact tick_pos hok aging inv h
    · exact h

theorem iterate_pos {init : List Process} (hok : InitOk init) (aging : Int)
    (max_time : Option Nat) (n_total : Nat) {s : SchedState} (inv : Inv init s)
    (h : PosOk s.procs) (k : Nat) :
    PosOk ((stepRun aging max_time n_total)^[k] s).procs := by
  induction k with
  | zero => simpa using h
  | succ k ih =>
    rw [Function.iterate_succ_apply']
    exact stepRun_pos hok aging max_time n_total (iterate_inv hok aging max_time n_total inv k) ih

/-- The positivity bookkeeping holds initially when every input process
still has at least one tick to run. -/
theorem initState_pos {ps : List Process} (hrem1 : ∀ p ∈ ps, 1 ≤ p.remaining)
    (hcp : ∀ p ∈ ps, p.completion_time = none) : PosOk (initState ps).procs := by
  intro p hp
  have hp2 : p ∈ ps := (sortProcs_perm ps).mem_iff.mp hp
  refine ⟨fun _ => hrem1 p hp2, ?_⟩
  intro c hc
  rw [hcp p hp2] at hc
  cases hc


/-- Counterexample to C7 as stated: a process supplied with `burst = 0`
(hence `remaining = 0`, per the data model `remaining` starts at `burst`)
is dispatched and decremented to `remaining = -1`, so `remaining` does not
stay non-negative on every run. -/
theorem C7_counterexample :
    ∃ p ∈ ((stepRun 10 none (sortProcs [⟨"A", 0, 1, 0, 0, 0, none, none⟩]).length)^[2]
      (initState [⟨"A", 0, 1, 0, 0, 0, none, none⟩])).procs, p.remaining < 0 := by
  decide

/-- C7 (amended): for inputs that follow the data model and carry at
least one tick of work (`remaining ≥ 1`), every reachable state keeps
each `remaining` non-negative; across further iterations `remaining`
never increases and `completion_time`/`start_time` are stable once set;
and whenever a process is about to execute a tick its `start_time` is
recorded and lies between 0 and the executing tick. -/
theorem C7_process_field_invariants (aging : Int) (processes : List Process)
    (max_time : Option Nat) (fuel : Nat)
    (hnd : (processes.map Process.pid).Nodup)
    (hst : ∀ p ∈ processes, p.start_time = none)
    (hcp : ∀ p ∈ processes, p.completion_time = none)
    (hrem1 : ∀ p ∈ processes, 1 ≤ p.remaining) :
    (∀ p ∈ ((stepRun aging max_time (sortProcs processes).length)^[fuel]
        (initState processes)).procs, 0 ≤ p.remaining) ∧
    (∀ (d i : Nat) (p p' : Process),
      ((stepRun aging max_time (sortProcs processes).length)^[fuel]
        (initState processes)).procs[i]? = some p →
      ((stepRun aging max_time (sortProcs processes).length)^[d]
        ((stepRun aging max_time (sortProcs processes).length)^[fuel]
          (initState processes))).procs[i]? = some p' →
      p'.remaining ≤ p.remaining ∧
        (∀ c, p.completion_time = some c → p'.completion_time = some c) ∧
        (∀ st, p.start_time = some st → p'.start_time = some st)) ∧
    (∀ cp pf, (preemptCheck aging (dispatchIfIdle (admitArrivals
        ((stepRun aging max_time (sortProcs processes).length)^[fuel]
          (initState processes))))).current = some cp →
      getProc (preemptCheck aging (dispatchIfIdle (admitArrivals
        ((stepRun aging max_time (sortProcs processes).length)^[fuel]
          (initState processes))))).procs cp = some pf →
      ∃ st, pf.start_time = some st ∧ 0 ≤ st ∧
        st ≤ ((preemptCheck aging (dispatchIfIdle (admitArrivals
          ((stepRun aging max_time (sortProcs processes).length)^[fuel]
            (initState processes))))).clock : Int)) := by
  have hok := initOk_sort hnd hst hcp
  set n := (sortProcs processes).length with hn
  set sfin := (stepRun aging max_time n)^[fuel] (initState processes) with hsfin
  have hinv : Inv (sortProcs processes) sfin :=
    iterate_inv hok aging max_time n (initState_inv processes hok) fuel
  have hpos : PosOk sfin.procs :=
    iterate_pos hok aging max_time n (initState_inv processes hok)
      (initState_pos hrem1 hcp) fuel
  refine ⟨?_, ?_, ?_⟩
  · intro p hp
    rcases hpos p hp with ⟨h1, h2⟩
    cases hc : p.completion_time with
    | none =>
      have := h1 hc
      omega
    | some c =>
      have := h2 c hc
      omega
  · intro d i p p' hp hp'
    have hev := iterate_evolve hok aging max_time n hinv d
    have h := hev.2 i p p' hp hp'
    exact ⟨h.2.2.2.1, h.2.2.2.2.1, h.2.2.2.2.2⟩
  · intro cp pf hcpt hpf
    have hinvt : Inv (sortProcs processes)
        (preemptCheck aging (dispatchIfIdle (admitArrivals sfin))) :=
      preempt_inv hok aging (dispatch_inv hok (admitArrivals_inv hok hinv))
    obtain ⟨hpfmem, hpfpid⟩ := getProc_spec hpf
    cases hst0 : pf.start_time with
    | none =>
      exact absurd ((hinvt.start_none_props pf hpfmem hst0).2)
        (by rw [hpfpid]; intro hcon; exact hcon hcpt)
    | some st =>
      have hbase := hinvt.start_some_props pf hpfmem st hst0
      refine ⟨st, rfl, hbase.1, ?_⟩
      have h2 := hbase.2
      omega

/-- Witness for the amended C7 at a concrete two-process input. -/
theorem C7_process_field_invariants_witness :
    (∀ p ∈ ((stepRun 10 none (sortProcs [⟨"A", 0, 1, 2, 2, 0, none, none⟩]).length)^[3]
        (initState [⟨"A", 0, 1, 2, 2, 0, none, none⟩])).procs, 0 ≤ p.remaining) ∧
    (∀ (d i : Nat) (p p' : Process),
      ((stepRun 10 none (sortProcs [⟨"A", 0, 1, 2, 2, 0, none, none⟩]).length)^[3]
        (initState [⟨"A", 0, 1, 2, 2, 0, none, none⟩])).procs[i]? = some p →
      ((stepRun 10 none (sortProcs [⟨"A", 0, 1, 2, 2, 0, none, none⟩]).length)^[d]
        ((stepRun 10 none (sortProcs [⟨"A", 0, 1, 2, 2, 0, none, none⟩]).length)^[3]
          (initState [⟨"A", 0, 1, 2, 2, 0, none, none⟩]))).procs[i]? = some p' →
      p'.remaining ≤ p.remaining ∧
        (∀ c, p.completion_time = some c → p'.completion_time = some c) ∧
        (∀ st, p.start_time = some st → p'.start_time = some st)) ∧
    (∀ cp pf, (preemptCheck 10 (dispatchIfIdle (admitArrivals
        ((stepRun 10 none (sortProcs [⟨"A", 0, 1, 2, 2, 0, none, none⟩]).length)^[3]
          (initState [⟨"A", 0, 1, 2, 2, 0, none, none⟩]))))).current = some cp →
      getProc (preemptCheck 10 (dispatchIfIdle (admitArrivals
        ((stepRun 10 none (sortProcs [⟨"A", 0, 1, 2, 2, 0, none, none⟩]).length)^[3]
          (initState [⟨"A", 0, 1, 2, 2, 0, none, none⟩]))))).procs cp = some pf →
      ∃ st, pf.start_time = some st ∧ 0 ≤ st ∧
        st ≤ ((preemptCheck 10 (dispatchIfIdle (admitArrivals
          ((stepRun 10 none (sortProcs [⟨"A", 0, 1, 2, 2, 0, none, none⟩]).length)^[3]
            (initState [⟨"A", 0, 1, 2, 2, 0, none, none⟩]))))).clock : Int)) :=
  C7_process_field_invariants 10 [⟨"A", 0, 1, 2, 2, 0, none, none⟩] none 3
    (by decide) (by decide) (by decide) (by decide)


/-- Counterexample to C2 as stated: a process whose pid is the string
"IDLE" (arrival 1, burst 1, remaining 1, fields otherwise per the data
model) completes, yet its pid occurs twice in the timeline — the tick-0
idle marker is indistinguishable from the process's own tick — so "its
pid occurs exactly burst times in the timeline" fails. -/
theorem C2_counterexample :
    (run 10 [⟨"IDLE", 1, 1, 1, 1, 0, none, none⟩] none 5).completion_times =
      [("IDLE", 2)] ∧
    (run 10 [⟨"IDLE", 1, 1, 1, 1, 0, none, none⟩] none 5).timeline.count "IDLE" = 2 := by
  constructor
  · decide
  · decide

/-- C2 (amended): for runs whose inputs follow the data model with
`burst ≥ 1`, `remaining = burst`, and no pid equal to the idle marker
"IDLE", every completed process ends with `remaining = 0`, its pid occurs
exactly `burst` times in the timeline, its recorded completion obeys
`start_time + burst ≤ completion_time`, its waiting-time entry equals
`(completion_time - arrival) - burst`, and the result's average waiting
time is the arithmetic mean of the recorded waiting times (0 if none). -/
theorem C2_completion_accounting (aging : Int) (processes : List Process)
    (max_time : Option Nat) (fuel : Nat)
    (hnd : (processes.map Process.pid).Nodup)
    (hst : ∀ p ∈ processes, p.start_time = none)
    (hcp : ∀ p ∈ processes, p.completion_time = none)
    (hburst : ∀ p ∈ processes, p.remaining = p.burst ∧ 1 ≤ p.burst)
    (hidle : ∀ p ∈ processes, p.pid ≠ "IDLE") :
    (∀ p ∈ ((stepRun aging max_time (sortProcs processes).length)^[fuel]
        (initState processes)).procs, ∀ c, p.completion_time = some c →
      p.remaining = 0 ∧
      ((run aging processes max_time fuel).timeline.count p.pid : Int) = p.burst ∧
      (∃ st, p.start_time = some st ∧ st + p.burst ≤ c) ∧
      (p.pid, c) ∈ (run aging processes max_time fuel).completion_times ∧
      (p.pid, c - p.arrival - p.burst) ∈
        (run aging processes max_time fuel).waiting_times) ∧
    ((run aging processes max_time fuel).average_waiting_time =
      if (run aging processes max_time fuel).waiting_times.isEmpty then 0
      else ((((run aging processes max_time fuel).waiting_times.map Prod.snd).sum :
        Int) : Rat) / ((run aging processes max_time fuel).waiting_times.length :
        Rat)) := by
  have hok := initOk_sort hnd hst hcp
  set n := (sortProcs processes).length with hn
  set sfin := (stepRun aging max_time n)^[fuel] (initState processes) with hsfin
  have hinv : Inv (sortProcs processes) sfin :=
    iterate_inv hok aging max_time n (initState_inv processes hok) fuel
  have hpos : PosOk sfin.procs :=
    iterate_pos hok aging max_time n (initState_inv processes hok)
      (initState_pos (fun p hp => by
        have h := hburst p hp
        omega) hcp) fuel
  constructor
  · intro p hp c hc
    have hnonempty : processes.isEmpty = false := by
      cases hemp : processes.isEmpty with
      | false => rfl
      | true =>
        have h0 : processes = [] := by simpa using hemp
        have hplen : sfin.procs.length = 0 := by
          rw [hinv.procs_length, h0]
          rfl
        rw [List.length_eq_zero] at hplen
        rw [hplen] at hp
        cases hp
    have hrun : run aging processes max_time fuel = finalize sfin := by
      rw [run, if_neg (by rw [hnonempty]; simp)]
    have hrem0 : p.remaining = 0 := (hpos p hp).2 c hc
    rcases List.getElem_of_mem hp with ⟨i, hilen, hig⟩
    have hig? : sfin.procs[i]? = some p := List.getElem?_eq_some_iff.mpr ⟨hilen, hig⟩
    rcases hinv.statics_at hig? with ⟨p₀, hp₀, hpid0, harr0, hbase0, hburst0⟩
    have hp₀mem : p₀ ∈ processes :=
      (sortProcs_perm processes).mem_iff.mp (List.getElem?_mem hp₀)
    have hpidle : p.pid ≠ "IDLE" := by
      rw [hpid0]
      exact hidle p₀ hp₀mem
    have hrem := hinv.acc_rem i p p₀ hig? hp₀
    have hbv := hburst p₀ hp₀mem
    have hexec : (execOf sfin p.pid : Int) = p.burst := by
      rw [hburst0]
      have : p₀.remaining = p₀.burst := hbv.1
      omega
    have hcount := hinv.acc_count p hp hpidle
    have hcomp := hinv.completed_props p hp c hc
    refine ⟨hrem0, ?_, ?_, ?_, ?_⟩
    · rw [hrun]
      show ((sfin.timeline.count p.pid : Nat) : Int) = p.burst
      rw [hcount]
      exact hexec
    · rcases hcomp.2.1 with ⟨st, hstp, hb⟩
      refine ⟨st, hstp, ?_⟩
      rw [hexec] at hb
      exact hb
    · rw [hrun]
      show (p.pid, c) ∈ sfin.procs.filterMap fun q =>
        q.completion_time.map fun c' => (q.pid, c')
      refine List.mem_filterMap.mpr ⟨p, hp, ?_⟩
      rw [hc]
      rfl
    · rw [hrun]
      show (p.pid, c - p.arrival - p.burst) ∈ sfin.procs.filterMap fun q =>
        q.completion_time.map fun c' => (q.pid, c' - q.arrival - q.burst)
      refine List.mem_filterMap.mpr ⟨p, hp, ?_⟩
      rw [hc]
      rfl
  · cases hemp : processes.isEmpty with
    | true =>
      rw [run, if_pos hemp]
      rfl
    | false =>
      rw [run, if_neg (by rw [hemp]; simp)]
      rfl

/-- Witness for the amended C2 at a concrete two-process input. -/
theorem C2_completion_accounting_witness :
    (∀ p ∈ ((stepRun 10 none (sortProcs [⟨"A", 0, 1, 2, 2, 0, none, none⟩,
        ⟨"B", 0, 5, 2, 2, 0, none, none⟩]).length)^[5]
        (initState [⟨"A", 0, 1, 2, 2, 0, none, none⟩,
          ⟨"B", 0, 5, 2, 2, 0, none, none⟩])).procs, ∀ c, p.completion_time = some c →
      p.remaining = 0 ∧
      ((run 10 [⟨"A", 0, 1, 2, 2, 0, none, none⟩, ⟨"B", 0, 5, 2, 2, 0, none, none⟩]
        none 5).timeline.count p.pid : Int) = p.burst ∧
      (∃ st, p.start_time = some st ∧ st + p.burst ≤ c) ∧
      (p.pid, c) ∈ (run 10 [⟨"A", 0, 1, 2, 2, 0, none, none⟩,
        ⟨"B", 0, 5, 2, 2, 0, none, none⟩] none 5).completion_times ∧
      (p.pid, c - p.arrival - p.burst) ∈
        (run 10 [⟨"A", 0, 1, 2, 2, 0, none, none⟩, ⟨"B", 0, 5, 2, 2, 0, none, none⟩]
          none 5).waiting_times) ∧
    ((run 10 [⟨"A", 0, 1, 2, 2, 0, none, none⟩, ⟨"B", 0, 5, 2, 2, 0, none, none⟩]
        none 5).average_waiting_time =
      if (run 10 [⟨"A", 0, 1, 2, 2, 0, none, none⟩, ⟨"B", 0, 5, 2, 2, 0, none, none⟩]
          none 5).waiting_times.isEmpty then 0
      else ((((run 10 [⟨"A", 0, 1, 2, 2, 0, none, none⟩,
        ⟨"B", 0, 5, 2, 2, 0, none, none⟩] none 5).waiting_times.map Prod.snd).sum :
        Int) : Rat) / ((run 10 [⟨"A", 0, 1, 2, 2, 0, none, none⟩,
        ⟨"B", 0, 5, 2, 2, 0, none, none⟩] none 5).waiting_times.length : Rat)) :=
  C2_completion_accounting 10
    [⟨"A", 0, 1, 2, 2, 0, none, none⟩, ⟨"B", 0, 5, 2, 2, 0, none, none⟩]
    none 5 (by decide) (by decide) (by decide) (by decide) (by decide)


/-- The intake sort key, written as a proposition. -/
theorem procLe_iff (a b : Process) : procLe a b = true ↔
    (a.arrival < b.arrival ∨ (a.arrival = b.arrival ∧
      (a.base_priority < b.base_priority ∨
        (a.base_priority = b.base_priority ∧ a.pid ≤ b.pid)))) := by
  unfold procLe
  simp [Bool.or_eq_true, Bool.and_eq_true, decide_eq_true_iff]

theorem procLe_total (a b : Process) : procLe a b = true ∨ procLe b a = true := by
  rw [procLe_iff, procLe_iff]
  rcases lt_trichotomy a.arrival b.arrival with h | h | h
  · exact Or.inl (Or.inl h)
  · rcases lt_trichotomy a.base_priority b.base_priority with h2 | h2 | h2
    · exact Or.inl (Or.inr ⟨h, Or.inl h2⟩)
    · rcases le_total a.pid b.pid with h3 | h3
      · exact Or.inl (Or.inr ⟨h, Or.inr ⟨h2, h3⟩⟩)
      · exact Or.inr (Or.inr ⟨h.symm, Or.inr ⟨h2.symm, h3⟩⟩)
    · exact Or.inr (Or.inr ⟨h.symm, Or.inl h2⟩)
  · exact Or.inr (Or.inl h)

theorem procLe_trans {a b c : Process} (h1 : procLe a b = true)
    (h2 : procLe b c = true) : procLe a c = true := by
  rw [procLe_iff] at h1 h2 ⊢
  rcases h1 with h1 | ⟨he1, h1⟩
  · rcases h2 with h2 | ⟨he2, _⟩
    · exact Or.inl (lt_trans h1 h2)
    · exact Or.inl (lt_of_lt_of_le h1 (le_of_eq he2))
  · rcases h2 with h2 | ⟨he2, h2⟩
    · exact Or.inl (lt_of_le_of_lt (le_of_eq he1) h2)
    · refine Or.inr ⟨he1.trans he2, ?_⟩
      rcases h1 with h1 | ⟨hb1, h1⟩
      · rcases h2 with h2 | ⟨hb2, _⟩
        · exact Or.inl (lt_trans h1 h2)
        · exact Or.inl (lt_of_lt_of_le h1 (le_of_eq hb2))
      · rcases h2 with h2 | ⟨hb2, h2⟩
        · exact Or.inl (lt_of_le_of_lt (le_of_eq hb1) h2)
        · exact Or.inr ⟨hb1.trans hb2, le_trans h1 h2⟩

theorem insertSorted_pairwise (x : Process) {l : List Process}
    (hl : l.Pairwise (fun a b => procLe a b = true)) :
    (insertSorted x l).Pairwise (fun a b => procLe a b = true) := by
  induction l with
  | nil => simp [insertSorted]
  | cons y ys ih =>
    rw [insertSorted]
    rw [List.pairwise_cons] at hl
    split
    · rename_i hxy
      rw [List.pairwise_cons]
      refine ⟨?_, List.pairwise_cons.mpr hl⟩
      intro z hz
      rcases List.mem_cons.mp hz with rfl | hz
      · exact hxy
      · exact procLe_trans hxy (hl.1 z hz)
    · rename_i hxy
      have hyx : procLe y x = true := by
        rcases procLe_total y x with h | h
        · exact h
        · exact absurd h hxy
      rw [List.pairwise_cons]
      refine ⟨?_, ih hl.2⟩
      intro z hz
      rcases List.mem_cons.mp ((insertSorted_perm x ys).mem_iff.mp hz) with rfl | hz2
      · exact hyx
      · exact hl.1 z hz2

/-- The intake sort is sorted under its key (`scheduler.py`, line 38). -/
theorem sortProcs_pairwise (ps : List Process) :
    (sortProcs ps).Pairwise (fun a b => procLe a b = true) := by
  induction ps with
  | nil => exact List.Pairwise.nil
  | cons x xs ih => exact insertSorted_pairwise x ih

/-- In particular, arrivals are non-decreasing after the intake sort. -/
theorem sortProcs_arrival_le (ps : List Process) :
    (sortProcs ps).Pairwise (fun a b => a.arrival ≤ b.arrival) := by
  refine (sortProcs_pairwise ps).imp ?_
  intro a b h
  rw [procLe_iff] at h
  rcases h with h | ⟨h, _⟩
  · exact le_of_lt h
  · exact le_of_eq h


/-- Phases 2–4 do not move the admission index. -/
theorem dispatch_idx (s : SchedState) : (dispatchIfIdle s).idx = s.idx := by
  rw [dispatchIfIdle]
  repeat' split
  all_goals rfl

theorem preempt_idx (aging : Int) (s : SchedState) :
    (preemptCheck aging s).idx = s.idx := by
  rw [preemptCheck]
  repeat' split
  all_goals rfl

theorem executeTick_idx (s : SchedState) : (executeTick s).idx = s.idx := by
  rw [executeTick]
  repeat' split
  all_goals rfl

/-- With nothing running the preemption check does nothing. -/
theorem preempt_none_id {aging : Int} {s : SchedState} (h : s.current = none) :
    preemptCheck aging s = s := by
  rw [preemptCheck]
  split
  · rfl
  · split
    · rfl
    · rename_i cp hcp
      rw [h] at hcp
      cases hcp

/-- If phase 2 leaves the machine idle, it did nothing: nothing was
running and the ready queue held no live entry. -/
theorem dispatch_none {init : List Process} (hok : InitOk init) {s : SchedState}
    (inv : Inv init s) (h : (dispatchIfIdle s).current = none) :
    dispatchIfIdle s = s ∧ s.current = none ∧ s.ready.is_empty = true := by
  cases hcur : s.current with
  | some cp =>
    have hid : dispatchIfIdle s = s := by
      rw [dispatchIfIdle, if_neg (by rw [inv.err_false]; simp)]
      rw [if_neg (by rw [hcur]; simp)]
    rw [hid, hcur] at h
    cases h
  | none =>
    cases hemp : s.ready.is_empty with
    | true =>
      refine ⟨?_, rfl, rfl⟩
      rw [dispatchIfIdle, if_neg (by rw [inv.err_false]; simp)]
      rw [if_neg (by rw [hcur, hemp]; simp)]
    | false =>
      exfalso
      rcases extract_total inv hemp with ⟨⟨pid, r⟩, hx⟩
      obtain ⟨pf, hpf⟩ := extract_getProc hok inv hx
      rw [dispatchIfIdle, if_neg (by rw [inv.err_false]; simp),
        if_pos (by rw [hcur, hemp]; simp)] at h
      split at h
      · rename_i hx2
        rw [hx] at hx2
        cases hx2
      · rename_i pid2 r2 hx2
        rw [hx] at hx2
        injection hx2 with hx2
        have hpe : pid = pid2 := congrArg Prod.fst hx2
        split at h
        · rename_i hpf2
          rw [← hpe] at hpf2
          rw [hpf] at hpf2
          cases hpf2
        · rename_i pf2 hpf2
          exact Option.noConfusion h

/-- An empty index means nothing is ready. -/
theorem not_inReady_of_empty {s : SchedState} (wf : HeapWF s.ready)
    (hemp : s.ready.is_empty = true) (x : String) : ¬ inReady s x := by
  rintro ⟨e, he, hl, _⟩
  have hfin : s.ready.entry_finder = [] := by
    rw [BinaryHeap.is_empty] at hemp
    simpa using hemp
  have hmem := wf.live_finder e he hl
  rw [hfin] at hmem
  cases hmem

/-- After the admission loop stops, every not-yet-admitted process has a
strictly later arrival (needs arrivals sorted, as the intake sort
guarantees). -/
theorem admitGo_cov {init : List Process} (hok : InitOk init)
    (hsort : init.Pairwise (fun a b => a.arrival ≤ b.arrival)) :
    ∀ (fuel : Nat) (s : SchedState), Inv init s →
      (∀ (i : Nat) (p₀ : Process), s.idx ≤ i → init[i]? = some p₀ →
        (s.clock : Int) ≤ p₀.arrival) →
      s.procs.length - s.idx ≤ fuel →
      ∀ (i : Nat) (p₀ : Process), (admitGo fuel s).idx ≤ i → init[i]? = some p₀ →
        ((admitGo fuel s).clock : Int) < p₀.arrival := by
  intro fuel
  induction fuel with
  | zero =>
    intro s inv hcov hfuel i p₀ hi hip
    have hi2 : s.idx ≤ i := hi
    have hlen : s.procs.length ≤ s.idx := by omega
    have hplen := inv.procs_length
    have hilen : init.length ≤ i := by omega
    rw [List.getElem?_eq_none hilen] at hip
    cases hip
  | succ n ih =>
    intro s inv hcov hfuel
    rw [admitGo]
    split
    · rename_i hp
      intro i p₀ hi hip
      have hi2 : s.idx ≤ i := hi
      have hlen : s.procs.length ≤ s.idx := by
        by_contra hcon
        push_neg at hcon
        have hsome : s.procs[s.idx]? = some s.procs[s.idx] :=
          List.getElem?_eq_some_iff.mpr ⟨hcon, rfl⟩
        rw [hp] at hsome
        cases hsome
      have hplen := inv.procs_length
      have hilen : init.length ≤ i := by omega
      rw [List.getElem?_eq_none hilen] at hip
      cases hip
    · rename_i p hp
      split
      · rename_i harr
        have hinv2 := admit_step_inv hok inv hp harr
        refine ih _ hinv2 ?_ ?_
        · intro i p₀ hi hip
          exact hcov i p₀ (by
            have hi2 : s.idx + 1 ≤ i := hi
            omega) hip
        · show (setProc s.procs { p with last_enqueued := (s.clock : Int) }).length -
            (s.idx + 1) ≤ n
          rw [setProc_length]
          omega
      · rename_i harr
        intro i p₀ hi hip
        have hi2 : s.idx ≤ i := hi
        rcases inv.statics_at hp with ⟨pidx0, hpidx0, _, harr0, _, _⟩
        have hcovidx : (s.clock : Int) ≤ pidx0.arrival := hcov s.idx pidx0 (le_refl _) hpidx0
        have hne : pidx0.arrival ≠ (s.clock : Int) := by
          intro hcon
          exact harr (by rw [harr0, hcon])
        have hstrict : (s.clock : Int) < pidx0.arrival := lt_of_le_of_ne hcovidx (Ne.symm hne)
        show (s.clock : Int) < p₀.arrival
        by_cases hii : i = s.idx
        · subst hii
          rw [hpidx0] at hip
          injection hip with hip
          rw [← hip]
          exact hstrict
        · have hlt : s.idx < i := lt_of_le_of_ne hi2 (fun hcon => hii hcon.symm)
          rcases List.getElem?_eq_some_iff.mp hip with ⟨hilen, hig⟩
          rcases List.getElem?_eq_some_iff.mp hpidx0 with ⟨hxlen, hxg⟩
          have hle := List.pairwise_iff_getElem.mp hsort s.idx i hxlen hilen hlt
          rw [hxg, hig] at hle
          omega

/-- One guarded step keeps the arrival-coverage: unadmitted processes
arrive no earlier than the clock. -/
theorem stepRun_cov {init : List Process} (hok : InitOk init)
    (hsort : init.Pairwise (fun a b => a.arrival ≤ b.arrival)) (aging : Int)
    (max_time : Option Nat) (n_total : Nat) {s : SchedState} (inv : Inv init s)
    (hcov : ∀ (i : Nat) (p₀ : Process), s.idx ≤ i → init[i]? = some p₀ →
      (s.clock : Int) ≤ p₀.arrival) :
    ∀ (i : Nat) (p₀ : Process), (stepRun aging max_time n_total s).idx ≤ i →
      init[i]? = some p₀ →
      ((stepRun aging max_time n_total s).clock : Int) ≤ p₀.arrival := by
  rw [stepRun]
  split
  · exact hcov
  · split
    · split
      · exact hcov
      · rw [tick]
        intro i p₀ hi hip
        have hidx : (executeTick (preemptCheck aging (dispatchIfIdle
            (admitArrivals s)))).idx = (admitArrivals s).idx := by
          rw [executeTick_idx, preempt_idx, dispatch_idx]
        have hclk : (executeTick (preemptCheck aging (dispatchIfIdle
            (admitArrivals s)))).clock ≤ (admitArrivals s).clock + 1 := by
          have h := executeTick_clock_le (preemptCheck aging (dispatchIfIdle
            (admitArrivals s)))
          rw [preempt_clock, dispatch_clock] at h
          exact h
        rw [hidx] at hi
        have hstrict := admitGo_cov hok hsort (s.procs.length - s.idx) s inv hcov
          (le_refl _) i p₀ hi hip
        have hc0 : (admitArrivals s).clock = s.clock := by
          rw [admitArrivals, admitGo_clock]
        rw [show admitGo (s.procs.length - s.idx) s = admitArrivals s from rfl] at hstrict
        rw [hc0] at hstrict hclk
        have hfin := hclk
        omega
    · exact hcov

/-- Arrival coverage holds at every iterate. -/
theorem iterate_cov {init : List Process} (hok : InitOk init)
    (hsort : init.Pairwise (fun a b => a.arrival ≤ b.arrival)) (aging : Int)
    (max_time : Option Nat) (n_total : Nat) {s : SchedState} (inv : Inv init s)
    (hcov : ∀ (i : Nat) (p₀ : Process), s.idx ≤ i → init[i]? = some p₀ →
      (s.clock : Int) ≤ p₀.arrival) (k : Nat) :
    ∀ (i : Nat) (p₀ : Process), ((stepRun aging max_time n_total)^[k] s).idx ≤ i →
      init[i]? = some p₀ →
      (((stepRun aging max_time n_total)^[k] s).clock : Int) ≤ p₀.arrival := by
  induction k with
  | zero => simpa using hcov
  | succ k ih =>
    rw [Function.iterate_succ_apply']
    exact stepRun_cov hok hsort aging max_time n_total
      (iterate_inv hok aging max_time n_total inv k) ih


/-- A running slot survives the preemption check. -/
theorem preempt_current_some {aging : Int} {s : SchedState} {cp : String}
    (h : s.current = some cp) : ∃ cp', (preemptCheck aging s).current = some cp' := by
  rw [preemptCheck]
  repeat' split
  all_goals first
  | exact ⟨_, rfl⟩
  | exact ⟨cp, h⟩

/-- C10: an idle marker is recorded at a tick only when every process
that has arrived at or before that tick has already completed.  Stated at
the execution phase of an arbitrary iteration: if nothing is running
after admission, dispatch and the preemption check, then the tick records
"IDLE", and every admitted process — under the data model's non-negative
arrivals, exactly those with `arrival ≤ clock` — already carries a
completion time at most the clock. -/
theorem C10_idle_implies_all_done (aging : Int) (processes : List Process)
    (max_time : Option Nat) (fuel : Nat)
    (hnd : (processes.map Process.pid).Nodup)
    (hst : ∀ p ∈ processes, p.start_time = none)
    (hcp : ∀ p ∈ processes, p.completion_time = none)
    (harr : ∀ p ∈ processes, 0 ≤ p.arrival) :
    (preemptCheck aging (dispatchIfIdle (admitArrivals
      ((stepRun aging max_time (sortProcs processes).length)^[fuel]
        (initState processes))))).current = none →
    (executeTick (preemptCheck aging (dispatchIfIdle (admitArrivals
      ((stepRun aging max_time (sortProcs processes).length)^[fuel]
        (initState processes)))))).timeline =
      (preemptCheck aging (dispatchIfIdle (admitArrivals
        ((stepRun aging max_time (sortProcs processes).length)^[fuel]
          (initState processes))))).timeline ++ ["IDLE"] ∧
    (∀ p ∈ (preemptCheck aging (dispatchIfIdle (admitArrivals
      ((stepRun aging max_time (sortProcs processes).length)^[fuel]
        (initState processes))))).procs,
      p.arrival ≤ ((preemptCheck aging (dispatchIfIdle (admitArrivals
        ((stepRun aging max_time (sortProcs processes).length)^[fuel]
          (initState processes))))).clock : Int) →
      ∃ c, p.completion_time = some c ∧ c ≤ ((preemptCheck aging (dispatchIfIdle
        (admitArrivals ((stepRun aging max_time (sortProcs processes).length)^[fuel]
          (initState processes))))).clock : Int)) := by
  intro hidle
  have hok := initOk_sort hnd hst hcp
  set n := (sortProcs processes).length with hn
  set sk := (stepRun aging max_time n)^[fuel] (initState processes) with hsk
  set s1 := admitArrivals sk with hs1
  have hinvk : Inv (sortProcs processes) sk :=
    iterate_inv hok aging max_time n (initState_inv processes hok) fuel
  have hinv1 : Inv (sortProcs processes) s1 := admitArrivals_inv hok hinvk
  have hdn : (dispatchIfIdle s1).current = none := by
    cases hd : (dispatchIfIdle s1).current with
    | none => rfl
    | some cp =>
      rcases preempt_current_some hd with ⟨cp', hcp'⟩
      rw [hidle] at hcp'
      cases hcp'
  rcases dispatch_none hok hinv1 hdn with ⟨hdid, hs1cur, hs1emp⟩
  have ht : preemptCheck aging (dispatchIfIdle s1) = s1 := by
    rw [hdid]
    exact preempt_none_id hs1cur
  constructor
  · rw [ht]
    rw [executeTick, if_neg (by rw [hinv1.err_false]; simp)]
    split
    · rfl
    · rename_i cp hcp2
      rw [hs1cur] at hcp2
      cases hcp2
  · rw [ht]
    intro p hp hparr
    rcases List.getElem_of_mem hp with ⟨i, hilen, hig⟩
    have hig? : s1.procs[i]? = some p := List.getElem?_eq_some_iff.mpr ⟨hilen, hig⟩
    rcases hinv1.statics_at hig? with ⟨p₀, hp₀, hpid0, harr0, _, _⟩
    have hcov0 : ∀ (i : Nat) (p₀ : Process), (initState processes).idx ≤ i →
        (sortProcs processes)[i]? = some p₀ →
        ((initState processes).clock : Int) ≤ p₀.arrival := by
      intro j q₀ _ hjq
      have hq : q₀ ∈ processes :=
        (sortProcs_perm processes).mem_iff.mp (List.getElem?_mem hjq)
      show ((0 : Nat) : Int) ≤ q₀.arrival
      simpa using harr q₀ hq
    have hcovk := iterate_cov hok (sortProcs_arrival_le processes) aging max_time n
      (initState_inv processes hok) hcov0 fuel
    have hpost := admitGo_cov hok (sortProcs_arrival_le processes)
      (sk.procs.length - sk.idx) sk hinvk hcovk (le_refl _)
    have hadm : i < s1.idx := by
      by_contra hcon
      push_neg at hcon
      have hstrict := hpost i p₀ hcon hp₀
      have hstrict2 : (s1.clock : Int) < p₀.arrival := hstrict
      rw [← harr0] at hstrict2
      omega
    cases hcomp : p.completion_time with
    | some c =>
      have h := hinv1.completed_props p hp c hcomp
      exact ⟨c, rfl, h.2.2.1⟩
    | none =>
      exfalso
      rcases hinv1.admitted_active i p hadm hig? hcomp with hrdy | hcur2
      · exact not_inReady_of_empty hinv1.hp hs1emp p.pid hrdy
      · rw [hs1cur] at hcur2
        cases hcur2

/-- Witness for C10: a tick-0 idle step before a later arrival. -/
theorem C10_idle_implies_all_done_witness :
    (executeTick (preemptCheck 10 (dispatchIfIdle (admitArrivals
      ((stepRun 10 none (sortProcs [⟨"A", 2, 1, 1, 1, 0, none, none⟩]).length)^[0]
        (initState [⟨"A", 2, 1, 1, 1, 0, none, none⟩])))))).timeline =
      (preemptCheck 10 (dispatchIfIdle (admitArrivals
        ((stepRun 10 none (sortProcs [⟨"A", 2, 1, 1, 1, 0, none, none⟩]).length)^[0]
          (initState [⟨"A", 2, 1, 1, 1, 0, none, none⟩]))))).timeline ++ ["IDLE"] ∧
    (∀ p ∈ (preemptCheck 10 (dispatchIfIdle (admitArrivals
      ((stepRun 10 none (sortProcs [⟨"A", 2, 1, 1, 1, 0, none, none⟩]).length)^[0]
        (initState [⟨"A", 2, 1, 1, 1, 0, none, none⟩]))))).procs,
      p.arrival ≤ ((preemptCheck 10 (dispatchIfIdle (admitArrivals
        ((stepRun 10 none (sortProcs [⟨"A", 2, 1, 1, 1, 0, none, none⟩]).length)^[0]
          (initState [⟨"A", 2, 1, 1, 1, 0, none, none⟩]))))).clock : Int) →
      ∃ c, p.completion_time = some c ∧ c ≤ ((preemptCheck 10 (dispatchIfIdle
        (admitArrivals ((stepRun 10 none
          (sortProcs [⟨"A", 2, 1, 1, 1, 0, none, none⟩]).length)^[0]
          (initState [⟨"A", 2, 1, 1, 1, 0, none, none⟩]))))).clock : Int)) :=
  C10_idle_implies_all_done 10 [⟨"A", 2, 1, 1, 1, 0, none, none⟩] none 0
    (by decide) (by decide) (by decide) (by decide) (by decide)


/-- Two sorted lists that are permutations of each other and have
pairwise-distinct pids are equal. -/
theorem sorted_perm_eq : ∀ {l₁ l₂ : List Process}, l₁.Perm l₂ →
    l₁.Pairwise (fun a b => procLe a b = true) →
    l₂.Pairwise (fun a b => procLe a b = true) →
    (∀ a ∈ l₁, ∀ b ∈ l₁, a.pid = b.pid → a = b) → l₁ = l₂ := by
  intro l₁
  induction l₁ with
  | nil =>
    intro l₂ hperm _ _ _
    exact (List.Perm.eq_nil hperm.symm).symm
  | cons x xs ih =>
    intro l₂ hperm hs₁ hs₂ hanti
    cases l₂ with
    | nil =>
      have := List.Perm.eq_nil hperm
      cases this
    | cons y ys =>
      have hxy : x = y := by
        have hxmem : x ∈ y :: ys := hperm.subset (List.mem_cons_self _ _)
        have hymem : y ∈ x :: xs := hperm.symm.subset (List.mem_cons_self _ _)
        rcases List.mem_cons.mp hxmem with h | hx2
        · exact h
        rcases List.mem_cons.mp hymem with h | hy2
        · exact h.symm
        have h1 : procLe x y = true := (List.pairwise_cons.mp hs₁).1 y hy2
        have h2 : procLe y x = true := (List.pairwise_cons.mp hs₂).1 x hx2
        have hpid : x.pid = y.pid := by
          rw [procLe_iff] at h1 h2
          rcases h1 with ha1 | ⟨he1, hb1⟩ <;> rcases h2 with ha2 | ⟨he2, hb2⟩
          · omega
          · omega
          · omega
          · rcases hb1 with hc1 | ⟨hd1, hp1⟩ <;> rcases hb2 with hc2 | ⟨hd2, hp2⟩
            · omega
            · omega
            · omega
            · exact le_antisymm hp1 hp2
        exact hanti x (List.mem_cons_self _ _) y hymem hpid
      subst hxy
      have htail := hperm.cons_inv
      have hteq := ih htail (List.pairwise_cons.mp hs₁).2 (List.pairwise_cons.mp hs₂).2
        (fun a ha b hb => hanti a (List.mem_cons_of_mem _ ha) b (List.mem_cons_of_mem _ hb))
      rw [hteq]

/-- Permuted inputs with unique pids sort to the same list. -/
theorem sortProcs_eq_of_perm {ps₁ ps₂ : List Process} (hperm : ps₁.Perm ps₂)
    (hnd : (ps₁.map Process.pid).Nodup) : sortProcs ps₁ = sortProcs ps₂ := by
  refine sorted_perm_eq ((sortProcs_perm ps₁).trans (hperm.trans (sortProcs_perm ps₂).symm))
    (sortProcs_pairwise ps₁) (sortProcs_pairwise ps₂) ?_
  intro a ha b hb hpid
  exact List.inj_on_of_nodup_map hnd ((sortProcs_perm ps₁).mem_iff.mp ha)
    ((sortProcs_perm ps₁).mem_iff.mp hb) hpid

/-- C8: `run` is deterministic — it is a pure function of the input
multiset, so permuting the input collection (with the spec's unique pids)
yields an identical `ScheduleResult`, every field included. -/
theorem C8_determinism (aging : Int) (ps₁ ps₂ : List Process) (max_time : Option Nat)
    (fuel : Nat) (hperm : ps₁.Perm ps₂) (hnd : (ps₁.map Process.pid).Nodup) :
    run aging ps₁ max_time fuel = run aging ps₂ max_time fuel := by
  have hsort : sortProcs ps₁ = sortProcs ps₂ := sortProcs_eq_of_perm hperm hnd
  have hemp : ps₁.isEmpty = ps₂.isEmpty := by
    have hlen := hperm.length_eq
    cases ps₁ with
    | nil =>
      cases ps₂ with
      | nil => rfl
      | cons _ _ => simp at hlen
    | cons _ _ =>
      cases ps₂ with
      | nil => simp at hlen
      | cons _ _ => rfl
  have hinit : initState ps₁ = initState ps₂ := by
    rw [initState, initState, hsort]
  rw [run, run, hemp, hsort, hinit]

/-- Witness for C8: the C3 example input, given in both orders. -/
theorem C8_determinism_witness :
    run 10 [⟨"A", 0, 1, 2, 2, 0, none, none⟩, ⟨"B", 0, 5, 2, 2, 0, none, none⟩]
        none 5 =
      run 10 [⟨"B", 0, 5, 2, 2, 0, none, none⟩, ⟨"A", 0, 1, 2, 2, 0, none, none⟩]
        none 5 :=
  C8_determinism 10
    [⟨"A", 0, 1, 2, 2, 0, none, none⟩, ⟨"B", 0, 5, 2, 2, 0, none, none⟩]
    [⟨"B", 0, 5, 2, 2, 0, none, none⟩, ⟨"A", 0, 1, 2, 2, 0, none, none⟩]
    none 5
    (List.Perm.swap (⟨"B", 0, 5, 2, 2, 0, none, none⟩ : Process)
      (⟨"A", 0, 1, 2, 2, 0, none, none⟩ : Process) [])
    (by decide)


/-- `eff_priority` ignores `aging_interval` values larger than the time
waited: the boost is zero either way. -/
theorem eff_congr_small (a b : Int) (p : Process) (now : Int)
    (ha : (max 0 (now - p.last_enqueued)).toNat < a.toNat)
    (hb : (max 0 (now - p.last_enqueued)).toNat < b.toNat) :
    eff_priority a p now = eff_priority b p now := by
  simp only [eff_priority]
  rw [Nat.div_eq_of_lt ha, Nat.div_eq_of_lt hb]

/-- The preemption check depends on `aging_interval` only through the
effective priorities of the stored processes at the current clock. -/
theorem preemptCheck_congr {a b : Int} {s : SchedState}
    (h : ∀ p ∈ s.procs, eff_priority a p (s.clock : Int) =
      eff_priority b p (s.clock : Int)) :
    preemptCheck a s = preemptCheck b s := by
  rw [preemptCheck]
  split
  · rename_i herr
    rw [preemptCheck, if_pos herr]
  · rename_i herr
    rw [preemptCheck, if_neg herr]
    split
    · rfl
    · rename_i curPid hcur
      by_cases hemp : s.ready.is_empty = true
      · rw [if_pos hemp, if_pos hemp]
      · rw [if_neg hemp, if_neg hemp]
        split
        · rfl
        · rename_i candPid r1 hx1
          split
          · rfl
          · rename_i cand hc1
            split
            · rfl
            · rename_i cur hk1
              rw [h cand (getProc_spec hc1).1, h cur (getProc_spec hk1).1]

/-- One loop iteration depends on `aging_interval` only through the
effective priorities at the preemption check. -/
theorem tick_congr {a b : Int} {s : SchedState}
    (h : ∀ p ∈ (dispatchIfIdle (admitArrivals s)).procs,
      eff_priority a p ((dispatchIfIdle (admitArrivals s)).clock : Int) =
      eff_priority b p ((dispatchIfIdle (admitArrivals s)).clock : Int)) :
    tick a s = tick b s := by
  rw [tick, tick, preemptCheck_congr h]

theorem stepRun_congr {a b : Int} {max_time : Option Nat} {n : Nat} {s : SchedState}
    (h : ∀ p ∈ (dispatchIfIdle (admitArrivals s)).procs,
      eff_priority a p ((dispatchIfIdle (admitArrivals s)).clock : Int) =
      eff_priority b p ((dispatchIfIdle (admitArrivals s)).clock : Int)) :
    stepRun a max_time n s = stepRun b max_time n s := by
  rw [stepRun, stepRun]
  by_cases herr : s.err = true
  · rw [if_pos herr, if_pos herr]
  · rw [if_neg herr, if_neg herr]
    by_cases hcc : s.completed < n
    · rw [if_pos hcc, if_pos hcc]
      by_cases hstop : stopCond max_time s = true
      · rw [if_pos hstop, if_pos hstop]
      · rw [if_neg hstop, if_neg hstop]
        exact tick_congr h
    · rw [if_neg hcc, if_neg hcc]

/-- The guarded step is the identity once everything has completed. -/
theorem stepRun_done {aging : Int} {max_time : Option Nat} {n : Nat} {s : SchedState}
    (h : ¬ s.completed < n) : stepRun aging max_time n s = s := by
  rw [stepRun]
  by_cases herr : s.err = true
  · rw [if_pos herr]
  · rw [if_neg herr, if_neg h]


/-- C3: the spec's two-process worked example, for every positive
`aging_interval` and any sufficient fuel: A runs ticks 0–1, B runs ticks
2–3, with the stated completion and waiting times.  Aging never fires
because every wait during the four ticks is shorter than any positive
interval's effect threshold (intervals 1–3 are checked by evaluation,
larger ones give boost 0 exactly like interval 4). -/
theorem C3_two_process_example (aging : Int) (hpos : 0 < aging) (k : Nat) :
    (run aging [⟨"A", 0, 1, 2, 2, 0, none, none⟩, ⟨"B", 0, 5, 2, 2, 0, none, none⟩]
      none (k + 4)).timeline = ["A", "A", "B", "B"] ∧
    (run aging [⟨"A", 0, 1, 2, 2, 0, none, none⟩, ⟨"B", 0, 5, 2, 2, 0, none, none⟩]
      none (k + 4)).completion_times = [("A", 2), ("B", 4)] ∧
    (run aging [⟨"A", 0, 1, 2, 2, 0, none, none⟩, ⟨"B", 0, 5, 2, 2, 0, none, none⟩]
      none (k + 4)).waiting_times = [("A", 0), ("B", 2)] := by
  have ht : aging.toNat = 1 ∨ aging.toNat = 2 ∨ aging.toNat = 3 ∨ 4 ≤ aging.toNat := by
    omega
  rcases ht with h1 | h1 | h1 | h4
  · have ha : aging = 1 := by omega
    subst ha
    rw [run, if_neg (by decide)]
    rw [show (sortProcs [⟨"A", 0, 1, 2, 2, 0, none, none⟩,
      ⟨"B", 0, 5, 2, 2, 0, none, none⟩]).length = 2 from by decide]
    rw [Function.iterate_add_apply]
    rw [Function.iterate_fixed (stepRun_done (by decide))]
    exact ⟨by decide, by decide, by decide⟩
  · have ha : aging = 2 := by omega
    subst ha
    rw [run, if_neg (by decide)]
    rw [show (sortProcs [⟨"A", 0, 1, 2, 2, 0, none, none⟩,
      ⟨"B", 0, 5, 2, 2, 0, none, none⟩]).length = 2 from by decide]
    rw [Function.iterate_add_apply]
    rw [Function.iterate_fixed (stepRun_done (by decide))]
    exact ⟨by decide, by decide, by decide⟩
  · have ha : aging = 3 := by omega
    subst ha
    rw [run, if_neg (by decide)]
    rw [show (sortProcs [⟨"A", 0, 1, 2, 2, 0, none, none⟩,
      ⟨"B", 0, 5, 2, 2, 0, none, none⟩]).length = 2 from by decide]
    rw [Function.iterate_add_apply]
    rw [Function.iterate_fixed (stepRun_done (by decide))]
    exact ⟨by decide, by decide, by decide⟩
  · have e0 : stepRun aging none 2 (initState [⟨"A", 0, 1, 2, 2, 0, none, none⟩,
        ⟨"B", 0, 5, 2, 2, 0, none, none⟩]) =
        stepRun 4 none 2 (initState [⟨"A", 0, 1, 2, 2, 0, none, none⟩,
        ⟨"B", 0, 5, 2, 2, 0, none, none⟩]) := by
      refine stepRun_congr ?_
      intro p hp
      rw [show (dispatchIfIdle (admitArrivals (initState
        [⟨"A", 0, 1, 2, 2, 0, none, none⟩, ⟨"B", 0, 5, 2, 2, 0, none, none⟩]))).procs =
        [⟨"A", 0, 1, 2, 2, 0, some 0, none⟩, ⟨"B", 0, 5, 2, 2, 0, none, none⟩]
        from rfl] at hp
      rw [show ((dispatchIfIdle (admitArrivals (initState
        [⟨"A", 0, 1, 2, 2, 0, none, none⟩,
          ⟨"B", 0, 5, 2, 2, 0, none, none⟩]))).clock : Int) = (0 : Int) from rfl]
      rcases List.mem_cons.mp hp with rfl | hp2
      · refine eff_congr_small aging 4 _ _ ?_ (by decide)
        show (max 0 ((0 : Int) - 0)).toNat < aging.toNat
        omega
      rcases List.mem_cons.mp hp2 with rfl | hp3
      · refine eff_congr_small aging 4 _ _ ?_ (by decide)
        show (max 0 ((0 : Int) - 0)).toNat < aging.toNat
        omega
      · cases hp3
    have e1 : stepRun aging none 2 (stepRun 4 none 2 (initState
        [⟨"A", 0, 1, 2, 2, 0, none, none⟩, ⟨"B", 0, 5, 2, 2, 0, none, none⟩])) =
        stepRun 4 none 2 (stepRun 4 none 2 (initState
        [⟨"A", 0, 1, 2, 2, 0, none, none⟩, ⟨"B", 0, 5, 2, 2, 0, none, none⟩])) := by
      refine stepRun_congr ?_
      intro p hp
      rw [show (dispatchIfIdle (admitArrivals (stepRun 4 none 2 (initState
        [⟨"A", 0, 1, 2, 2, 0, none, none⟩,
          ⟨"B", 0, 5, 2, 2, 0, none, none⟩])))).procs =
        [⟨"A", 0, 1, 2, 1, 0, some 0, none⟩, ⟨"B", 0, 5, 2, 2, 0, none, none⟩]
        from rfl] at hp
      rw [show ((dispatchIfIdle (admitArrivals (stepRun 4 none 2 (initState
        [⟨"A", 0, 1, 2, 2, 0, none, none⟩,
          ⟨"B", 0, 5, 2, 2, 0, none, none⟩])))).clock : Int) = (1 : Int) from rfl]
      rcases List.mem_cons.mp hp with rfl | hp2
      · refine eff_congr_small aging 4 _ _ ?_ (by decide)
        show (max 0 ((1 : Int) - 0)).toNat < aging.toNat
        omega
      rcases List.mem_cons.mp hp2 with rfl | hp3
      · refine eff_congr_small aging 4 _ _ ?_ (by decide)
        show (max 0 ((1 : Int) - 0)).toNat < aging.toNat
        omega
      · cases hp3
    have e2 : stepRun aging none 2 (stepRun 4 none 2 (stepRun 4 none 2 (initState
        [⟨"A", 0, 1, 2, 2, 0, none, none⟩, ⟨"B", 0, 5, 2, 2, 0, none, none⟩]))) =
        stepRun 4 none 2 (stepRun 4 none 2 (stepRun 4 none 2 (initState
        [⟨"A", 0, 1, 2, 2, 0, none, none⟩, ⟨"B", 0, 5, 2, 2, 0, none, none⟩]))) := by
      refine stepRun_congr ?_
      intro p hp
      rw [show (dispatchIfIdle (admitArrivals (stepRun 4 none 2 (stepRun 4 none 2
        (initState [⟨"A", 0, 1, 2, 2, 0, none, none⟩,
          ⟨"B", 0, 5, 2, 2, 0, none, none⟩]))))).procs =
        [⟨"A", 0, 1, 2, 0, 0, some 0, some 2⟩, ⟨"B", 0, 5, 2, 2, 0, some 2, none⟩]
        from rfl] at hp
      rw [show ((dispatchIfIdle (admitArrivals (stepRun 4 none 2 (stepRun 4 none 2
        (initState [⟨"A", 0, 1, 2, 2, 0, none, none⟩,
          ⟨"B", 0, 5, 2, 2, 0, none, none⟩]))))).clock : Int) = (2 : Int) from rfl]
      rcases List.mem_cons.mp hp with rfl | hp2
      · refine eff_congr_small aging 4 _ _ ?_ (by decide)
        show (max 0 ((2 : Int) - 0)).toNat < aging.toNat
        omega
      rcases List.mem_cons.mp hp2 with rfl | hp3
      · refine eff_congr_small aging 4 _ _ ?_ (by decide)
        show (max 0 ((2 : Int) - 0)).toNat < aging.toNat
        omega
      · cases hp3
    have e3 : stepRun aging none 2 (stepRun 4 none 2 (stepRun 4 none 2 (stepRun 4 none 2
        (initState [⟨"A", 0, 1, 2, 2, 0, none, none⟩,
          ⟨"B", 0, 5, 2, 2, 0, none, none⟩])))) =
        stepRun 4 none 2 (stepRun 4 none 2 (stepRun 4 none 2 (stepRun 4 none 2
        (initState [⟨"A", 0, 1, 2, 2, 0, none, none⟩,
          ⟨"B", 0, 5, 2, 2, 0, none, none⟩])))) := by
      refine stepRun_congr ?_
      intro p hp
      rw [show (dispatchIfIdle (admitArrivals (stepRun 4 none 2 (stepRun 4 none 2
        (stepRun 4 none 2 (initState [⟨"A", 0, 1, 2, 2, 0, none, none⟩,
          ⟨"B", 0, 5, 2, 2, 0, none, none⟩])))))).procs =
        [⟨"A", 0, 1, 2, 0, 0, some 0, some 2⟩, ⟨"B", 0, 5, 2, 1, 0, some 2, none⟩]
        from rfl] at hp
      rw [show ((dispatchIfIdle (admitArrivals (stepRun 4 none 2 (stepRun 4 none 2
        (stepRun 4 none 2 (initState [⟨"A", 0, 1, 2, 2, 0, none, none⟩,
          ⟨"B", 0, 5, 2, 2, 0, none, none⟩])))))).clock : Int) = (3 : Int) from rfl]
      rcases List.mem_cons.mp hp with rfl | hp2
      · refine eff_congr_small aging 4 _ _ ?_ (by decide)
        show (max 0 ((3 : Int) - 0)).toNat < aging.toNat
        omega
      rcases List.mem_cons.mp hp2 with rfl | hp3
      · refine eff_congr_small aging 4 _ _ ?_ (by decide)
        show (max 0 ((3 : Int) - 0)).toNat < aging.toNat
        omega
      · cases hp3
    have hit : ∀ (f : SchedState → SchedState) (x : SchedState),
        f^[4] x = f (f (f (f x))) := fun f x => rfl
    rw [run, if_neg (by decide)]
    rw [show (sortProcs [⟨"A", 0, 1, 2, 2, 0, none, none⟩,
      ⟨"B", 0, 5, 2, 2, 0, none, none⟩]).length = 2 from by decide]
    rw [Function.iterate_add_apply]
    rw [hit, e0, e1, e2, e3]
    rw [Function.iterate_fixed (stepRun_done (by decide))]
    exact ⟨by decide, by decide, by decide⟩

/-- Witness for C3 at `aging_interval = 10` and minimal fuel. -/
theorem C3_two_process_example_witness :
    (run 10 [⟨"A", 0, 1, 2, 2, 0, none, none⟩, ⟨"B", 0, 5, 2, 2, 0, none, none⟩]
      none (0 + 4)).timeline = ["A", "A", "B", "B"] ∧
    (run 10 [⟨"A", 0, 1, 2, 2, 0, none, none⟩, ⟨"B", 0, 5, 2, 2, 0, none, none⟩]
      none (0 + 4)).completion_times = [("A", 2), ("B", 4)] ∧
    (run 10 [⟨"A", 0, 1, 2, 2, 0, none, none⟩, ⟨"B", 0, 5, 2, 2, 0, none, none⟩]
      none (0 + 4)).waiting_times = [("A", 0), ("B", 2)] :=
  C3_two_process_example 10 (by decide) 0


/-- C1: the preemption-check semantics.  In any reachable state with a
running process and a non-empty ready queue, the check extracts the head
candidate, reinserts it at its recomputed effective priority
`max(1, base_priority - floor(max(0, now - last_enqueued) / aging_interval))`,
recomputes the running process's effective priority the same way, peeks
the (possibly different) new head, and preempts exactly when the head's
effective priority is strictly lower: then the running process's
`last_enqueued` becomes the current tick, it is reinserted at its
recomputed priority, and the new minimum is dispatched with `start_time`
recorded if still unset; otherwise only the candidate reinsertion (and
the peek's lazy purge) remains. -/
theorem C1_preemption_semantics {init : List Process} (hok : InitOk init) (aging : Int)
    {s : SchedState} (inv : Inv init s) {curPid : String} (hcur : s.current = some curPid)
    (hne : s.ready.is_empty = false) :
    ∃ (candPid : String) (r1 : BinaryHeap String) (cand cur : Process)
      (top : Prio) (r3 : BinaryHeap String),
      s.ready.extract_min = some (candPid, r1) ∧
      getProc s.procs candPid = some cand ∧
      getProc s.procs curPid = some cur ∧
      (r1.insert cand.pid candPid
        (eff_priority aging cand (s.clock : Int), cand.arrival, 0)).peek_min_priority =
        some (top, r3) ∧
      (∀ p : Process, ∀ now : Int, eff_priority aging p now =
        max 1 (p.base_priority -
          (((max 0 (now - p.last_enqueued)).toNat / aging.toNat : Nat) : Int))) ∧
      (¬ top.1 < eff_priority aging cur (s.clock : Int) →
        preemptCheck aging s = { s with ready := r3 }) ∧
      (top.1 < eff_priority aging cur (s.clock : Int) →
        ∃ (newPid : String) (r5 : BinaryHeap String) (np : Process),
          (r3.insert cur.pid cur.pid
            (eff_priority aging cur (s.clock : Int), cur.arrival, 0)).extract_min =
            some (newPid, r5) ∧
          getProc (setProc s.procs { cur with last_enqueued := (s.clock : Int) })
            newPid = some np ∧
          preemptCheck aging s = { s with ready := r5, procs := setProc (setProc s.procs { cur with last_enqueued := (s.clock : Int) }) (if np.start_time = none then { np with start_time := some (s.clock : Int) } else np), current := some newPid }) := by
  obtain ⟨⟨candPid, r1⟩, hx1⟩ := extract_total inv hne
  obtain ⟨cand, hcand⟩ := extract_getProc hok inv hx1
  obtain ⟨cur, hcurp⟩ := cur_getProc hok inv hcur
  rcases reinsert_facts hok inv hx1 hcand
    (eff_priority aging cand (s.clock : Int), cand.arrival, 0) with ⟨hwf2, _, _, _⟩
  obtain ⟨⟨top, r3⟩, hpk⟩ := peek_total cand.pid candPid
    (eff_priority aging cand (s.clock : Int), cand.arrival, 0) hwf2
  rcases preempt_peek_facts hok inv hx1 hcand hpk with ⟨hwf3, _, _, _⟩
  refine ⟨candPid, r1, cand, cur, top, r3, hx1, hcand, hcurp, hpk, fun p now => rfl,
    ?_, ?_⟩
  · intro hnp
    rw [preemptCheck, if_neg (by rw [inv.err_false]; simp)]
    split
    · rename_i hcur2
      rw [hcur] at hcur2
      cases hcur2
    · rename_i curPid2 hcur2
      rw [hcur] at hcur2
      injection hcur2 with hcur2
      subst hcur2
      rw [if_neg (by rw [hne]; simp)]
      split
      · rename_i hx2
        rw [hx1] at hx2
        cases hx2
      · rename_i candPid2 r12 hx2
        rw [hx1] at hx2
        injection hx2 with hx2
        injection hx2 with hxa hxb
        subst hxa
        subst hxb
        split
        · rename_i hc2
          rw [hcand] at hc2
          cases hc2
        · rename_i cand2 hc2
          rw [hcand] at hc2
          injection hc2 with hc2
          subst hc2
          split
          · rename_i hk2
            rw [hcurp] at hk2
            cases hk2
          · rename_i cur2 hk2
            rw [hcurp] at hk2
            injection hk2 with hk2
            subst hk2
            split
            · rename_i hpk2
              rw [hpk] at hpk2
              cases hpk2
            · rename_i top2 r32 hpk2
              rw [hpk] at hpk2
              injection hpk2 with hpk2
              injection hpk2 with hpa hpb
              subst hpa
              subst hpb
              rw [if_neg hnp]
  · intro hp
    have hmid := preempt_requeue_inv hok inv hcur hx1 hcand hcurp
      (eff_priority aging cand (s.clock : Int), cand.arrival, 0) hpk
      (eff_priority aging cur (s.clock : Int), cur.arrival, 0)
    obtain ⟨⟨newPid, r5⟩, hx5⟩ := extract_insert_total cur.pid cur.pid
      (eff_priority aging cur (s.clock : Int), cur.arrival, 0) hwf3
    obtain ⟨np, hnp⟩ := extract_getProc hok hmid hx5
    refine ⟨newPid, r5, np, hx5, hnp, ?_⟩
    rw [preemptCheck, if_neg (by rw [inv.err_false]; simp)]
    split
    · rename_i hcur2
      rw [hcur] at hcur2
      cases hcur2
    · rename_i curPid2 hcur2
      rw [hcur] at hcur2
      injection hcur2 with hcur2
      subst hcur2
      rw [if_neg (by rw [hne]; simp)]
      split
      · rename_i hx2
        rw [hx1] at hx2
        cases hx2
      · rename_i candPid2 r12 hx2
        rw [hx1] at hx2
        injection hx2 with hx2
        injection hx2 with hxa hxb
        subst hxa
        subst hxb
        split
        · rename_i hc2
          rw [hcand] at hc2
          cases hc2
        · rename_i cand2 hc2
          rw [hcand] at hc2
          injection hc2 with hc2
          subst hc2
          split
          · rename_i hk2
            rw [hcurp] at hk2
            cases hk2
          · rename_i cur2 hk2
            rw [hcurp] at hk2
            injection hk2 with hk2
            subst hk2
            split
            · rename_i hpk2
              rw [hpk] at hpk2
              cases hpk2
            · rename_i top2 r32 hpk2
              rw [hpk] at hpk2
              injection hpk2 with hpk2
              injection hpk2 with hpa hpb
              subst hpa
              subst hpb
              rw [if_pos hp]
              split
              · rename_i hx52
                rw [hx5] at hx52
                cases hx52
              · rename_i newPid2 r52 hx52
                rw [hx5] at hx52
                injection hx52 with hx52
                injection hx52 with hna hnb
                subst hna
                subst hnb
                split
                · rename_i hnp2
                  rw [hnp] at hnp2
                  cases hnp2
                · rename_i np2 hnp2
                  rw [hnp] at hnp2
                  injection hnp2 with hnp2
                  subst hnp2
                  rfl


/-- Witness for C1 at the first tick of the C3 example: A runs, B is the
queued candidate. -/
theorem C1_preemption_semantics_witness :
    ∃ (candPid : String) (r1 : BinaryHeap String) (cand cur : Process)
      (top : Prio) (r3 : BinaryHeap String),
      (dispatchIfIdle (admitArrivals (initState [⟨"A", 0, 1, 2, 2, 0, none, none⟩, ⟨"B", 0, 5, 2, 2, 0, none, none⟩]))).ready.extract_min = some (candPid, r1) ∧
      getProc (dispatchIfIdle (admitArrivals (initState [⟨"A", 0, 1, 2, 2, 0, none, none⟩, ⟨"B", 0, 5, 2, 2, 0, none, none⟩]))).procs candPid = some cand ∧
      getProc (dispatchIfIdle (admitArrivals (initState [⟨"A", 0, 1, 2, 2, 0, none, none⟩, ⟨"B", 0, 5, 2, 2, 0, none, none⟩]))).procs "A" = some cur ∧
      (r1.insert cand.pid candPid
        (eff_priority 10 cand ((dispatchIfIdle (admitArrivals (initState [⟨"A", 0, 1, 2, 2, 0, none, none⟩, ⟨"B", 0, 5, 2, 2, 0, none, none⟩]))).clock : Int), cand.arrival, 0)).peek_min_priority =
        some (top, r3) ∧
      (∀ p : Process, ∀ now : Int, eff_priority 10 p now =
        max 1 (p.base_priority -
          (((max 0 (now - p.last_enqueued)).toNat / (10 : Int).toNat : Nat) : Int))) ∧
      (¬ top.1 < eff_priority 10 cur ((dispatchIfIdle (admitArrivals (initState [⟨"A", 0, 1, 2, 2, 0, none, none⟩, ⟨"B", 0, 5, 2, 2, 0, none, none⟩]))).clock : Int) →
        preemptCheck 10 (dispatchIfIdle (admitArrivals (initState [⟨"A", 0, 1, 2, 2, 0, none, none⟩, ⟨"B", 0, 5, 2, 2, 0, none, none⟩]))) = { (dispatchIfIdle (admitArrivals (initState [⟨"A", 0, 1, 2, 2, 0, none, none⟩, ⟨"B", 0, 5, 2, 2, 0, none, none⟩]))) with ready := r3 }) ∧
      (top.1 < eff_priority 10 cur ((dispatchIfIdle (admitArrivals (initState [⟨"A", 0, 1, 2, 2, 0, none, none⟩, ⟨"B", 0, 5, 2, 2, 0, none, none⟩]))).clock : Int) →
        ∃ (newPid : String) (r5 : BinaryHeap String) (np : Process),
          (r3.insert cur.pid cur.pid
            (eff_priority 10 cur ((dispatchIfIdle (admitArrivals (initState [⟨"A", 0, 1, 2, 2, 0, none, none⟩, ⟨"B", 0, 5, 2, 2, 0, none, none⟩]))).clock : Int), cur.arrival, 0)).extract_min =
            some (newPid, r5) ∧
          getProc (setProc (dispatchIfIdle (admitArrivals (initState [⟨"A", 0, 1, 2, 2, 0, none, none⟩, ⟨"B", 0, 5, 2, 2, 0, none, none⟩]))).procs { cur with last_enqueued := ((dispatchIfIdle (admitArrivals (initState [⟨"A", 0, 1, 2, 2, 0, none, none⟩, ⟨"B", 0, 5, 2, 2, 0, none, none⟩]))).clock : Int) })
            newPid = some np ∧
          preemptCheck 10 (dispatchIfIdle (admitArrivals (initState [⟨"A", 0, 1, 2, 2, 0, none, none⟩, ⟨"B", 0, 5, 2, 2, 0, none, none⟩]))) = { (dispatchIfIdle (admitArrivals (initState [⟨"A", 0, 1, 2, 2, 0, none, none⟩, ⟨"B", 0, 5, 2, 2, 0, none, none⟩]))) with ready := r5, procs := setProc (setProc (dispatchIfIdle (admitArrivals (initState [⟨"A", 0, 1, 2, 2, 0, none, none⟩, ⟨"B", 0, 5, 2, 2, 0, none, none⟩]))).procs { cur with last_enqueued := ((dispatchIfIdle (admitArrivals (initState [⟨"A", 0, 1, 2, 2, 0, none, none⟩, ⟨"B", 0, 5, 2, 2, 0, none, none⟩]))).clock : Int) }) (if np.start_time = none then { np with start_time := some ((dispatchIfIdle (admitArrivals (initState [⟨"A", 0, 1, 2, 2, 0, none, none⟩, ⟨"B", 0, 5, 2, 2, 0, none, none⟩]))).clock : Int) } else np), current := some newPid }) :=
  C1_preemption_semantics (by decide) 10
    (dispatch_inv (by decide) (admitArrivals_inv (by decide)
      (initState_inv [⟨"A", 0, 1, 2, 2, 0, none, none⟩,
        ⟨"B", 0, 5, 2, 2, 0, none, none⟩] (by decide))))
    (by decide) (by decide)


end Sched
